import Mathlib

/-!
# The code generator of toylang (`src/codegen.cpp`)

A shallow embedding of the AST-to-IR code generator and theorems about it.

Modelling conventions.

* LLVM objects are records.  A module is the list of its functions in creation
  order.  The generator creates exactly one basic block (`entry`) for every
  function it creates, so a function record carries the instruction list of that
  block and a basic-block handle is the index of the owning function.
* A `Value*` is a `Value` handle; a null pointer is `none`.  The LLVM
  instruction constructors are modelled as total: they record the operands they
  are given (a null operand is recorded as `none`) and append the instruction at
  the end of the block they are given.
* `cerr` is the list of diagnostics written so far.  The progress trace written
  to `cout` is not modelled.
* `codegen.h`, `node.h` and `parser.hpp` are not part of the sources at hand.
  What the generator uses of them is modelled from the specification and marked
  as such.
* Using `top()` or `pop()` of the block stack when it is empty is the fatal
  outcome `Fatal.emptyScopeStack`.
* C++ does not fix the order in which the arguments of one call expression are
  evaluated.  `NBinaryOperator::codeGen` generates both operands inside the
  argument list of `BinaryOperator::Create`, so the embedding takes that order as
  the parameter `ArgOrder`.
-/

namespace Toylang

/-! ## IR data model -/

/-- The LLVM primitive types the generator uses. -/
inductive IRType where
  | int64
  | double
  | void
deriving DecidableEq, Repr

/-- A value handle (`llvm::Value*`, never null). Integer constants carry their
64-bit pattern, floating constants the bit pattern of the double. An instruction
is identified by its basic block and its position in that block. -/
inductive Value where
  | constantInt (ty : IRType) (bits : Nat)
  | constantFP (ty : IRType) (bits : Nat)
  | instruction (block : Nat) (index : Nat)
  | function (index : Nat)
deriving DecidableEq, Repr

/-- The signed reading of a 64-bit pattern. -/
def signed64 (bits : Nat) : Int :=
  if bits < 2 ^ 63 then (bits : Int) else (bits : Int) - 2 ^ 64

/-- `ConstantInt::get(ty, V, isSigned)` with `V` converted to `uint64_t`. -/
def ConstantInt.get (ty : IRType) (value : Int) : Value :=
  Value.constantInt ty (value % 2 ^ 64).toNat

/-- `Instruction::BinaryOps`, the four opcodes the generator selects. -/
inductive BinaryOps where
  | Add
  | Sub
  | Mul
  | SDiv
deriving DecidableEq, Repr

/-- IR instructions. `ret` is `ReturnInst::Create(context, block)`: a return
without a value. -/
inductive Instruction where
  | alloca (ty : IRType) (name : String)
  | load (ptr : Value)
  | store (val : Option Value) (ptr : Value)
  | call (callee : Option Nat) (args : List (Option Value))
  | binary (op : BinaryOps) (lhs rhs : Option Value)
  | ret
deriving DecidableEq, Repr

/-- An IR function with its single basic block `entry`. -/
structure Function where
  name : String
  returnType : IRType
  paramTypes : List IRType
  entry : List Instruction
deriving DecidableEq, Repr

/-- An IR module: its functions in creation order and the counter the symbol
table uses to rename a function whose name is taken. -/
structure Module where
  functions : List Function
  lastUnique : Nat
deriving DecidableEq, Repr

/-- `Module::getFunction(name)`: the function of that name, or null. -/
def Module.getFunction (m : Module) (name : String) : Option Nat :=
  let i := m.functions.findIdx (fun f => f.name == name)
  if i < m.functions.length then some i else none

/-- Whether a name is taken in the module's symbol table. -/
def Module.hasName (m : Module) (name : String) : Bool :=
  m.functions.any (fun f => f.name == name)

/-- The renaming loop of the symbol table: append the next value of the counter
to the base name until the result is free. Returns the name and the counter. -/
def Module.uniqueName (m : Module) (base : String) : Nat → Nat → String × Nat
  | 0, k => (base ++ toString (k + 1), k + 1)
  | fuel + 1, k =>
    if m.hasName (base ++ toString (k + 1)) then m.uniqueName base fuel (k + 1)
    else (base ++ toString (k + 1), k + 1)

/-- `Function::Create(FunctionType::get(ret, params, false), linkage, name, module)`
followed by `BasicBlock::Create(context, "entry", function, 0)`: the new function
is added at the end of the module with an empty entry block. Returns the module
and the handle of the function, which is also the handle of its entry block. -/
def Module.createFunction (m : Module) (ret : IRType) (params : List IRType)
    (name : String) : Module × Nat :=
  let named : String × Nat :=
    if m.hasName name then m.uniqueName name m.functions.length m.lastUnique
    else (name, m.lastUnique)
  ({ functions := m.functions ++ [{ name := named.1, returnType := ret,
                                    paramTypes := params, entry := [] }],
     lastUnique := named.2 }, m.functions.length)

/-- Construct an instruction with an insert-at-end block: the instruction is
appended to the block and its handle returned. -/
def Module.insertAtEnd (m : Module) (block : Nat) (i : Instruction) : Module × Value :=
  match m.functions[block]? with
  | some f =>
    ({ m with functions := m.functions.set block { f with entry := f.entry ++ [i] } },
     Value.instruction block f.entry.length)
  | none => (m, Value.instruction block 0)

/-- The instructions of a basic block. -/
def Module.blockOf (m : Module) (block : Nat) : List Instruction :=
  match m.functions[block]? with
  | some f => f.entry
  | none => []

/-! ## Generator state -/

/-- What the generator writes to `cerr`. -/
inductive Diagnostic where
  | undeclaredVariable (name : String)
  | noSuchFunction (name : String)
deriving DecidableEq, Repr

/-- Fatal outcomes. -/
inductive Fatal where
  | emptyScopeStack
deriving DecidableEq, Repr

/-- Modelled from the spec: `CodeGenBlock` of `codegen.h`, a scope frame: the
insertion block and the map from variable names to storage locations (unique
keys). -/
structure CodeGenBlock where
  block : Nat
  locals : List (String × Value)
deriving DecidableEq, Repr

/-- Modelled from the spec: `CodeGenContext` of `codegen.h`: the stack of scope
frames (top first), the module and the entry function, together with the
diagnostics written to `cerr`. -/
structure CodeGenContext where
  blocks : List CodeGenBlock
  module : Module
  mainFunction : Option Nat
  cerr : List Diagnostic
deriving DecidableEq, Repr

/-- Modelled from the spec: the context a generation pass starts from: an empty
module and an empty scope stack. -/
def CodeGenContext.fresh : CodeGenContext :=
  { blocks := [], module := { functions := [], lastUnique := 0 },
    mainFunction := none, cerr := [] }

/-- Modelled from the spec: `locals()`, the map of the current frame. -/
def CodeGenContext.locals (ctx : CodeGenContext) : Except Fatal (List (String × Value)) :=
  match ctx.blocks with
  | [] => Except.error Fatal.emptyScopeStack
  | top :: _ => Except.ok top.locals

/-- Modelled from the spec: `currentBlock()`, the insertion block of the current
frame. -/
def CodeGenContext.currentBlock (ctx : CodeGenContext) : Except Fatal Nat :=
  match ctx.blocks with
  | [] => Except.error Fatal.emptyScopeStack
  | top :: _ => Except.ok top.block

/-- Modelled from the spec: `pushBlock(block)`: a new frame with no locals
becomes current. -/
def CodeGenContext.pushBlock (ctx : CodeGenContext) (block : Nat) : CodeGenContext :=
  { ctx with blocks := { block := block, locals := [] } :: ctx.blocks }

/-- Modelled from the spec: `popBlock()`: discard the current frame; fatal on an
empty stack. -/
def CodeGenContext.popBlock (ctx : CodeGenContext) : Except Fatal CodeGenContext :=
  match ctx.blocks with
  | [] => Except.error Fatal.emptyScopeStack
  | _ :: rest => Except.ok { ctx with blocks := rest }

/-- Lookup in a frame map (`find`). -/
def lookupLocal (ls : List (String × Value)) (name : String) : Option Value :=
  match ls with
  | [] => none
  | (k, v) :: rest => if k = name then some v else lookupLocal rest name

/-- Assignment `map[name] = v`: overwrite the binding of `name` or add one. -/
def assignLocal (ls : List (String × Value)) (name : String) (v : Value) :
    List (String × Value) :=
  match ls with
  | [] => [(name, v)]
  | (k, w) :: rest => if k = name then (k, v) :: rest else (k, w) :: assignLocal rest name v

/-- Modelled from the spec: `locals()[name] = v` (`declare`). -/
def CodeGenContext.declare (ctx : CodeGenContext) (name : String) (v : Value) :
    Except Fatal CodeGenContext :=
  match ctx.blocks with
  | [] => Except.error Fatal.emptyScopeStack
  | top :: rest =>
    Except.ok { ctx with blocks := { top with locals := assignLocal top.locals name v } :: rest }

/-- Write a diagnostic to `cerr`. -/
def CodeGenContext.report (ctx : CodeGenContext) (d : Diagnostic) : CodeGenContext :=
  { ctx with cerr := ctx.cerr ++ [d] }

/-- Append an instruction to a block of the context's module. -/
def CodeGenContext.emit (ctx : CodeGenContext) (block : Nat) (i : Instruction) :
    Value × CodeGenContext :=
  ((ctx.module.insertAtEnd block i).2, { ctx with module := (ctx.module.insertAtEnd block i).1 })

/-! ## AST -/

/-- Modelled from the spec: the operator tokens of `parser.hpp`: the four
arithmetic tokens and any other token code. -/
inductive Token where
  | TPLUS
  | TMINUS
  | TMUL
  | TDIV
  | other (code : Nat)
deriving DecidableEq, Repr

/-- Modelled from the spec: the expression nodes of `node.h`. An integer literal
holds a 64-bit signed value, a double literal the bit pattern of its value. -/
inductive NExpression where
  | integer (value : Int)
  | double (value : Nat)
  | identifier (name : String)
  | methodCall (id : String) (arguments : List NExpression)
  | binaryOperator (op : Token) (leftSide rightSide : NExpression)
deriving Repr

/-- Modelled from the spec: `NVariableDeclaration` of `node.h`; `assignmentExpr`
is null when there is no initializer. -/
structure NVariableDeclaration where
  type : String
  id : String
  assignmentExpr : Option NExpression
deriving Repr

/-- Modelled from the spec: the statement nodes of `node.h`. A block is its
statement list. -/
inductive NStatement where
  | block (statements : List NStatement)
  | assignment (leftSide : String) (rightSide : NExpression)
  | expressionStatement (expression : NExpression)
  | variableDeclaration (decl : NVariableDeclaration)
  | functionDeclaration (type : String) (id : String)
      (arguments : List NVariableDeclaration) (block : List NStatement)
deriving Repr

/-- The order in which the compiler evaluates the two operand arguments of
`BinaryOperator::Create(instr, leftSide.codeGen(context), rightSide.codeGen(context), ...)`.
C++ leaves it unspecified; both orders occur among common compilers. -/
inductive ArgOrder where
  | leftToRight
  | rightToLeft
deriving DecidableEq, Repr

/-- What a `codeGen` method yields: a fatal outcome, or the returned `Value*`
(null is `none`) and the context afterwards. -/
abbrev Gen := Except Fatal (Option Value × CodeGenContext)

/-! ## The generator -/

/-- `typeOf`: the LLVM type for a type name. -/
def typeOf (name : String) : IRType :=
  if name = "int" then IRType.int64
  else if name = "double" then IRType.double
  else IRType.void

/-- `NInteger::codeGen`. -/
def NInteger.codeGen (value : Int) (ctx : CodeGenContext) : Gen :=
  Except.ok (some (ConstantInt.get IRType.int64 value), ctx)

/-- `NDouble::codeGen`. -/
def NDouble.codeGen (value : Nat) (ctx : CodeGenContext) : Gen :=
  Except.ok (some (Value.constantFP IRType.double value), ctx)

/-- `NIdentifier::codeGen`. -/
def NIdentifier.codeGen (name : String) (ctx : CodeGenContext) : Gen :=
  match ctx.locals with
  | Except.error e => Except.error e
  | Except.ok ls =>
    match lookupLocal ls name with
    | none => Except.ok (none, ctx.report (Diagnostic.undeclaredVariable name))
    | some loc =>
      match ctx.currentBlock with
      | Except.error e => Except.error e
      | Except.ok bb =>
        Except.ok (some (ctx.emit bb (Instruction.load loc)).1,
                   (ctx.emit bb (Instruction.load loc)).2)

/-- The `switch` of `NBinaryOperator::codeGen`: the opcode for a token, `none`
when no case matches. -/
def binaryOpsOf : Token → Option BinaryOps
  | Token.TPLUS => some BinaryOps.Add
  | Token.TMINUS => some BinaryOps.Sub
  | Token.TMUL => some BinaryOps.Mul
  | Token.TDIV => some BinaryOps.SDiv
  | Token.other _ => none

mutual
/-- The `codeGen` methods of the expression nodes. -/
def NExpression.codeGen (ord : ArgOrder) : NExpression → CodeGenContext → Gen
  | NExpression.integer value, ctx => NInteger.codeGen value ctx
  | NExpression.double value, ctx => NDouble.codeGen value ctx
  | NExpression.identifier name, ctx => NIdentifier.codeGen name ctx
  | NExpression.methodCall id arguments, ctx =>
    -- NMethodCall::codeGen
    let function := ctx.module.getFunction id
    let ctx0 := if function = none then ctx.report (Diagnostic.noSuchFunction id) else ctx
    match NExpression.codeGenArgs ord arguments ctx0 with
    | Except.error e => Except.error e
    | Except.ok (args, ctx1) =>
      match ctx1.currentBlock with
      | Except.error e => Except.error e
      | Except.ok bb =>
        Except.ok (some (ctx1.emit bb (Instruction.call function args)).1,
                   (ctx1.emit bb (Instruction.call function args)).2)
  | NExpression.binaryOperator op leftSide rightSide, ctx =>
    -- NBinaryOperator::codeGen
    match binaryOpsOf op with
    | none => Except.ok (none, ctx)
    | some instr =>
      match ord with
      | ArgOrder.leftToRight =>
        match NExpression.codeGen ord leftSide ctx with
        | Except.error e => Except.error e
        | Except.ok (l, ctx1) =>
          match NExpression.codeGen ord rightSide ctx1 with
          | Except.error e => Except.error e
          | Except.ok (r, ctx2) =>
            match ctx2.currentBlock with
            | Except.error e => Except.error e
            | Except.ok bb =>
              Except.ok (some (ctx2.emit bb (Instruction.binary instr l r)).1,
                         (ctx2.emit bb (Instruction.binary instr l r)).2)
      | ArgOrder.rightToLeft =>
        match NExpression.codeGen ord rightSide ctx with
        | Except.error e => Except.error e
        | Except.ok (r, ctx1) =>
          match NExpression.codeGen ord leftSide ctx1 with
          | Except.error e => Except.error e
          | Except.ok (l, ctx2) =>
            match ctx2.currentBlock with
            | Except.error e => Except.error e
            | Except.ok bb =>
              Except.ok (some (ctx2.emit bb (Instruction.binary instr l r)).1,
                         (ctx2.emit bb (Instruction.binary instr l r)).2)
/-- The argument loop of `NMethodCall::codeGen`: generate the arguments first to
last, collecting the values. -/
def NExpression.codeGenArgs (ord : ArgOrder) :
    List NExpression → CodeGenContext → Except Fatal (List (Option Value) × CodeGenContext)
  | [], ctx => Except.ok ([], ctx)
  | e :: es, ctx =>
    match NExpression.codeGen ord e ctx with
    | Except.error err => Except.error err
    | Except.ok (v, ctx1) =>
      match NExpression.codeGenArgs ord es ctx1 with
      | Except.error err => Except.error err
      | Except.ok (vs, ctx2) => Except.ok (v :: vs, ctx2)
end

/-- `NAssignment::codeGen`. The right-hand side does not change the scope stack
(`expression_extend`), so the order in which the arguments of
`new StoreInst(...)` are evaluated makes no difference. -/
def NAssignment.codeGen (ord : ArgOrder) (leftSide : String) (rightSide : NExpression)
    (ctx : CodeGenContext) : Gen :=
  match ctx.locals with
  | Except.error e => Except.error e
  | Except.ok ls =>
    match lookupLocal ls leftSide with
    | none => Except.ok (none, ctx.report (Diagnostic.undeclaredVariable leftSide))
    | some loc =>
      match NExpression.codeGen ord rightSide ctx with
      | Except.error e => Except.error e
      | Except.ok (v, ctx1) =>
        match ctx1.currentBlock with
        | Except.error e => Except.error e
        | Except.ok bb =>
          Except.ok (some (ctx1.emit bb (Instruction.store v loc)).1,
                     (ctx1.emit bb (Instruction.store v loc)).2)

/-- `NExpressionStatement::codeGen`. -/
def NExpressionStatement.codeGen (ord : ArgOrder) (expression : NExpression)
    (ctx : CodeGenContext) : Gen :=
  NExpression.codeGen ord expression ctx

/-- `NVariableDeclaration::codeGen`. -/
def NVariableDeclaration.codeGen (ord : ArgOrder) (d : NVariableDeclaration)
    (ctx : CodeGenContext) : Gen :=
  match ctx.currentBlock with
  | Except.error e => Except.error e
  | Except.ok bb =>
    let alloc := (ctx.emit bb (Instruction.alloca (typeOf d.type) d.id)).1
    match (ctx.emit bb (Instruction.alloca (typeOf d.type) d.id)).2.declare d.id alloc with
    | Except.error e => Except.error e
    | Except.ok ctx1 =>
      match d.assignmentExpr with
      | none => Except.ok (some alloc, ctx1)
      | some e =>
        match NAssignment.codeGen ord d.id e ctx1 with
        | Except.error err => Except.error err
        | Except.ok (_, ctx2) => Except.ok (some alloc, ctx2)

/-- The second loop of `NFunctionDeclaration::codeGen`: generate the parameter
declarations first to last. -/
def codeGenParams (ord : ArgOrder) :
    List NVariableDeclaration → CodeGenContext → Except Fatal CodeGenContext
  | [], ctx => Except.ok ctx
  | d :: ds, ctx =>
    match NVariableDeclaration.codeGen ord d ctx with
    | Except.error e => Except.error e
    | Except.ok (_, ctx1) => codeGenParams ord ds ctx1

mutual
/-- The `codeGen` methods of the statement nodes. -/
def NStatement.codeGen (ord : ArgOrder) : NStatement → CodeGenContext → Gen
  | NStatement.block statements, ctx => NStatement.codeGenList ord statements none ctx
  | NStatement.assignment leftSide rightSide, ctx =>
    NAssignment.codeGen ord leftSide rightSide ctx
  | NStatement.expressionStatement expression, ctx =>
    NExpressionStatement.codeGen ord expression ctx
  | NStatement.variableDeclaration decl, ctx => NVariableDeclaration.codeGen ord decl ctx
  | NStatement.functionDeclaration type id arguments body, ctx =>
    -- NFunctionDeclaration::codeGen
    let argTypes := arguments.map (fun a => typeOf a.type)
    let function := (ctx.module.createFunction (typeOf type) argTypes id).2
    let bblock := function
    let ctx0 : CodeGenContext :=
      { ctx with module := (ctx.module.createFunction (typeOf type) argTypes id).1 }
    match codeGenParams ord arguments (ctx0.pushBlock bblock) with
    | Except.error e => Except.error e
    | Except.ok ctx1 =>
      match NStatement.codeGenList ord body none ctx1 with
      | Except.error e => Except.error e
      | Except.ok (_, ctx2) =>
        match (ctx2.emit bblock Instruction.ret).2.popBlock with
        | Except.error e => Except.error e
        | Except.ok ctx3 => Except.ok (some (Value.function function), ctx3)
/-- The loop of `NBlock::codeGen`: generate the statements first to last; `last`
is the value of the statement generated last. -/
def NStatement.codeGenList (ord : ArgOrder) :
    List NStatement → Option Value → CodeGenContext → Gen
  | [], last, ctx => Except.ok (last, ctx)
  | s :: ss, _, ctx =>
    match NStatement.codeGen ord s ctx with
    | Except.error e => Except.error e
    | Except.ok (v, ctx1) => NStatement.codeGenList ord ss v ctx1
end

/-- `NBlock::codeGen`. -/
def NBlock.codeGen (ord : ArgOrder) (statements : List NStatement) (ctx : CodeGenContext) :
    Gen :=
  NStatement.codeGenList ord statements none ctx

/-- `CodeGenContext::generateCode`, up to the printing of the module. -/
def CodeGenContext.generateCode (ord : ArgOrder) (root : List NStatement)
    (ctx : CodeGenContext) : Except Fatal CodeGenContext :=
  let main := (ctx.module.createFunction IRType.void [] "main").2
  let bblock := main
  let ctx0 : CodeGenContext :=
    { ctx with module := (ctx.module.createFunction IRType.void [] "main").1,
               mainFunction := some main }
  match NBlock.codeGen ord root (ctx0.pushBlock bblock) with
  | Except.error e => Except.error e
  | Except.ok (_, ctx1) => (ctx1.emit bblock Instruction.ret).2.popBlock

/-! ## Definitions used to state the theorems -/

/-- Append a list of instructions to a block (nothing happens when the handle
is not a block of the module). -/
def Module.appendCode (m : Module) (block : Nat) (code : List Instruction) : Module :=
  match m.functions[block]? with
  | some f => { m with functions := m.functions.set block { f with entry := f.entry ++ code } }
  | none => m

/-- The context after appending code to a block and writing diagnostics. -/
def CodeGenContext.extend (ctx : CodeGenContext) (block : Nat) (code : List Instruction)
    (diags : List Diagnostic) : CodeGenContext :=
  { ctx with module := ctx.module.appendCode block code, cerr := ctx.cerr ++ diags }

/-- The context `generateCode` sets up from a fresh one before it generates the
root block: the module holds the empty entry function and its frame is current. -/
def entryContext : CodeGenContext :=
  { blocks := [{ block := 0, locals := [] }],
    module := { functions := [{ name := "main", returnType := IRType.void,
                                paramTypes := [], entry := [] }],
                lastUnique := 0 },
    mainFunction := some 0, cerr := [] }

/-- The declaration `f(x: int) -> int { y := x + 1; y }`. -/
def functionF : NStatement :=
  NStatement.functionDeclaration "int" "f" [{ type := "int", id := "x", assignmentExpr := none }]
    [NStatement.variableDeclaration
       { type := "int", id := "y",
         assignmentExpr := some (NExpression.binaryOperator Token.TPLUS
           (NExpression.identifier "x") (NExpression.integer 1)) },
     NStatement.expressionStatement (NExpression.identifier "y")]

/-- The top-level program `x := 3; y := x * 2;`. -/
def programXY : List NStatement :=
  [NStatement.variableDeclaration
     { type := "int", id := "x", assignmentExpr := some (NExpression.integer 3) },
   NStatement.variableDeclaration
     { type := "int", id := "y",
       assignmentExpr := some (NExpression.binaryOperator Token.TMUL
         (NExpression.identifier "x") (NExpression.integer 2)) }]

/-- A context inside a function body generated at top level: the frame of the
function `g` is current and has no locals; the enclosing top-level frame
declares `x`. -/
def nestedContext : CodeGenContext :=
  { blocks := [{ block := 1, locals := [] },
               { block := 0, locals := [("x", Value.instruction 0 0)] }],
    module := { functions := [{ name := "main", returnType := IRType.void, paramTypes := [],
                                entry := [Instruction.alloca IRType.int64 "x"] },
                              { name := "g", returnType := IRType.void, paramTypes := [],
                                entry := [] }],
                lastUnique := 0 },
    mainFunction := some 0, cerr := [] }

/-- The entry block the generator builds for `functionF` as function 0. -/
def functionFEntry : List Instruction :=
  [Instruction.alloca IRType.int64 "x",
   Instruction.alloca IRType.int64 "y",
   Instruction.load (Value.instruction 0 0),
   Instruction.binary BinaryOps.Add (some (Value.instruction 0 2))
     (some (Value.constantInt IRType.int64 1)),
   Instruction.store (some (Value.instruction 0 3)) (Value.instruction 0 1),
   Instruction.load (Value.instruction 0 1),
   Instruction.ret]

/-- The context after generating `functionF` in a fresh context. -/
def functionFResult : CodeGenContext :=
  { blocks := [],
    module := { functions := [{ name := "f", returnType := IRType.int64,
                                paramTypes := [IRType.int64], entry := functionFEntry }],
                lastUnique := 0 },
    mainFunction := none, cerr := [] }

/-- The entry function with the given entry block. -/
def mainWith (entry : List Instruction) : Function :=
  { name := "main", returnType := IRType.void, paramTypes := [], entry := entry }

/-- The top-level program `g();` in which no function `g` is declared. -/
def programCallG : List NStatement :=
  [NStatement.expressionStatement (NExpression.methodCall "g" [])]

/-- The context with `name` bound to `v` in the current frame (unchanged when
there is no frame). -/
def CodeGenContext.bind (ctx : CodeGenContext) (name : String) (v : Value) : CodeGenContext :=
  match ctx.blocks with
  | [] => ctx
  | top :: rest =>
    { ctx with blocks := { top with locals := assignLocal top.locals name v } :: rest }

/-- Of two things belonging to the left and the right operand, the one belonging
to the operand that is evaluated first. -/
def ArgOrder.first {α : Type} (ord : ArgOrder) (l r : α) : α :=
  match ord with
  | ArgOrder.leftToRight => l
  | ArgOrder.rightToLeft => r

/-- Of two things belonging to the left and the right operand, the one belonging
to the operand that is evaluated second. -/
def ArgOrder.second {α : Type} (ord : ArgOrder) (l r : α) : α :=
  match ord with
  | ArgOrder.leftToRight => r
  | ArgOrder.rightToLeft => l

/-- The code that generating `e` appends to block `b` is the code of `a`, then the
code of `c` (generated after `a`), then one arithmetic instruction. -/
def CodeInOrder (ord : ArgOrder) (a c e : NExpression) (ctx : CodeGenContext) (b : Nat) :
    Prop :=
  ∃ va ctx1 codeA vc ctx2 codeC res ctx3 opc lv rv,
    NExpression.codeGen ord a ctx = Except.ok (va, ctx1) ∧
    ctx1.module.blockOf b = ctx.module.blockOf b ++ codeA ∧
    NExpression.codeGen ord c ctx1 = Except.ok (vc, ctx2) ∧
    ctx2.module.blockOf b = ctx1.module.blockOf b ++ codeC ∧
    NExpression.codeGen ord e ctx = Except.ok (res, ctx3) ∧
    ctx3.module.blockOf b
      = ctx.module.blockOf b ++ codeA ++ codeC ++ [Instruction.binary opc lv rv]

/-- A context in which the current frame declares `a` and `b`. -/
def contextAB : CodeGenContext :=
  { blocks := [{ block := 0,
                 locals := [("a", Value.instruction 0 0), ("b", Value.instruction 0 1)] }],
    module := { functions := [mainWith [Instruction.alloca IRType.int64 "a",
                                        Instruction.alloca IRType.int64 "b"]],
                lastUnique := 0 },
    mainFunction := some 0, cerr := [] }

/-- The context `contextAB` after the load of `a`. -/
def contextABa : CodeGenContext :=
  contextAB.extend 0 [Instruction.load (Value.instruction 0 0)] []

/-- The context `contextAB` after the load of `a` and the load of `b`. -/
def contextABab : CodeGenContext :=
  contextAB.extend 0
    [Instruction.load (Value.instruction 0 0), Instruction.load (Value.instruction 0 1)] []

/-- What the spec says a declaration with an initializer amounts to: the
declaration of the name without initializer, then the assignment of the
initializer to the name. Yields the context afterwards. -/
def declareThenAssign (ord : ArgOrder) (type : String) (x : String) (e : NExpression)
    (ctx : CodeGenContext) : Except Fatal CodeGenContext :=
  match NStatement.codeGen ord (NStatement.variableDeclaration
      { type := type, id := x, assignmentExpr := none }) ctx with
  | Except.error err => Except.error err
  | Except.ok (_, ctx1) =>
    match NStatement.codeGen ord (NStatement.assignment x e) ctx1 with
    | Except.error err => Except.error err
    | Except.ok (_, ctx2) => Except.ok ctx2

/-- The context after generating a statement. -/
def contextAfter (r : Gen) : Except Fatal CodeGenContext :=
  match r with
  | Except.error err => Except.error err
  | Except.ok (_, ctx) => Except.ok ctx

/-- Generate the next statement of a sequence in the context the statements
before it left, unless one of them was fatal. -/
def generateNext (ord : ArgOrder) (acc : Gen) (s : NStatement) : Gen :=
  match acc with
  | Except.error err => Except.error err
  | Except.ok (_, ctx1) => NStatement.codeGen ord s ctx1

/-- What the spec says a block amounts to: generating the statements one after
the other in source order, each in the context the previous one left; the result
is the value of the statement generated last, no value for no statement. -/
def generateInOrder (ord : ArgOrder) (statements : List NStatement) (ctx : CodeGenContext) :
    Gen :=
  statements.foldl (generateNext ord) (Except.ok (none, ctx))

/-- The arguments `es` are generated first to last from `ctx`, each in the context
the one before it left: `vs` are their values, `codes` the code each appended to
block `b`, in source order, and `ctx2` is the context after the last one. -/
def ArgumentsInOrder (ord : ArgOrder) (b : Nat) :
    List NExpression → CodeGenContext → List (Option Value) → List (List Instruction) →
      CodeGenContext → Prop
  | [], ctx, vs, codes, ctx2 => vs = [] ∧ codes = [] ∧ ctx2 = ctx
  | e :: es, ctx, vs, codes, ctx2 =>
    ∃ v c ctx1 vs1 codes1,
      NExpression.codeGen ord e ctx = Except.ok (v, ctx1) ∧
      ctx1.module.blockOf b = ctx.module.blockOf b ++ c ∧
      ArgumentsInOrder ord b es ctx1 vs1 codes1 ctx2 ∧
      vs = v :: vs1 ∧ codes = c :: codes1

/-- The context `contextAB` after the failed reference to `y`. -/
def contextABy : CodeGenContext :=
  contextAB.extend 0 [] [Diagnostic.undeclaredVariable "y"]

/-- The context `contextAB` after the failed reference to `y` and the load of
`a`. -/
def contextAByA : CodeGenContext :=
  contextAB.extend 0 [Instruction.load (Value.instruction 0 0)]
    [Diagnostic.undeclaredVariable "y"]

/-- The context of the body of a function `g` with parameters `a` and `b`, declared
at top level: `g` is function 1 of the module. -/
def contextG : CodeGenContext :=
  { blocks := [{ block := 1,
                 locals := [("a", Value.instruction 1 0), ("b", Value.instruction 1 1)] },
               { block := 0, locals := [] }],
    module := { functions := [mainWith [],
                              { name := "g", returnType := IRType.int64,
                                paramTypes := [IRType.int64, IRType.int64],
                                entry := [Instruction.alloca IRType.int64 "a",
                                          Instruction.alloca IRType.int64 "b"] }],
                lastUnique := 0 },
    mainFunction := some 0, cerr := [] }

/-- The address operand of a Load or a Store; other instructions have none. -/
def Instruction.address? : Instruction → Option Value
  | Instruction.load p => some p
  | Instruction.store _ p => some p
  | _ => none

/-- Every Load and Store of the block `b` with instructions `code` has as address
operand the result of an allocation that stands earlier in `code`. -/
def AddressesAllocated (b : Nat) (code : List Instruction) : Prop :=
  ∀ j ins p, code[j]? = some ins → ins.address? = some p →
    ∃ i ty name, i < j ∧ p = Value.instruction b i ∧
      code[i]? = some (Instruction.alloca ty name)

/-- The value `p` is the result of an allocation of block `b` of the module. -/
def Registered (m : Module) (b : Nat) (p : Value) : Prop :=
  ∃ i ty name, p = Value.instruction b i ∧
    (m.blockOf b)[i]? = some (Instruction.alloca ty name)

/-- The block ends with a return and contains no other return. -/
def EndsWithOneReturn (code : List Instruction) : Prop :=
  ∃ body, code = body ++ [Instruction.ret] ∧ Instruction.ret ∉ body

/-- An instruction that may be appended to the current block while a frame with
locals `ls` is current: not a return, and a Load or Store only at a location of
that frame. -/
def Instruction.fromFrame (ls : List (String × Value)) (ins : Instruction) : Prop :=
  ins ≠ Instruction.ret ∧ ∀ p, ins.address? = some p → ∃ x, lookupLocal ls x = some p

/-- A diagnostic that is justified in the module: "no such function" only for a
name that does not resolve. -/
def Diagnostic.justified (m : Module) : Diagnostic → Prop
  | Diagnostic.undeclaredVariable _ => True
  | Diagnostic.noSuchFunction g => m.getFunction g = none

/-- The invariant of generation: the blocks of the scope frames are blocks of the
module and hold no return yet; every other block of the module ends with its one
return; Loads and Stores address earlier allocations of their block; and the
locations the frames map names to are allocations of the frame's block. -/
structure CodeGenContext.WellFormed (ctx : CodeGenContext) : Prop where
  valid : ∀ fr ∈ ctx.blocks, fr.block < ctx.module.functions.length
  unfinished : ∀ fr ∈ ctx.blocks, Instruction.ret ∉ ctx.module.blockOf fr.block
  finished : ∀ i, i < ctx.module.functions.length → (∀ fr ∈ ctx.blocks, fr.block ≠ i) →
    EndsWithOneReturn (ctx.module.blockOf i)
  addresses : ∀ i, AddressesAllocated i (ctx.module.blockOf i)
  registered : ∀ fr ∈ ctx.blocks, ∀ x p, lookupLocal fr.locals x = some p →
    Registered ctx.module fr.block p

/-- What generating a statement does to a context whose current frame is `top`
above the frames `rest`: the frames below stay, the current frame keeps its block,
the invariant of generation is kept, and every function name that resolved still
resolves to the same function. -/
def StepOK (ctx : CodeGenContext) (top : CodeGenBlock) (rest : List CodeGenBlock)
    (ctx2 : CodeGenContext) : Prop :=
  (∃ ls, ctx2.blocks = { block := top.block, locals := ls } :: rest) ∧
  (ctx.WellFormed → ctx2.WellFormed) ∧
  (∀ g n, ctx.module.getFunction g = some n → ctx2.module.getFunction g = some n)

/-- The context in which `NFunctionDeclaration::codeGen` generates the body: the
function and its entry block are created, the frame is pushed and the parameter
declarations are generated. -/
def NFunctionDeclaration.bodyContext (ord : ArgOrder) (type id : String)
    (arguments : List NVariableDeclaration) (ctx : CodeGenContext) :
    Except Fatal CodeGenContext :=
  codeGenParams ord arguments
    (({ ctx with module := (ctx.module.createFunction (typeOf type)
        (arguments.map (fun a => typeOf a.type)) id).1 } : CodeGenContext).pushBlock
      ctx.module.functions.length)

/-- The end of `NFunctionDeclaration::codeGen` after the body: the return is
appended to the entry block `bblock`, the frame is popped, and the function is the
value. -/
def NFunctionDeclaration.finish (bblock : Nat) (r : Gen) : Gen :=
  match r with
  | Except.error e => Except.error e
  | Except.ok (_, ctx2) =>
    match (ctx2.emit bblock Instruction.ret).2.popBlock with
    | Except.error e => Except.error e
    | Except.ok ctx3 => Except.ok (some (Value.function bblock), ctx3)

/-- The top-level program `int x; f(a: int) -> int { int y = a; y } x = 1;`. -/
def programNested : List NStatement :=
  [NStatement.variableDeclaration { type := "int", id := "x", assignmentExpr := none },
   NStatement.functionDeclaration "int" "f" [{ type := "int", id := "a", assignmentExpr := none }]
     [NStatement.variableDeclaration
        { type := "int", id := "y", assignmentExpr := some (NExpression.identifier "a") },
      NStatement.expressionStatement (NExpression.identifier "y")],
   NStatement.assignment "x" (NExpression.integer 1)]

/-- The signature of an IR function: its return type and its parameter types. -/
def Function.signature (f : Function) : IRType × List IRType :=
  (f.returnType, f.paramTypes)

/-- The name and the signature of an IR function. -/
def Function.header (f : Function) : String × IRType × List IRType :=
  (f.name, f.returnType, f.paramTypes)

mutual
/-- The signatures of the function declarations of a statement, nested ones
included, in source order (a declaration before the declarations in its body). -/
def NStatement.declaredFunctions : NStatement → List (IRType × List IRType)
  | NStatement.block statements => declaredFunctionsOf statements
  | NStatement.assignment _ _ => []
  | NStatement.expressionStatement _ => []
  | NStatement.variableDeclaration _ => []
  | NStatement.functionDeclaration type _ arguments body =>
    (typeOf type, arguments.map (fun a => typeOf a.type)) :: declaredFunctionsOf body
/-- The signatures of the function declarations of a statement list. -/
def declaredFunctionsOf : List NStatement → List (IRType × List IRType)
  | [] => []
  | s :: ss => s.declaredFunctions ++ declaredFunctionsOf ss
end

/-- What generating a statement that declares functions with signatures `news`
does to a context whose current frame is `top` above the frames `rest`: the frames
below stay, the current frame keeps its block, the main function stays, the
functions of the module keep
their names and signatures, and functions with the signatures `news` are added
after them, in that order. -/
def HeaderStep (ctx : CodeGenContext) (top : CodeGenBlock) (rest : List CodeGenBlock)
    (news : List (IRType × List IRType)) (ctx2 : CodeGenContext) : Prop :=
  (∃ ls, ctx2.blocks = { block := top.block, locals := ls } :: rest) ∧
  ctx2.mainFunction = ctx.mainFunction ∧
  ∃ added, ctx2.module.functions.map Function.header
      = ctx.module.functions.map Function.header ++ added ∧
    added.map (fun h => h.2) = news

/-- The generator, generating the expression `e0` in the context `c0`, comes to
generate the expression `e` in the context `c`: `e` is `e0` itself, or it is
generated within an argument of the call `e0` (the arguments before it have been
generated, after the callee was looked up), or within an operand of the supported
arithmetic `e0` (the second operand after the first has been generated). -/
inductive NExpression.Reaches (ord : ArgOrder) :
    NExpression → CodeGenContext → NExpression → CodeGenContext → Prop
  | here (e : NExpression) (c : CodeGenContext) : NExpression.Reaches ord e c e c
  | argument (id : String) (before : List NExpression) (a : NExpression)
      (after : List NExpression) (c0 : CodeGenContext) (vs : List (Option Value))
      (c1 : CodeGenContext) (e : NExpression) (c : CodeGenContext) :
      NExpression.codeGenArgs ord before
          (if c0.module.getFunction id = none
            then c0.report (Diagnostic.noSuchFunction id) else c0) = Except.ok (vs, c1) →
      NExpression.Reaches ord a c1 e c →
      NExpression.Reaches ord (NExpression.methodCall id (before ++ a :: after)) c0 e c
  | firstOperand (op : Token) (instr : BinaryOps) (l r : NExpression) (c0 : CodeGenContext)
      (e : NExpression) (c : CodeGenContext) :
      binaryOpsOf op = some instr →
      NExpression.Reaches ord (ord.first l r) c0 e c →
      NExpression.Reaches ord (NExpression.binaryOperator op l r) c0 e c
  | secondOperand (op : Token) (instr : BinaryOps) (l r : NExpression) (c0 : CodeGenContext)
      (v : Option Value) (c1 : CodeGenContext) (e : NExpression) (c : CodeGenContext) :
      binaryOpsOf op = some instr →
      NExpression.codeGen ord (ord.first l r) c0 = Except.ok (v, c1) →
      NExpression.Reaches ord (ord.second l r) c1 e c →
      NExpression.Reaches ord (NExpression.binaryOperator op l r) c0 e c

/-- The generator, generating the statement `s0` in the context `c0`, comes to
generate the expression `e` in the context `c`: within the expression of an
expression statement; within the right-hand side of an assignment to a declared name;
within the initializer of a variable declaration (assigned after the allocation and
the binding of the name); within a statement of a block (the statements before it
have been generated); within a parameter declaration of a function declaration (the
function, its entry block and its frame have been created and the parameters before
it generated); or within a statement of the body of a function declaration (all
parameters and the body statements before it have been generated). -/
inductive NStatement.Reaches (ord : ArgOrder) :
    NStatement → CodeGenContext → NExpression → CodeGenContext → Prop
  | expression (e0 : NExpression) (c0 : CodeGenContext) (e : NExpression)
      (c : CodeGenContext) :
      NExpression.Reaches ord e0 c0 e c →
      NStatement.Reaches ord (NStatement.expressionStatement e0) c0 e c
  | assigned (x : String) (e0 : NExpression) (c0 : CodeGenContext)
      (ls : List (String × Value)) (loc : Value) (e : NExpression) (c : CodeGenContext) :
      c0.locals = Except.ok ls →
      lookupLocal ls x = some loc →
      NExpression.Reaches ord e0 c0 e c →
      NStatement.Reaches ord (NStatement.assignment x e0) c0 e c
  | initialized (d : NVariableDeclaration) (init : NExpression) (c0 : CodeGenContext)
      (bb : Nat) (c1 : CodeGenContext) (e : NExpression) (c : CodeGenContext) :
      d.assignmentExpr = some init →
      c0.currentBlock = Except.ok bb →
      (c0.emit bb (Instruction.alloca (typeOf d.type) d.id)).2.declare d.id
          (c0.emit bb (Instruction.alloca (typeOf d.type) d.id)).1 = Except.ok c1 →
      NStatement.Reaches ord (NStatement.assignment d.id init) c1 e c →
      NStatement.Reaches ord (NStatement.variableDeclaration d) c0 e c
  | inBlock (before : List NStatement) (s : NStatement) (after : List NStatement)
      (c0 : CodeGenContext) (v : Option Value) (c1 : CodeGenContext) (e : NExpression)
      (c : CodeGenContext) :
      NBlock.codeGen ord before c0 = Except.ok (v, c1) →
      NStatement.Reaches ord s c1 e c →
      NStatement.Reaches ord (NStatement.block (before ++ s :: after)) c0 e c
  | inParameter (type id : String) (before : List NVariableDeclaration)
      (d : NVariableDeclaration) (after : List NVariableDeclaration)
      (body : List NStatement) (c0 c1 : CodeGenContext) (e : NExpression)
      (c : CodeGenContext) :
      codeGenParams ord before
          (({ c0 with module := (c0.module.createFunction (typeOf type)
              ((before ++ d :: after).map (fun a => typeOf a.type)) id).1 } :
            CodeGenContext).pushBlock c0.module.functions.length) = Except.ok c1 →
      NStatement.Reaches ord (NStatement.variableDeclaration d) c1 e c →
      NStatement.Reaches ord
        (NStatement.functionDeclaration type id (before ++ d :: after) body) c0 e c
  | inBody (type id : String) (arguments : List NVariableDeclaration)
      (before : List NStatement) (s : NStatement) (after : List NStatement)
      (c0 cB : CodeGenContext) (v : Option Value) (c1 : CodeGenContext) (e : NExpression)
      (c : CodeGenContext) :
      NFunctionDeclaration.bodyContext ord type id arguments c0 = Except.ok cB →
      NBlock.codeGen ord before cB = Except.ok (v, c1) →
      NStatement.Reaches ord s c1 e c →
      NStatement.Reaches ord
        (NStatement.functionDeclaration type id arguments (before ++ s :: after)) c0 e c

/-- The name `f` resolves to the function `n`, and the current block is a block of
the module. -/
def CodeGenContext.Resolves (ctx : CodeGenContext) (f : String) (n : Nat) : Prop :=
  ctx.module.getFunction f = some n ∧
  ∃ top rest, ctx.blocks = top :: rest ∧ top.block < ctx.module.functions.length

/-- Generation from `ctx` to `ctx2` wrote no "no such function f". -/
def QuietStep (f : String) (ctx ctx2 : CodeGenContext) : Prop :=
  ∃ diags, ctx2.cerr = ctx.cerr ++ diags ∧ Diagnostic.noSuchFunction f ∉ diags

/-- The call `f(a)`. -/
def callFA : NExpression :=
  NExpression.methodCall "f" [NExpression.identifier "a"]

/-- The recursive declaration `f(a: int) -> int { int y = f(a) + 1; }`. -/
def recursiveF : NStatement :=
  NStatement.functionDeclaration "int" "f" [{ type := "int", id := "a", assignmentExpr := none }]
    [NStatement.variableDeclaration
       { type := "int", id := "y",
         assignmentExpr := some (NExpression.binaryOperator Token.TPLUS callFA
           (NExpression.integer 1)) }]

/-- The context in which the body of `recursiveF`, declared at top level, is
generated: `f` is function 1 of the module and its parameter `a` is declared. -/
def contextF : CodeGenContext :=
  { blocks := [{ block := 1, locals := [("a", Value.instruction 1 0)] },
               { block := 0, locals := [] }],
    module := { functions := [mainWith [],
                              { name := "f", returnType := IRType.int64,
                                paramTypes := [IRType.int64],
                                entry := [Instruction.alloca IRType.int64 "a"] }],
                lastUnique := 0 },
    mainFunction := some 0, cerr := [] }

/-- The context `contextF` after the allocation of `y` and the binding of the
name: the context in which the initializer `f(a) + 1` is generated. -/
def contextFY : CodeGenContext :=
  (contextF.extend 1 [Instruction.alloca IRType.int64 "y"] []).bind "y" (Value.instruction 1 1)

/-- The context `entryContext` after the failed reference to `y`. -/
def entryContextY : CodeGenContext :=
  entryContext.extend 0 [] [Diagnostic.undeclaredVariable "y"]

/-! ## Lemmas and theorems -/

theorem Module.insertAtEnd_fst (m : Module) (b : Nat) (i : Instruction) :
    (m.insertAtEnd b i).1 = m.appendCode b [i] := by
  unfold Module.insertAtEnd Module.appendCode
  cases h : m.functions[b]? <;> rfl

theorem Module.insertAtEnd_snd (m : Module) (b : Nat) (i : Instruction) :
    (m.insertAtEnd b i).2 = Value.instruction b (m.blockOf b).length := by
  unfold Module.insertAtEnd Module.blockOf
  cases h : m.functions[b]? <;> rfl

theorem set_of_getElem? {α : Type} (l : List α) (i : Nat) (a : α) (h : l[i]? = some a) :
    l.set i a = l := by
  induction l generalizing i with
  | nil => rfl
  | cons x xs ih =>
    cases i with
    | zero =>
      simp only [List.getElem?_cons_zero, Option.some.injEq] at h
      simp [h]
    | succ j =>
      simp only [List.getElem?_cons_succ] at h
      simp [ih j h]

theorem Module.appendCode_nil (m : Module) (b : Nat) : m.appendCode b [] = m := by
  unfold Module.appendCode
  cases h : m.functions[b]? with
  | none => rfl
  | some f =>
    cases m with
    | mk fs k =>
      simp only [List.append_nil] at *
      rw [set_of_getElem? fs b f h]

theorem Module.appendCode_appendCode (m : Module) (b : Nat) (c d : List Instruction) :
    (m.appendCode b c).appendCode b d = m.appendCode b (c ++ d) := by
  unfold Module.appendCode
  cases h : m.functions[b]? with
  | none => simp [h]
  | some f =>
    have hb : b < m.functions.length := (List.getElem?_eq_some_iff.mp h).1
    simp [h, hb, List.append_assoc]

theorem Module.blockOf_appendCode (m : Module) (b : Nat) (c : List Instruction)
    (hb : b < m.functions.length) :
    (m.appendCode b c).blockOf b = m.blockOf b ++ c := by
  unfold Module.appendCode Module.blockOf
  have h : m.functions[b]? = some m.functions[b] := List.getElem?_eq_getElem hb
  simp [h, hb]

theorem Module.length_appendCode (m : Module) (b : Nat) (c : List Instruction) :
    (m.appendCode b c).functions.length = m.functions.length := by
  unfold Module.appendCode
  cases h : m.functions[b]? <;> simp

theorem CodeGenContext.extend_nil (ctx : CodeGenContext) (b : Nat) :
    ctx.extend b [] [] = ctx := by
  simp [CodeGenContext.extend, Module.appendCode_nil]

theorem CodeGenContext.extend_extend (ctx : CodeGenContext) (b : Nat)
    (c c2 : List Instruction) (d d2 : List Diagnostic) :
    (ctx.extend b c d).extend b c2 d2 = ctx.extend b (c ++ c2) (d ++ d2) := by
  simp [CodeGenContext.extend, Module.appendCode_appendCode]

theorem CodeGenContext.emit_eq (ctx : CodeGenContext) (b : Nat) (i : Instruction) :
    ctx.emit b i = (Value.instruction b (ctx.module.blockOf b).length, ctx.extend b [i] []) := by
  simp [CodeGenContext.emit, CodeGenContext.extend, Module.insertAtEnd_fst,
    Module.insertAtEnd_snd]

theorem CodeGenContext.report_eq (ctx : CodeGenContext) (b : Nat) (d : Diagnostic) :
    ctx.report d = ctx.extend b [] [d] := by
  simp [CodeGenContext.report, CodeGenContext.extend, Module.appendCode_nil]

theorem CodeGenContext.locals_of_blocks (ctx : CodeGenContext) (top : CodeGenBlock)
    (rest : List CodeGenBlock) (h : ctx.blocks = top :: rest) :
    ctx.locals = Except.ok top.locals := by
  simp [CodeGenContext.locals, h]

theorem CodeGenContext.currentBlock_of_blocks (ctx : CodeGenContext) (top : CodeGenBlock)
    (rest : List CodeGenBlock) (h : ctx.blocks = top :: rest) :
    ctx.currentBlock = Except.ok top.block := by
  simp [CodeGenContext.currentBlock, h]

theorem identifier_extend (name : String) (ctx : CodeGenContext)
    (top : CodeGenBlock) (rest : List CodeGenBlock) (h : ctx.blocks = top :: rest) :
    ∃ v code diags, NIdentifier.codeGen name ctx = Except.ok (v, ctx.extend top.block code diags) := by
  unfold NIdentifier.codeGen
  rw [ctx.locals_of_blocks top rest h, ctx.currentBlock_of_blocks top rest h]
  cases hl : lookupLocal top.locals name with
  | none =>
    simp only [hl, ctx.report_eq top.block]
    exact ⟨_, _, _, rfl⟩
  | some loc =>
    simp only [hl, CodeGenContext.emit_eq]
    exact ⟨_, _, _, rfl⟩

mutual
/-- On a non-empty scope stack an expression generates without a fatal outcome,
and all it does to the context is append code to the current block and write
diagnostics. -/
theorem expression_extend (ord : ArgOrder) :
    ∀ (e : NExpression) (ctx : CodeGenContext) (top : CodeGenBlock) (rest : List CodeGenBlock),
      ctx.blocks = top :: rest →
      ∃ v code diags,
        NExpression.codeGen ord e ctx = Except.ok (v, ctx.extend top.block code diags)
  | NExpression.integer value, ctx, top, rest, _ =>
    ⟨_, [], [], by rw [CodeGenContext.extend_nil]; rfl⟩
  | NExpression.double value, ctx, top, rest, _ =>
    ⟨_, [], [], by rw [CodeGenContext.extend_nil]; rfl⟩
  | NExpression.identifier name, ctx, top, rest, h => by
    simpa [NExpression.codeGen] using identifier_extend name ctx top rest h
  | NExpression.methodCall id arguments, ctx, top, rest, h => by
    have h0 : ∃ d0, (if ctx.module.getFunction id = none
        then ctx.report (Diagnostic.noSuchFunction id) else ctx) = ctx.extend top.block [] d0 := by
      by_cases hf : ctx.module.getFunction id = none
      · exact ⟨[Diagnostic.noSuchFunction id], by simp [hf, ctx.report_eq top.block]⟩
      · exact ⟨[], by simp [hf, CodeGenContext.extend_nil]⟩
    obtain ⟨d0, hd0⟩ := h0
    obtain ⟨vs, code, diags, hargs⟩ :=
      arguments_extend ord arguments (ctx.extend top.block [] d0) top rest h
    simp only [NExpression.codeGen]
    rw [hd0, hargs]
    simp only [CodeGenContext.extend_extend]
    rw [CodeGenContext.currentBlock_of_blocks _ top rest (by exact h)]
    simp only [CodeGenContext.emit_eq, CodeGenContext.extend_extend]
    exact ⟨_, _, _, rfl⟩
  | NExpression.binaryOperator op leftSide rightSide, ctx, top, rest, h => by
    cases hop : binaryOpsOf op with
    | none =>
      simp only [NExpression.codeGen, hop]
      exact ⟨none, [], [], by rw [CodeGenContext.extend_nil]⟩
    | some instr =>
      cases ord with
      | leftToRight =>
        obtain ⟨l, c1, d1, h1⟩ := expression_extend ArgOrder.leftToRight leftSide ctx top rest h
        obtain ⟨r, c2, d2, h2⟩ := expression_extend ArgOrder.leftToRight rightSide
          (ctx.extend top.block c1 d1) top rest h
        simp only [NExpression.codeGen, hop, h1, h2, CodeGenContext.extend_extend]
        rw [CodeGenContext.currentBlock_of_blocks _ top rest (by exact h)]
        simp only [CodeGenContext.emit_eq, CodeGenContext.extend_extend]
        exact ⟨_, _, _, rfl⟩
      | rightToLeft =>
        obtain ⟨r, c1, d1, h1⟩ := expression_extend ArgOrder.rightToLeft rightSide ctx top rest h
        obtain ⟨l, c2, d2, h2⟩ := expression_extend ArgOrder.rightToLeft leftSide
          (ctx.extend top.block c1 d1) top rest h
        simp only [NExpression.codeGen, hop, h1, h2, CodeGenContext.extend_extend]
        rw [CodeGenContext.currentBlock_of_blocks _ top rest (by exact h)]
        simp only [CodeGenContext.emit_eq, CodeGenContext.extend_extend]
        exact ⟨_, _, _, rfl⟩
/-- The argument loop, likewise. -/
theorem arguments_extend (ord : ArgOrder) :
    ∀ (es : List NExpression) (ctx : CodeGenContext) (top : CodeGenBlock)
      (rest : List CodeGenBlock), ctx.blocks = top :: rest →
      ∃ vs code diags,
        NExpression.codeGenArgs ord es ctx = Except.ok (vs, ctx.extend top.block code diags)
  | [], ctx, top, rest, _ =>
    ⟨[], [], [], by rw [CodeGenContext.extend_nil]; rfl⟩
  | e :: es, ctx, top, rest, h => by
    obtain ⟨v, c1, d1, h1⟩ := expression_extend ord e ctx top rest h
    obtain ⟨vs, c2, d2, h2⟩ := arguments_extend ord es
      (ctx.extend top.block c1 d1) top rest h
    simp only [NExpression.codeGenArgs, h1, h2, CodeGenContext.extend_extend]
    exact ⟨_, _, _, rfl⟩
end

/-- C8: `typeOf` is total; it returns the 64-bit integer type exactly for the
name "int", the double type exactly for "double" and the void type exactly for
every other name, among them the empty name and "Int". -/
theorem typeOf_total (name : String) :
    (typeOf name = IRType.int64 ↔ name = "int") ∧
    (typeOf name = IRType.double ↔ name = "double") ∧
    (typeOf name = IRType.void ↔ (name ≠ "int" ∧ name ≠ "double")) ∧
    typeOf "" = IRType.void ∧ typeOf "Int" = IRType.void := by
  unfold typeOf
  refine ⟨?_, ?_, ?_, by decide, by decide⟩
  · by_cases h1 : name = "int"
    · simp [h1]
    · by_cases h2 : name = "double" <;> simp [h1, h2]
  · by_cases h1 : name = "int"
    · subst h1
      simp
    · by_cases h2 : name = "double" <;> simp [h1, h2]
  · by_cases h1 : name = "int"
    · simp [h1]
    · by_cases h2 : name = "double" <;> simp [h1, h2]

/-- C9: an integer literal whose value `v` is a 64-bit signed integer generates,
in every context, a constant of the 64-bit integer type whose signed value is
`v`, and the context (blocks, scope stack, diagnostics) is returned unchanged. -/
theorem integer_literal_constant (ord : ArgOrder) (v : Int) (ctx : CodeGenContext)
    (hlo : -(2 ^ 63) ≤ v) (hhi : v < 2 ^ 63) :
    ∃ bits, NExpression.codeGen ord (NExpression.integer v) ctx
        = Except.ok (some (Value.constantInt IRType.int64 bits), ctx) ∧
      signed64 bits = v := by
  refine ⟨(v % 2 ^ 64).toNat, ?_, ?_⟩
  · simp [NExpression.codeGen, NInteger.codeGen, ConstantInt.get]
  · unfold signed64
    have hnn : 0 ≤ v % 2 ^ 64 := Int.emod_nonneg _ (by norm_num)
    have hcast : (((v % 2 ^ 64).toNat : Nat) : Int) = v % 2 ^ 64 := Int.toNat_of_nonneg hnn
    by_cases hv : 0 ≤ v
    · have hmod : v % 2 ^ 64 = v := Int.emod_eq_of_lt hv (by omega)
      have hlt : (v % 2 ^ 64).toNat < 2 ^ 63 := by
        have : (((v % 2 ^ 64).toNat : Nat) : Int) < 2 ^ 63 := by rw [hcast, hmod]; exact hhi
        exact_mod_cast this
      rw [if_pos hlt, hcast, hmod]
    · have hmod : v % 2 ^ 64 = v + 2 ^ 64 := by
        have h := Int.emod_emod_of_dvd v (dvd_refl ((2 : Int) ^ 64))
        rw [← Int.add_emod_self]
        exact Int.emod_eq_of_lt (by omega) (by omega)
      have hge : ¬ (v % 2 ^ 64).toNat < 2 ^ 63 := by
        intro hlt
        have : (((v % 2 ^ 64).toNat : Nat) : Int) < 2 ^ 63 := by exact_mod_cast hlt
        rw [hcast, hmod] at this
        omega
      rw [if_neg hge, hcast, hmod]
      omega

/-- Witness of C9 at the literal `-5`. -/
theorem integer_literal_constant_witness :
    (-(2 ^ 63) ≤ (-5 : Int) ∧ (-5 : Int) < 2 ^ 63) ∧
    ∃ bits, NExpression.codeGen ArgOrder.leftToRight (NExpression.integer (-5)) entryContext
        = Except.ok (some (Value.constantInt IRType.int64 bits), entryContext) ∧
      signed64 bits = -5 :=
  ⟨by decide, integer_literal_constant ArgOrder.leftToRight (-5) entryContext
    (by decide) (by decide)⟩

/-- C3: a reference to a name that the current (top-of-stack) frame does not
declare fails with the diagnostic "undeclared variable": it returns no value,
and the module (hence every block: no Load is appended) and the scope stack are
unchanged. The frames below the top are arbitrary: they are not searched. -/
theorem identifier_undeclared_in_current_frame (ord : ArgOrder) (x : String)
    (ctx : CodeGenContext) (top : CodeGenBlock) (rest : List CodeGenBlock)
    (hb : ctx.blocks = top :: rest) (hx : lookupLocal top.locals x = none) :
    ∃ ctx2, NExpression.codeGen ord (NExpression.identifier x) ctx = Except.ok (none, ctx2) ∧
      ctx2.cerr = ctx.cerr ++ [Diagnostic.undeclaredVariable x] ∧
      ctx2.module = ctx.module ∧ ctx2.blocks = ctx.blocks ∧
      ctx2.mainFunction = ctx.mainFunction := by
  refine ⟨ctx.report (Diagnostic.undeclaredVariable x), ?_, rfl, rfl, rfl, rfl⟩
  simp only [NExpression.codeGen, NIdentifier.codeGen, ctx.locals_of_blocks top rest hb, hx]

/-- Witness of C3: `x` is declared in the enclosing frame only. -/
theorem identifier_undeclared_in_current_frame_witness :
    (nestedContext.blocks
        = { block := 1, locals := [] }
          :: [{ block := 0, locals := [("x", Value.instruction 0 0)] }] ∧
      lookupLocal ([] : List (String × Value)) "x" = none ∧
      lookupLocal [("x", Value.instruction 0 0)] "x" = some (Value.instruction 0 0)) ∧
    ∃ ctx2, NExpression.codeGen ArgOrder.leftToRight (NExpression.identifier "x") nestedContext
        = Except.ok (none, ctx2) ∧
      ctx2.cerr = nestedContext.cerr ++ [Diagnostic.undeclaredVariable "x"] ∧
      ctx2.module = nestedContext.module ∧ ctx2.blocks = nestedContext.blocks ∧
      ctx2.mainFunction = nestedContext.mainFunction :=
  ⟨⟨rfl, rfl, by decide⟩,
   identifier_undeclared_in_current_frame ArgOrder.leftToRight "x" nestedContext
     { block := 1, locals := [] } [{ block := 0, locals := [("x", Value.instruction 0 0)] }]
     rfl rfl⟩

/-- C4: an assignment whose target the current frame does not declare fails with
the diagnostic "undeclared variable": it returns no value, the right-hand side is
not generated, and the module (hence every block: no Store is appended) and the
scope stack are unchanged. -/
theorem assignment_undeclared_target (ord : ArgOrder) (x : String) (e : NExpression)
    (ctx : CodeGenContext) (top : CodeGenBlock) (rest : List CodeGenBlock)
    (hb : ctx.blocks = top :: rest) (hx : lookupLocal top.locals x = none) :
    ∃ ctx2, NStatement.codeGen ord (NStatement.assignment x e) ctx = Except.ok (none, ctx2) ∧
      ctx2.cerr = ctx.cerr ++ [Diagnostic.undeclaredVariable x] ∧
      ctx2.module = ctx.module ∧ ctx2.blocks = ctx.blocks ∧
      ctx2.mainFunction = ctx.mainFunction := by
  refine ⟨ctx.report (Diagnostic.undeclaredVariable x), ?_, rfl, rfl, rfl, rfl⟩
  simp only [NStatement.codeGen, NAssignment.codeGen, ctx.locals_of_blocks top rest hb, hx]

/-- Witness of C4: `x = x + 1` where only the enclosing frame declares `x`. -/
theorem assignment_undeclared_target_witness :
    (nestedContext.blocks
        = { block := 1, locals := [] }
          :: [{ block := 0, locals := [("x", Value.instruction 0 0)] }] ∧
      lookupLocal ([] : List (String × Value)) "x" = none) ∧
    ∃ ctx2, NStatement.codeGen ArgOrder.leftToRight
        (NStatement.assignment "x" (NExpression.binaryOperator Token.TPLUS
          (NExpression.identifier "x") (NExpression.integer 1))) nestedContext
        = Except.ok (none, ctx2) ∧
      ctx2.cerr = nestedContext.cerr ++ [Diagnostic.undeclaredVariable "x"] ∧
      ctx2.module = nestedContext.module ∧ ctx2.blocks = nestedContext.blocks ∧
      ctx2.mainFunction = nestedContext.mainFunction :=
  ⟨⟨rfl, rfl⟩,
   assignment_undeclared_target ArgOrder.leftToRight "x"
     (NExpression.binaryOperator Token.TPLUS (NExpression.identifier "x") (NExpression.integer 1))
     nestedContext { block := 1, locals := [] }
     [{ block := 0, locals := [("x", Value.instruction 0 0)] }] rfl rfl⟩

theorem functionF_codeGen (ord : ArgOrder) :
    NStatement.codeGen ord functionF CodeGenContext.fresh
      = Except.ok (some (Value.function 0), functionFResult) := by
  cases ord <;> rfl

theorem functionFEntry_no_store_to_x :
    ∀ i ∈ functionFResult.module.blockOf 0, ∀ v,
      i ≠ Instruction.store v (Value.instruction 0 0) := by
  intro i hi v
  simp only [Module.blockOf, functionFResult, functionFEntry] at hi
  simp at hi
  rcases hi with h | h | h | h | h | h | h <;> subst h <;> simp

/-- C1, as the code has it: generating `functionF` in a fresh context produces
exactly one IR function, named `f`, with one 64-bit integer parameter, whose
entry block is: the storage allocation of `x`, the allocation of `y`, a load of
`x`, the add, the store of the sum into the location of `y`, a load of `y`, and
a return as last instruction. No diagnostic is written. -/
theorem function_f_generated (ord : ArgOrder) :
    NStatement.codeGen ord functionF CodeGenContext.fresh
      = Except.ok (some (Value.function 0),
          { blocks := [],
            module := { functions := [{ name := "f", returnType := IRType.int64,
                                        paramTypes := [IRType.int64],
                                        entry := functionFEntry }],
                        lastUnique := 0 },
            mainFunction := none, cerr := [] }) ∧
    functionFEntry
      = [Instruction.alloca IRType.int64 "x",
         Instruction.alloca IRType.int64 "y",
         Instruction.load (Value.instruction 0 0),
         Instruction.binary BinaryOps.Add (some (Value.instruction 0 2))
           (some (Value.constantInt IRType.int64 1)),
         Instruction.store (some (Value.instruction 0 3)) (Value.instruction 0 1),
         Instruction.load (Value.instruction 0 1),
         Instruction.ret] ∧
    functionFEntry.getLast? = some Instruction.ret :=
  ⟨functionF_codeGen ord, rfl, rfl⟩

/-- C1 fails as stated: in the function generated for `functionF` the storage
location of the parameter `x` is instruction 0 of the entry block, and no
instruction of that block stores into it; the only store of the block is into
the location of `y`. -/
theorem function_f_no_parameter_store :
    (∃ ctx, NStatement.codeGen ArgOrder.leftToRight functionF CodeGenContext.fresh
        = Except.ok (some (Value.function 0), ctx) ∧
      (ctx.module.blockOf 0)[0]? = some (Instruction.alloca IRType.int64 "x") ∧
      ∀ i ∈ ctx.module.blockOf 0, ∀ v, i ≠ Instruction.store v (Value.instruction 0 0)) ∧
    (∃ ctx, NStatement.codeGen ArgOrder.rightToLeft functionF CodeGenContext.fresh
        = Except.ok (some (Value.function 0), ctx) ∧
      (ctx.module.blockOf 0)[0]? = some (Instruction.alloca IRType.int64 "x") ∧
      ∀ i ∈ ctx.module.blockOf 0, ∀ v, i ≠ Instruction.store v (Value.instruction 0 0)) :=
  ⟨⟨functionFResult, functionF_codeGen ArgOrder.leftToRight, rfl,
      functionFEntry_no_store_to_x⟩,
   ⟨functionFResult, functionF_codeGen ArgOrder.rightToLeft, rfl,
      functionFEntry_no_store_to_x⟩⟩

/-- C10: `generateCode` on the program `x := 3; y := x * 2;` from a fresh context
ends without a fatal outcome and writes no diagnostic; the entry function is
function 0 of the module, has no parameters and the void return type, and its
block ends with a return without a value. The scope stack is empty again. -/
theorem generateCode_programXY (ord : ArgOrder) :
    CodeGenContext.generateCode ord programXY CodeGenContext.fresh
      = Except.ok
          { blocks := [],
            module :=
              { functions :=
                  [{ name := "main", returnType := IRType.void, paramTypes := [],
                     entry := [Instruction.alloca IRType.int64 "x",
                               Instruction.store (some (Value.constantInt IRType.int64 3))
                                 (Value.instruction 0 0),
                               Instruction.alloca IRType.int64 "y",
                               Instruction.load (Value.instruction 0 0),
                               Instruction.binary BinaryOps.Mul
                                 (some (Value.instruction 0 3))
                                 (some (Value.constantInt IRType.int64 2)),
                               Instruction.store (some (Value.instruction 0 4))
                                 (Value.instruction 0 2),
                               Instruction.ret] }],
                lastUnique := 0 },
            mainFunction := some 0,
            cerr := [] } := by
  cases ord <;> rfl

/-- C7 at the failing input: for the program `g();` the generator writes the
diagnostic "no such function g" and goes on to append a Call instruction with a
null callee to the current block; the call statement returns that instruction. -/
theorem unknown_function_call_emitted (ord : ArgOrder) :
    CodeGenContext.generateCode ord programCallG CodeGenContext.fresh
      = Except.ok
          { blocks := [],
            module := { functions := [mainWith [Instruction.call none [], Instruction.ret]],
                        lastUnique := 0 },
            mainFunction := some 0,
            cerr := [Diagnostic.noSuchFunction "g"] } ∧
    NExpression.codeGen ord (NExpression.methodCall "g" []) entryContext
      = Except.ok (some (Value.instruction 0 0),
          { blocks := [{ block := 0, locals := [] }],
            module := { functions := [mainWith [Instruction.call none []]],
                        lastUnique := 0 },
            mainFunction := some 0,
            cerr := [Diagnostic.noSuchFunction "g"] }) := by
  cases ord <;> exact ⟨rfl, rfl⟩

theorem lookupLocal_assignLocal_self (ls : List (String × Value)) (x : String) (v : Value) :
    lookupLocal (assignLocal ls x v) x = some v := by
  induction ls with
  | nil => simp [assignLocal, lookupLocal]
  | cons p ps ih =>
    obtain ⟨k, w⟩ := p
    by_cases hk : k = x
    · simp [assignLocal, lookupLocal, hk]
    · simp [assignLocal, lookupLocal, hk, ih]

theorem lookupLocal_assignLocal_other (ls : List (String × Value)) (x y : String) (v : Value)
    (hxy : y ≠ x) : lookupLocal (assignLocal ls x v) y = lookupLocal ls y := by
  have hne : ¬ x = y := fun h => hxy h.symm
  induction ls with
  | nil => simp [assignLocal, lookupLocal, hne]
  | cons p ps ih =>
    obtain ⟨k, w⟩ := p
    by_cases hk : k = x
    · subst hk
      simp [assignLocal, lookupLocal, hne]
    · by_cases hky : k = y
      · subst hky
        simp [assignLocal, lookupLocal, hk]
      · simp [assignLocal, lookupLocal, hk, hky, ih]

theorem CodeGenContext.declare_of_blocks (ctx : CodeGenContext) (top : CodeGenBlock)
    (rest : List CodeGenBlock) (h : ctx.blocks = top :: rest) (x : String) (v : Value) :
    ctx.declare x v = Except.ok (ctx.bind x v) := by
  simp [CodeGenContext.declare, CodeGenContext.bind, h]

theorem CodeGenContext.blocks_bind (ctx : CodeGenContext) (top : CodeGenBlock)
    (rest : List CodeGenBlock) (h : ctx.blocks = top :: rest) (x : String) (v : Value) :
    (ctx.bind x v).blocks
      = { block := top.block, locals := assignLocal top.locals x v } :: rest := by
  simp [CodeGenContext.bind, h]

theorem CodeGenContext.extend_bind (ctx : CodeGenContext) (b : Nat) (c : List Instruction)
    (d : List Diagnostic) (x : String) (v : Value) :
    (ctx.bind x v).extend b c d = (ctx.extend b c d).bind x v := by
  unfold CodeGenContext.bind CodeGenContext.extend
  cases h : ctx.blocks <;> simp [h]

theorem CodeGenContext.blockOf_extend (ctx : CodeGenContext) (b : Nat) (c : List Instruction)
    (d : List Diagnostic) (hb : b < ctx.module.functions.length) :
    (ctx.extend b c d).module.blockOf b = ctx.module.blockOf b ++ c := by
  simp [CodeGenContext.extend, Module.blockOf_appendCode _ _ _ hb]

theorem CodeGenContext.module_bind (ctx : CodeGenContext) (x : String) (v : Value) :
    (ctx.bind x v).module = ctx.module := by
  unfold CodeGenContext.bind
  cases h : ctx.blocks <;> rfl

theorem CodeGenContext.cerr_bind (ctx : CodeGenContext) (x : String) (v : Value) :
    (ctx.bind x v).cerr = ctx.cerr := by
  unfold CodeGenContext.bind
  cases h : ctx.blocks <;> rfl

/-- On a non-empty scope stack an assignment generates without a fatal outcome,
and all it does to the context is append code to the current block and write
diagnostics. -/
theorem assignment_extend (ord : ArgOrder) (x : String) (e : NExpression)
    (ctx : CodeGenContext) (top : CodeGenBlock) (rest : List CodeGenBlock)
    (hb : ctx.blocks = top :: rest) :
    ∃ v code diags,
      NAssignment.codeGen ord x e ctx = Except.ok (v, ctx.extend top.block code diags) := by
  unfold NAssignment.codeGen
  rw [ctx.locals_of_blocks top rest hb]
  cases hl : lookupLocal top.locals x with
  | none =>
    simp only [hl, ctx.report_eq top.block]
    exact ⟨_, _, _, rfl⟩
  | some loc =>
    obtain ⟨v, c, d, he⟩ := expression_extend ord e ctx top rest hb
    simp only [hl, he]
    rw [CodeGenContext.currentBlock_of_blocks _ top rest (by exact hb)]
    simp only [CodeGenContext.emit_eq, CodeGenContext.extend_extend]
    exact ⟨_, _, _, rfl⟩

/-- An assignment to a name the current frame declares ends its code with a
Store into the location of that name. -/
theorem assignment_declared (ord : ArgOrder) (x : String) (e : NExpression)
    (ctx : CodeGenContext) (top : CodeGenBlock) (rest : List CodeGenBlock)
    (hb : ctx.blocks = top :: rest) (loc : Value) (hl : lookupLocal top.locals x = some loc) :
    ∃ v w code diags,
      NAssignment.codeGen ord x e ctx
        = Except.ok (v, ctx.extend top.block (code ++ [Instruction.store w loc]) diags) := by
  unfold NAssignment.codeGen
  rw [ctx.locals_of_blocks top rest hb]
  obtain ⟨v, c, d, he⟩ := expression_extend ord e ctx top rest hb
  simp only [hl, he]
  rw [CodeGenContext.currentBlock_of_blocks _ top rest (by exact hb)]
  simp only [CodeGenContext.emit_eq, CodeGenContext.extend_extend]
  exact ⟨_, _, _, _, rfl⟩

/-- On a non-empty scope stack a variable declaration generates without a fatal
outcome: it appends the allocation and then further code to the current block,
binds the name to the allocation in the current frame, and returns the
allocation. -/
theorem variableDeclaration_extend (ord : ArgOrder) (d : NVariableDeclaration)
    (ctx : CodeGenContext) (top : CodeGenBlock) (rest : List CodeGenBlock)
    (hb : ctx.blocks = top :: rest) :
    ∃ code diags,
      NVariableDeclaration.codeGen ord d ctx
        = Except.ok (some (Value.instruction top.block (ctx.module.blockOf top.block).length),
            (ctx.extend top.block (Instruction.alloca (typeOf d.type) d.id :: code) diags).bind
              d.id (Value.instruction top.block (ctx.module.blockOf top.block).length)) := by
  unfold NVariableDeclaration.codeGen
  rw [ctx.currentBlock_of_blocks top rest hb]
  simp only [CodeGenContext.emit_eq]
  rw [CodeGenContext.declare_of_blocks _ top rest (by exact hb)]
  cases hinit : d.assignmentExpr with
  | none =>
    simp only []
    exact ⟨[], [], rfl⟩
  | some e =>
    have hb2 := CodeGenContext.blocks_bind (ctx.extend top.block
      [Instruction.alloca (typeOf d.type) d.id] []) top rest (by exact hb) d.id
      (Value.instruction top.block (ctx.module.blockOf top.block).length)
    obtain ⟨v, c, ds, ha⟩ := assignment_extend ord d.id e _ _ rest hb2
    simp only [ha, CodeGenContext.extend_bind, CodeGenContext.extend_extend]
    exact ⟨_, _, rfl⟩

theorem expression_result (ord : ArgOrder) (e : NExpression) (ctx ctx1 : CodeGenContext)
    (top : CodeGenBlock) (rest : List CodeGenBlock) (hb : ctx.blocks = top :: rest)
    (v : Option Value) (h : NExpression.codeGen ord e ctx = Except.ok (v, ctx1)) :
    ∃ code diags, ctx1 = ctx.extend top.block code diags := by
  obtain ⟨w, c, d, he⟩ := expression_extend ord e ctx top rest hb
  rw [he] at h
  injection h with h
  injection h with _ h
  exact ⟨c, d, h.symm⟩

theorem CodeGenContext.length_extend (ctx : CodeGenContext) (b : Nat) (c : List Instruction)
    (d : List Diagnostic) :
    (ctx.extend b c d).module.functions.length = ctx.module.functions.length := by
  simp [CodeGenContext.extend, Module.length_appendCode]

theorem Module.blockOf_appendCode_other (m : Module) (b b2 : Nat) (c : List Instruction)
    (hne : b2 ≠ b) : (m.appendCode b c).blockOf b2 = m.blockOf b2 := by
  unfold Module.appendCode Module.blockOf
  cases h : m.functions[b]? with
  | none => rfl
  | some f =>
    have hne2 : b ≠ b2 := fun h => hne h.symm
    simp [List.getElem?_set_ne hne2]

/-- C2: on a non-empty scope stack whose current block is a block of the module,
declaring `x` with type `int` (with or without an initializer) and then
referencing `x` in the same frame both succeed: the declaration appends an
allocation of the 64-bit integer type and returns it, and the reference returns
a Load it appends to the current block, whose address operand is that allocation;
the reference writes no diagnostic. -/
theorem declare_then_reference (ord : ArgOrder) (x : String) (init : Option NExpression)
    (ctx : CodeGenContext) (top : CodeGenBlock) (rest : List CodeGenBlock)
    (hb : ctx.blocks = top :: rest) (hv : top.block < ctx.module.functions.length) :
    ∃ alloc ctx1 v ctx2,
      NStatement.codeGen ord (NStatement.variableDeclaration
          { type := "int", id := x, assignmentExpr := init }) ctx
        = Except.ok (some alloc, ctx1) ∧
      alloc = Value.instruction top.block (ctx.module.blockOf top.block).length ∧
      (ctx1.module.blockOf top.block)[(ctx.module.blockOf top.block).length]?
        = some (Instruction.alloca IRType.int64 x) ∧
      NExpression.codeGen ord (NExpression.identifier x) ctx1 = Except.ok (some v, ctx2) ∧
      v = Value.instruction top.block (ctx1.module.blockOf top.block).length ∧
      ctx2.module.blockOf top.block
        = ctx1.module.blockOf top.block ++ [Instruction.load alloc] ∧
      ctx2.cerr = ctx1.cerr := by
  obtain ⟨code, diags, hd⟩ := variableDeclaration_extend ord
    { type := "int", id := x, assignmentExpr := init } ctx top rest hb
  have hty : typeOf "int" = IRType.int64 := by decide
  simp only [hty] at hd
  have hb1 := CodeGenContext.blocks_bind
    (ctx.extend top.block (Instruction.alloca IRType.int64 x :: code) diags) top rest
    (by exact hb) x (Value.instruction top.block (ctx.module.blockOf top.block).length)
  generalize halloc : Value.instruction top.block (ctx.module.blockOf top.block).length = alloc
    at hd hb1
  have hblock1 : ((ctx.extend top.block (Instruction.alloca IRType.int64 x :: code) diags).bind
      x alloc).module.blockOf top.block
      = ctx.module.blockOf top.block ++ Instruction.alloca IRType.int64 x :: code := by
    rw [CodeGenContext.module_bind, CodeGenContext.blockOf_extend _ _ _ _ hv]
  have hlen1 : top.block < ((ctx.extend top.block (Instruction.alloca IRType.int64 x :: code)
      diags).bind x alloc).module.functions.length := by
    rw [CodeGenContext.module_bind, CodeGenContext.length_extend]
    exact hv
  generalize hctx1 : (ctx.extend top.block (Instruction.alloca IRType.int64 x :: code)
      diags).bind x alloc = ctx1 at hd hb1 hblock1 hlen1
  refine ⟨alloc, ctx1, Value.instruction top.block (ctx1.module.blockOf top.block).length,
    ctx1.extend top.block [Instruction.load alloc] [], ?_, rfl, ?_, ?_, rfl, ?_, ?_⟩
  · simpa only [NStatement.codeGen] using hd
  · rw [hblock1, List.getElem?_append_right (Nat.le_refl _)]
    simp
  · simp only [NExpression.codeGen, NIdentifier.codeGen]
    rw [CodeGenContext.locals_of_blocks _ _ _ hb1, CodeGenContext.currentBlock_of_blocks _ _ _ hb1]
    simp only [lookupLocal_assignLocal_self, CodeGenContext.emit_eq]
  · exact CodeGenContext.blockOf_extend _ _ _ _ hlen1
  · simp [CodeGenContext.extend]

/-- Witness of C2: `int x = 3` and then `x` at top level. -/
theorem declare_then_reference_witness :
    (entryContext.blocks = { block := 0, locals := [] } :: [] ∧
      0 < entryContext.module.functions.length) ∧
    ∃ alloc ctx1 v ctx2,
      NStatement.codeGen ArgOrder.leftToRight (NStatement.variableDeclaration
          { type := "int", id := "x", assignmentExpr := some (NExpression.integer 3) })
          entryContext
        = Except.ok (some alloc, ctx1) ∧
      alloc = Value.instruction 0 (entryContext.module.blockOf 0).length ∧
      (ctx1.module.blockOf 0)[(entryContext.module.blockOf 0).length]?
        = some (Instruction.alloca IRType.int64 "x") ∧
      NExpression.codeGen ArgOrder.leftToRight (NExpression.identifier "x") ctx1
        = Except.ok (some v, ctx2) ∧
      v = Value.instruction 0 (ctx1.module.blockOf 0).length ∧
      ctx2.module.blockOf 0 = ctx1.module.blockOf 0 ++ [Instruction.load alloc] ∧
      ctx2.cerr = ctx1.cerr :=
  ⟨⟨rfl, by decide⟩,
   declare_then_reference ArgOrder.leftToRight "x" (some (NExpression.integer 3)) entryContext
     { block := 0, locals := [] } [] rfl (by decide)⟩

theorem binaryOpsOf_arithmetic (op : Token)
    (hop : op ∈ [Token.TPLUS, Token.TMINUS, Token.TMUL, Token.TDIV]) :
    ∃ instr, binaryOpsOf op = some instr := by
  simp only [List.mem_cons, List.mem_singleton, List.not_mem_nil, or_false] at hop
  rcases hop with h | h | h | h <;> subst h <;> exact ⟨_, rfl⟩

/-- The code of a binary operator in terms of the code of its operands, in the
order in which they are evaluated. -/
theorem binaryOperator_steps (ord : ArgOrder) (op : Token) (instr : BinaryOps)
    (l r : NExpression) (ctx : CodeGenContext) (top : CodeGenBlock) (rest : List CodeGenBlock)
    (hop : binaryOpsOf op = some instr) (hb : ctx.blocks = top :: rest) :
    ∃ lv rv c1 d1 c2 d2,
      NExpression.codeGen ord (ord.first l r) ctx
        = Except.ok (ord.first lv rv, ctx.extend top.block c1 d1) ∧
      NExpression.codeGen ord (ord.second l r) (ctx.extend top.block c1 d1)
        = Except.ok (ord.second lv rv, ctx.extend top.block (c1 ++ c2) (d1 ++ d2)) ∧
      NExpression.codeGen ord (NExpression.binaryOperator op l r) ctx
        = Except.ok (some (Value.instruction top.block
              ((ctx.extend top.block (c1 ++ c2) (d1 ++ d2)).module.blockOf top.block).length),
            ctx.extend top.block (c1 ++ c2 ++ [Instruction.binary instr lv rv]) (d1 ++ d2)) := by
  cases ord with
  | leftToRight =>
    obtain ⟨lv, c1, d1, h1⟩ := expression_extend ArgOrder.leftToRight l ctx top rest hb
    obtain ⟨rv, c2, d2, h2⟩ := expression_extend ArgOrder.leftToRight r
      (ctx.extend top.block c1 d1) top rest hb
    rw [CodeGenContext.extend_extend] at h2
    refine ⟨lv, rv, c1, d1, c2, d2, h1, h2, ?_⟩
    simp only [NExpression.codeGen, hop, h1, h2]
    rw [CodeGenContext.currentBlock_of_blocks _ top rest (by exact hb)]
    simp [CodeGenContext.emit_eq, CodeGenContext.extend_extend]
  | rightToLeft =>
    obtain ⟨rv, c1, d1, h1⟩ := expression_extend ArgOrder.rightToLeft r ctx top rest hb
    obtain ⟨lv, c2, d2, h2⟩ := expression_extend ArgOrder.rightToLeft l
      (ctx.extend top.block c1 d1) top rest hb
    rw [CodeGenContext.extend_extend] at h2
    refine ⟨lv, rv, c1, d1, c2, d2, h1, h2, ?_⟩
    simp only [NExpression.codeGen, hop, h1, h2]
    rw [CodeGenContext.currentBlock_of_blocks _ top rest (by exact hb)]
    simp [CodeGenContext.emit_eq, CodeGenContext.extend_extend]

/-- C5, as the code has it: for a binary expression with one of the operators
`+ - * /`, on a non-empty scope stack whose current block is a block of the
module, the code appended to the current block is the code of the operand
evaluated first, then the code of the operand evaluated second, then one
arithmetic instruction. Which operand is first is the order in which the compiler
evaluates the operand arguments of `BinaryOperator::Create`: with left-to-right
evaluation every instruction of the left operand precedes every instruction of
the right one, with right-to-left evaluation it is the other way round. -/
theorem binary_operands_in_evaluation_order (ord : ArgOrder) (op : Token)
    (l r : NExpression) (ctx : CodeGenContext) (top : CodeGenBlock) (rest : List CodeGenBlock)
    (hop : op ∈ [Token.TPLUS, Token.TMINUS, Token.TMUL, Token.TDIV])
    (hb : ctx.blocks = top :: rest) (hv : top.block < ctx.module.functions.length) :
    CodeInOrder ord (ord.first l r) (ord.second l r) (NExpression.binaryOperator op l r)
      ctx top.block := by
  obtain ⟨instr, hinstr⟩ := binaryOpsOf_arithmetic op hop
  obtain ⟨lv, rv, c1, d1, c2, d2, h1, h2, h3⟩ :=
    binaryOperator_steps ord op instr l r ctx top rest hinstr hb
  have hv1 : top.block < (ctx.extend top.block c1 d1).module.functions.length := by
    rw [CodeGenContext.length_extend]
    exact hv
  refine ⟨_, _, c1, _, _, c2, _, _, instr, lv, rv, h1, ?_, h2, ?_, h3, ?_⟩
  · exact CodeGenContext.blockOf_extend _ _ _ _ hv
  · rw [← CodeGenContext.extend_extend]
    exact CodeGenContext.blockOf_extend _ _ _ _ hv1
  · rw [CodeGenContext.blockOf_extend _ _ _ _ hv]
    simp only [List.append_assoc]

/-- Witness of C5: `a + b` with left-to-right evaluation. -/
theorem binary_operands_in_evaluation_order_witness :
    (Token.TPLUS ∈ [Token.TPLUS, Token.TMINUS, Token.TMUL, Token.TDIV] ∧
      contextAB.blocks
        = { block := 0,
            locals := [("a", Value.instruction 0 0), ("b", Value.instruction 0 1)] } :: [] ∧
      0 < contextAB.module.functions.length) ∧
    CodeInOrder ArgOrder.leftToRight (NExpression.identifier "a") (NExpression.identifier "b")
      (NExpression.binaryOperator Token.TPLUS (NExpression.identifier "a")
        (NExpression.identifier "b")) contextAB 0 :=
  ⟨⟨by decide, rfl, by decide⟩,
   binary_operands_in_evaluation_order ArgOrder.leftToRight Token.TPLUS
     (NExpression.identifier "a") (NExpression.identifier "b") contextAB
     { block := 0, locals := [("a", Value.instruction 0 0), ("b", Value.instruction 0 1)] } []
     (by decide) rfl (by decide)⟩

theorem contextAB_identifier_a :
    NExpression.codeGen ArgOrder.rightToLeft (NExpression.identifier "a") contextAB
      = Except.ok (some (Value.instruction 0 2),
          contextAB.extend 0 [Instruction.load (Value.instruction 0 0)] []) := rfl

theorem contextAB_sum :
    NExpression.codeGen ArgOrder.rightToLeft
        (NExpression.binaryOperator Token.TPLUS (NExpression.identifier "a")
          (NExpression.identifier "b")) contextAB
      = Except.ok (some (Value.instruction 0 4),
          contextAB.extend 0
            [Instruction.load (Value.instruction 0 1),
             Instruction.load (Value.instruction 0 0),
             Instruction.binary BinaryOps.Add (some (Value.instruction 0 3))
               (some (Value.instruction 0 2))] []) := rfl

/-- C5 fails as stated: when the operand arguments are evaluated right to left,
generating `a + b` (both declared in the current frame) appends the load of `b`,
then the load of `a`, then the add whose first operand is the load of `a`: the
code of the left operand does not precede the code of the right operand. -/
theorem binary_right_operand_first :
    (∃ ctx2, NExpression.codeGen ArgOrder.rightToLeft
        (NExpression.binaryOperator Token.TPLUS (NExpression.identifier "a")
          (NExpression.identifier "b")) contextAB
        = Except.ok (some (Value.instruction 0 4), ctx2) ∧
      ctx2.module.blockOf 0
        = [Instruction.alloca IRType.int64 "a",
           Instruction.alloca IRType.int64 "b",
           Instruction.load (Value.instruction 0 1),
           Instruction.load (Value.instruction 0 0),
           Instruction.binary BinaryOps.Add (some (Value.instruction 0 3))
             (some (Value.instruction 0 2))]) ∧
    ¬ CodeInOrder ArgOrder.rightToLeft (NExpression.identifier "a") (NExpression.identifier "b")
      (NExpression.binaryOperator Token.TPLUS (NExpression.identifier "a")
        (NExpression.identifier "b")) contextAB 0 := by
  refine ⟨⟨_, contextAB_sum, rfl⟩, ?_⟩
  rintro ⟨va, ctx1, codeA, vc, ctx2, codeC, res, ctx3, opc, lv, rv, h1, hA, _, _, h3, hE⟩
  rw [contextAB_identifier_a] at h1
  injection h1 with h1
  injection h1 with _ h1
  subst h1
  rw [contextAB_sum] at h3
  injection h3 with h3
  injection h3 with _ h3
  subst h3
  have hA0 : contextAB.module.blockOf 0
      = [Instruction.alloca IRType.int64 "a", Instruction.alloca IRType.int64 "b"] := rfl
  have hA1 : (contextAB.extend 0 [Instruction.load (Value.instruction 0 0)] []).module.blockOf 0
      = [Instruction.alloca IRType.int64 "a", Instruction.alloca IRType.int64 "b",
         Instruction.load (Value.instruction 0 0)] := rfl
  have hA3 : (contextAB.extend 0
      [Instruction.load (Value.instruction 0 1),
       Instruction.load (Value.instruction 0 0),
       Instruction.binary BinaryOps.Add (some (Value.instruction 0 3))
         (some (Value.instruction 0 2))] []).module.blockOf 0
      = [Instruction.alloca IRType.int64 "a", Instruction.alloca IRType.int64 "b",
         Instruction.load (Value.instruction 0 1),
         Instruction.load (Value.instruction 0 0),
         Instruction.binary BinaryOps.Add (some (Value.instruction 0 3))
           (some (Value.instruction 0 2))] := rfl
  rw [hA0, hA1] at hA
  rw [hA0, hA3] at hE
  have hcodeA : codeA = [Instruction.load (Value.instruction 0 0)] := by
    simpa using hA.symm
  subst hcodeA
  simp at hE

theorem binaryOpsOf_table (op : Token) (instr : BinaryOps)
    (hop : (op, instr) ∈ [(Token.TPLUS, BinaryOps.Add), (Token.TMINUS, BinaryOps.Sub),
      (Token.TMUL, BinaryOps.Mul), (Token.TDIV, BinaryOps.SDiv)]) :
    binaryOpsOf op = some instr := by
  simp only [List.mem_cons, List.mem_singleton, List.not_mem_nil, or_false,
    Prod.mk.injEq] at hop
  rcases hop with ⟨h, h2⟩ | ⟨h, h2⟩ | ⟨h, h2⟩ | ⟨h, h2⟩ <;> subst h <;> subst h2 <;> rfl

theorem CodeGenContext.blockOf_extend_other (ctx : CodeGenContext) (b b2 : Nat)
    (c : List Instruction) (d : List Diagnostic) (hne : b2 ≠ b) :
    (ctx.extend b c d).module.blockOf b2 = ctx.module.blockOf b2 := by
  simp [CodeGenContext.extend, Module.blockOf_appendCode_other _ _ _ _ hne]

/-- C6: for a binary expression with operator `+`, `-`, `*` or `/`, on a non-empty
scope stack whose current block is a block of the module: once the operands have
generated (in the order of evaluation), with `lv` the value of the left operand
and `rv` the value of the right operand, generation appends exactly one
instruction to the current block, after the operand code: the arithmetic
instruction with opcode Add, Sub, Mul or SDiv respectively, first operand `lv`
and second operand `rv`; nothing else changes, and that instruction is the
value returned. -/
theorem binary_instruction_appended (ord : ArgOrder) (op : Token) (instr : BinaryOps)
    (l r : NExpression) (ctx ctx1 ctx2 : CodeGenContext) (lv rv : Option Value)
    (top : CodeGenBlock) (rest : List CodeGenBlock)
    (hop : (op, instr) ∈ [(Token.TPLUS, BinaryOps.Add), (Token.TMINUS, BinaryOps.Sub),
      (Token.TMUL, BinaryOps.Mul), (Token.TDIV, BinaryOps.SDiv)])
    (hb : ctx.blocks = top :: rest) (hv : top.block < ctx.module.functions.length)
    (h1 : NExpression.codeGen ord (ord.first l r) ctx = Except.ok (ord.first lv rv, ctx1))
    (h2 : NExpression.codeGen ord (ord.second l r) ctx1 = Except.ok (ord.second lv rv, ctx2)) :
    ∃ ctx3,
      NExpression.codeGen ord (NExpression.binaryOperator op l r) ctx
        = Except.ok (some (Value.instruction top.block
            (ctx2.module.blockOf top.block).length), ctx3) ∧
      ctx3.module.blockOf top.block
        = ctx2.module.blockOf top.block ++ [Instruction.binary instr lv rv] ∧
      (∀ b, b ≠ top.block → ctx3.module.blockOf b = ctx2.module.blockOf b) ∧
      ctx3.blocks = ctx2.blocks ∧ ctx3.cerr = ctx2.cerr ∧
      ctx3.mainFunction = ctx2.mainFunction := by
  have hinstr := binaryOpsOf_table op instr hop
  obtain ⟨lv2, rv2, c1, d1, c2, d2, e1, e2, e3⟩ :=
    binaryOperator_steps ord op instr l r ctx top rest hinstr hb
  rw [e1] at h1
  injection h1 with h1
  injection h1 with hv1 hc1
  subst hc1
  rw [e2] at h2
  injection h2 with h2
  injection h2 with hv2 hc2
  subst hc2
  have hl : lv2 = lv := by
    cases ord
    · exact hv1
    · exact hv2
  have hr : rv2 = rv := by
    cases ord
    · exact hv2
    · exact hv1
  subst hl
  subst hr
  refine ⟨_, e3, ?_, ?_, rfl, ?_, rfl⟩
  · rw [CodeGenContext.blockOf_extend _ _ _ _ hv, CodeGenContext.blockOf_extend _ _ _ _ hv]
    simp only [List.append_assoc]
  · intro b hne
    rw [CodeGenContext.blockOf_extend_other _ _ _ _ _ hne,
      CodeGenContext.blockOf_extend_other _ _ _ _ _ hne]
  · simp [CodeGenContext.extend]

/-- Witness of C6: `a / b` with both names declared, left-to-right evaluation. -/
theorem binary_instruction_appended_witness :
    ((Token.TDIV, BinaryOps.SDiv) ∈ [(Token.TPLUS, BinaryOps.Add),
        (Token.TMINUS, BinaryOps.Sub), (Token.TMUL, BinaryOps.Mul),
        (Token.TDIV, BinaryOps.SDiv)] ∧
      contextAB.blocks
        = { block := 0,
            locals := [("a", Value.instruction 0 0), ("b", Value.instruction 0 1)] } :: [] ∧
      0 < contextAB.module.functions.length ∧
      NExpression.codeGen ArgOrder.leftToRight (NExpression.identifier "a") contextAB
        = Except.ok (some (Value.instruction 0 2), contextABa) ∧
      NExpression.codeGen ArgOrder.leftToRight (NExpression.identifier "b") contextABa
        = Except.ok (some (Value.instruction 0 3), contextABab)) ∧
    ∃ ctx3,
      NExpression.codeGen ArgOrder.leftToRight
          (NExpression.binaryOperator Token.TDIV (NExpression.identifier "a")
            (NExpression.identifier "b")) contextAB
        = Except.ok (some (Value.instruction 0 (contextABab.module.blockOf 0).length), ctx3) ∧
      ctx3.module.blockOf 0
        = contextABab.module.blockOf 0
          ++ [Instruction.binary BinaryOps.SDiv (some (Value.instruction 0 2))
                (some (Value.instruction 0 3))] ∧
      (∀ b, b ≠ 0 → ctx3.module.blockOf b = contextABab.module.blockOf b) ∧
      ctx3.blocks = contextABab.blocks ∧ ctx3.cerr = contextABab.cerr ∧
      ctx3.mainFunction = contextABab.mainFunction :=
  ⟨⟨by decide, rfl, by decide, rfl, rfl⟩,
   binary_instruction_appended ArgOrder.leftToRight Token.TDIV BinaryOps.SDiv
     (NExpression.identifier "a") (NExpression.identifier "b") contextAB contextABa contextABab
     (some (Value.instruction 0 2)) (some (Value.instruction 0 3))
     { block := 0, locals := [("a", Value.instruction 0 0), ("b", Value.instruction 0 1)] } []
     (by decide) rfl (by decide) rfl rfl⟩

/-- C13, as the code has it: a binary expression whose operator token is none of
`+ - * /` returns no value and leaves the context unchanged: neither operand is
generated, no instruction is appended, and no diagnostic is written; the outcome
is not fatal. -/
theorem unsupported_operator_silent (ord : ArgOrder) (op : Token) (l r : NExpression)
    (ctx : CodeGenContext)
    (hop : op ∉ [Token.TPLUS, Token.TMINUS, Token.TMUL, Token.TDIV]) :
    NExpression.codeGen ord (NExpression.binaryOperator op l r) ctx = Except.ok (none, ctx) := by
  cases op with
  | other code => simp [NExpression.codeGen, binaryOpsOf]
  | TPLUS => simp at hop
  | TMINUS => simp at hop
  | TMUL => simp at hop
  | TDIV => simp at hop

/-- Witness of C13: a comparison `a < b` with token code 0. -/
theorem unsupported_operator_silent_witness :
    Token.other 0 ∉ [Token.TPLUS, Token.TMINUS, Token.TMUL, Token.TDIV] ∧
    NExpression.codeGen ArgOrder.leftToRight
        (NExpression.binaryOperator (Token.other 0) (NExpression.identifier "a")
          (NExpression.identifier "b")) contextAB
      = Except.ok (none, contextAB) :=
  ⟨by decide,
   unsupported_operator_silent ArgOrder.leftToRight (Token.other 0)
     (NExpression.identifier "a") (NExpression.identifier "b") contextAB (by decide)⟩

/-- C13 fails as stated: for the comparison `a < b` (token code 0) generation is
not fatal and reports nothing: it returns no value and the context, diagnostics
included, is exactly as before. -/
theorem unsupported_operator_not_reported :
    (∀ err, NExpression.codeGen ArgOrder.leftToRight
        (NExpression.binaryOperator (Token.other 0) (NExpression.identifier "a")
          (NExpression.identifier "b")) contextAB ≠ Except.error err) ∧
    (∃ ctx2, NExpression.codeGen ArgOrder.leftToRight
        (NExpression.binaryOperator (Token.other 0) (NExpression.identifier "a")
          (NExpression.identifier "b")) contextAB = Except.ok (none, ctx2) ∧
      ctx2.cerr = contextAB.cerr ∧ ctx2.cerr = []) := by
  have h : NExpression.codeGen ArgOrder.leftToRight
      (NExpression.binaryOperator (Token.other 0) (NExpression.identifier "a")
        (NExpression.identifier "b")) contextAB = Except.ok (none, contextAB) := rfl
  refine ⟨?_, contextAB, h, rfl, rfl⟩
  intro err herr
  rw [h] at herr
  cases herr

theorem generateNext_error (ord : ArgOrder) (ss : List NStatement) (err : Fatal) :
    ss.foldl (generateNext ord) (Except.error err : Gen) = Except.error err := by
  induction ss with
  | nil => rfl
  | cons s ss ih => simpa [List.foldl, generateNext] using ih

theorem codeGenList_eq_foldl (ord : ArgOrder) (ss : List NStatement) (last : Option Value)
    (ctx : CodeGenContext) :
    NStatement.codeGenList ord ss last ctx
      = ss.foldl (generateNext ord) (Except.ok (last, ctx)) := by
  induction ss generalizing last ctx with
  | nil => simp [NStatement.codeGenList]
  | cons s ss ih =>
    simp only [NStatement.codeGenList, List.foldl, generateNext]
    cases h : NStatement.codeGen ord s ctx with
    | error err => simp [generateNext_error]
    | ok p =>
      obtain ⟨v, ctx1⟩ := p
      simp [ih]

/-- C16: generating a block is generating its statements one after the other in
source order, each in the context the previous one left, with no frame pushed or
popped in between; the same holds for a block used as a statement. The empty
block returns no value and the context unchanged, and a block extended by a last
statement generates the block and then that statement, whose value is the
result. -/
theorem block_is_sequential_composition (ord : ArgOrder) (ss : List NStatement)
    (s : NStatement) (ctx : CodeGenContext) :
    NBlock.codeGen ord ss ctx = generateInOrder ord ss ctx ∧
    NStatement.codeGen ord (NStatement.block ss) ctx = generateInOrder ord ss ctx ∧
    NBlock.codeGen ord [] ctx = Except.ok (none, ctx) ∧
    NBlock.codeGen ord (ss ++ [s]) ctx
      = (match NBlock.codeGen ord ss ctx with
         | Except.error err => Except.error err
         | Except.ok (_, ctx1) => NStatement.codeGen ord s ctx1) := by
  have h : ∀ l c, NBlock.codeGen ord l c = generateInOrder ord l c := fun l c => by
    simp only [NBlock.codeGen, generateInOrder, codeGenList_eq_foldl]
  refine ⟨h ss ctx, ?_, ?_, ?_⟩
  · simp only [NStatement.codeGen, generateInOrder, codeGenList_eq_foldl]
  · simp [NBlock.codeGen, NStatement.codeGenList]
  · rw [h, h]
    simp only [generateInOrder, List.foldl_append, List.foldl]
    cases List.foldl (generateNext ord) (Except.ok (none, ctx)) ss <;> rfl

/-- C15: a declaration of `x` with initializer `e` leaves the same context (or
the same fatal outcome) as the declaration of `x` without initializer followed by
the assignment `x = e`. On a non-empty scope stack whose current block is a block
of the module both are: one storage allocation, then the code of `e` generated
with `x` already bound to the allocation, then one Store of the value of `e` into
the allocation. -/
theorem declaration_with_initializer (ord : ArgOrder) (type x : String) (e : NExpression)
    (ctx : CodeGenContext) (top : CodeGenBlock) (rest : List CodeGenBlock)
    (hb : ctx.blocks = top :: rest) (hv : top.block < ctx.module.functions.length) :
    contextAfter (NStatement.codeGen ord (NStatement.variableDeclaration
        { type := type, id := x, assignmentExpr := some e }) ctx)
      = declareThenAssign ord type x e ctx ∧
    ∃ alloc ctx1 v ctx2 code ctx3,
      NStatement.codeGen ord (NStatement.variableDeclaration
          { type := type, id := x, assignmentExpr := none }) ctx
        = Except.ok (some alloc, ctx1) ∧
      alloc = Value.instruction top.block (ctx.module.blockOf top.block).length ∧
      ctx1.module.blockOf top.block
        = ctx.module.blockOf top.block ++ [Instruction.alloca (typeOf type) x] ∧
      ctx1.locals = Except.ok (assignLocal top.locals x alloc) ∧
      NExpression.codeGen ord e ctx1 = Except.ok (v, ctx2) ∧
      ctx2.module.blockOf top.block = ctx1.module.blockOf top.block ++ code ∧
      NStatement.codeGen ord (NStatement.variableDeclaration
          { type := type, id := x, assignmentExpr := some e }) ctx
        = Except.ok (some alloc, ctx3) ∧
      ctx3.module.blockOf top.block
        = ctx.module.blockOf top.block ++ [Instruction.alloca (typeOf type) x] ++ code
          ++ [Instruction.store v alloc] ∧
      ctx3.blocks = ctx1.blocks := by
  constructor
  · simp only [contextAfter, declareThenAssign, NStatement.codeGen, NVariableDeclaration.codeGen]
    cases ctx.currentBlock with
    | error err => rfl
    | ok bb =>
      simp only []
      cases (ctx.emit bb (Instruction.alloca (typeOf type) x)).2.declare x
          (ctx.emit bb (Instruction.alloca (typeOf type) x)).1 with
      | error err => rfl
      | ok ctx1 =>
        simp only []
        cases NAssignment.codeGen ord x e ctx1 with
        | error err => rfl
        | ok p => rfl
  · have hdecl : ∀ init, NVariableDeclaration.codeGen ord
        { type := type, id := x, assignmentExpr := init } ctx
        = (match init with
           | none => Except.ok (some (Value.instruction top.block
               (ctx.module.blockOf top.block).length),
               (ctx.extend top.block [Instruction.alloca (typeOf type) x] []).bind x
                 (Value.instruction top.block (ctx.module.blockOf top.block).length))
           | some e2 =>
             match NAssignment.codeGen ord x e2
               ((ctx.extend top.block [Instruction.alloca (typeOf type) x] []).bind x
                 (Value.instruction top.block (ctx.module.blockOf top.block).length)) with
             | Except.error err => Except.error err
             | Except.ok (_, ctx2) => Except.ok (some (Value.instruction top.block
                 (ctx.module.blockOf top.block).length), ctx2)) := by
      intro init
      unfold NVariableDeclaration.codeGen
      rw [ctx.currentBlock_of_blocks top rest hb]
      simp only [CodeGenContext.emit_eq]
      have hdec := CodeGenContext.declare_of_blocks
        (ctx.extend top.block [Instruction.alloca (typeOf type) x] []) top rest (by exact hb) x
        (Value.instruction top.block (ctx.module.blockOf top.block).length)
      cases init <;> simp only [hdec]
    have hb1 := CodeGenContext.blocks_bind
      (ctx.extend top.block [Instruction.alloca (typeOf type) x] []) top rest
      (by exact hb) x (Value.instruction top.block (ctx.module.blockOf top.block).length)
    have hblock1 : ((ctx.extend top.block [Instruction.alloca (typeOf type) x] []).bind
        x (Value.instruction top.block (ctx.module.blockOf top.block).length)).module.blockOf
          top.block
        = ctx.module.blockOf top.block ++ [Instruction.alloca (typeOf type) x] := by
      rw [CodeGenContext.module_bind, CodeGenContext.blockOf_extend _ _ _ _ hv]
    have hlen1 : top.block < ((ctx.extend top.block [Instruction.alloca (typeOf type) x]
        []).bind x (Value.instruction top.block
          (ctx.module.blockOf top.block).length)).module.functions.length := by
      rw [CodeGenContext.module_bind, CodeGenContext.length_extend]
      exact hv
    generalize halloc : Value.instruction top.block (ctx.module.blockOf top.block).length
      = alloc at hdecl hb1 hblock1 hlen1
    generalize hctx1 : (ctx.extend top.block [Instruction.alloca (typeOf type) x] []).bind
      x alloc = ctx1 at hdecl hb1 hblock1 hlen1
    obtain ⟨v, code, diags, he⟩ := expression_extend ord e ctx1 _ rest hb1
    have hlen2 : top.block < (ctx1.extend top.block code diags).module.functions.length := by
      rw [CodeGenContext.length_extend]
      exact hlen1
    refine ⟨alloc, ctx1, v, ctx1.extend top.block code diags, code,
      (ctx1.extend top.block code diags).extend top.block [Instruction.store v alloc] [],
      ?_, rfl, hblock1, ?_, he, ?_, ?_, ?_, rfl⟩
    · simpa only [NStatement.codeGen] using hdecl none
    · rw [CodeGenContext.locals_of_blocks _ _ _ hb1]
    · exact CodeGenContext.blockOf_extend _ _ _ _ hlen1
    · simp only [NStatement.codeGen, hdecl (some e), NAssignment.codeGen]
      rw [CodeGenContext.locals_of_blocks _ _ _ hb1]
      simp only [lookupLocal_assignLocal_self, he]
      rw [CodeGenContext.currentBlock_of_blocks _ _ rest (by exact hb1)]
      simp only [CodeGenContext.emit_eq]
    · rw [CodeGenContext.blockOf_extend _ _ _ _ hlen2,
        CodeGenContext.blockOf_extend _ _ _ _ hlen1, hblock1]

/-- Witness of C15: `int x = x` at top level: the initializer reads the location
just allocated. -/
theorem declaration_with_initializer_witness :
    (entryContext.blocks = { block := 0, locals := [] } :: [] ∧
      0 < entryContext.module.functions.length) ∧
    (contextAfter (NStatement.codeGen ArgOrder.leftToRight (NStatement.variableDeclaration
        { type := "int", id := "x", assignmentExpr := some (NExpression.identifier "x") })
        entryContext)
      = declareThenAssign ArgOrder.leftToRight "int" "x" (NExpression.identifier "x")
          entryContext ∧
    ∃ alloc ctx1 v ctx2 code ctx3,
      NStatement.codeGen ArgOrder.leftToRight (NStatement.variableDeclaration
          { type := "int", id := "x", assignmentExpr := none }) entryContext
        = Except.ok (some alloc, ctx1) ∧
      alloc = Value.instruction 0 (entryContext.module.blockOf 0).length ∧
      ctx1.module.blockOf 0
        = entryContext.module.blockOf 0 ++ [Instruction.alloca (typeOf "int") "x"] ∧
      ctx1.locals = Except.ok (assignLocal [] "x" alloc) ∧
      NExpression.codeGen ArgOrder.leftToRight (NExpression.identifier "x") ctx1
        = Except.ok (v, ctx2) ∧
      ctx2.module.blockOf 0 = ctx1.module.blockOf 0 ++ code ∧
      NStatement.codeGen ArgOrder.leftToRight (NStatement.variableDeclaration
          { type := "int", id := "x", assignmentExpr := some (NExpression.identifier "x") })
          entryContext
        = Except.ok (some alloc, ctx3) ∧
      ctx3.module.blockOf 0
        = entryContext.module.blockOf 0 ++ [Instruction.alloca (typeOf "int") "x"] ++ code
          ++ [Instruction.store v alloc] ∧
      ctx3.blocks = ctx1.blocks) :=
  ⟨⟨rfl, by decide⟩,
   declaration_with_initializer ArgOrder.leftToRight "int" "x" (NExpression.identifier "x")
     entryContext { block := 0, locals := [] } [] rfl (by decide)⟩

/-- The argument loop generates the arguments first to last; the code it appends
is the concatenation of the code of the arguments in source order. -/
theorem arguments_in_order (ord : ArgOrder) (es : List NExpression) :
    ∀ (ctx : CodeGenContext) (top : CodeGenBlock) (rest : List CodeGenBlock),
      ctx.blocks = top :: rest → top.block < ctx.module.functions.length →
      ∃ vs codes diags,
        NExpression.codeGenArgs ord es ctx
          = Except.ok (vs, ctx.extend top.block codes.flatten diags) ∧
        ArgumentsInOrder ord top.block es ctx vs codes
          (ctx.extend top.block codes.flatten diags) ∧
        vs.length = es.length ∧ codes.length = es.length := by
  induction es with
  | nil =>
    intro ctx top rest _ _
    refine ⟨[], [], [], ?_, ?_, rfl, rfl⟩
    · simp [NExpression.codeGenArgs, CodeGenContext.extend_nil]
    · simp [ArgumentsInOrder, CodeGenContext.extend_nil]
  | cons e es ih =>
    intro ctx top rest hb hv
    obtain ⟨v, c, d, he⟩ := expression_extend ord e ctx top rest hb
    have hv1 : top.block < (ctx.extend top.block c d).module.functions.length := by
      rw [CodeGenContext.length_extend]
      exact hv
    obtain ⟨vs, codes, ds, hargs, hord, hl1, hl2⟩ :=
      ih (ctx.extend top.block c d) top rest hb hv1
    rw [CodeGenContext.extend_extend] at hargs hord
    refine ⟨v :: vs, c :: codes, d ++ ds, ?_, ?_, by simp [hl1], by simp [hl2]⟩
    · simp only [NExpression.codeGenArgs, he, hargs, List.flatten_cons]
    · simp only [ArgumentsInOrder, List.flatten_cons]
      exact ⟨v, c, ctx.extend top.block c d, vs, codes, he,
        CodeGenContext.blockOf_extend _ _ _ _ hv, hord, rfl, rfl⟩

/-- C11: for a call whose callee name resolves to the function `f` of the module,
on a non-empty scope stack whose current block is a block of the module: the
arguments are generated first to last, the code of each following the code of the
one before it in the current block; then exactly one Call instruction is appended,
whose callee is `f` and whose arguments are the values of the argument
expressions in source order, as many as there are argument expressions. It is
the value returned, and the call itself writes no diagnostic. -/
theorem call_arguments_left_to_right (ord : ArgOrder) (id : String)
    (arguments : List NExpression) (f : Nat) (ctx : CodeGenContext) (top : CodeGenBlock)
    (rest : List CodeGenBlock) (hb : ctx.blocks = top :: rest)
    (hv : top.block < ctx.module.functions.length)
    (hf : ctx.module.getFunction id = some f) :
    ∃ vs codes ctx1 ctx2,
      ArgumentsInOrder ord top.block arguments ctx vs codes ctx1 ∧
      vs.length = arguments.length ∧ codes.length = arguments.length ∧
      ctx1.module.blockOf top.block = ctx.module.blockOf top.block ++ codes.flatten ∧
      NExpression.codeGen ord (NExpression.methodCall id arguments) ctx
        = Except.ok (some (Value.instruction top.block
            (ctx1.module.blockOf top.block).length), ctx2) ∧
      ctx2.module.blockOf top.block
        = ctx1.module.blockOf top.block ++ [Instruction.call (some f) vs] ∧
      ctx2.cerr = ctx1.cerr := by
  obtain ⟨vs, codes, diags, hargs, hord, hl1, hl2⟩ :=
    arguments_in_order ord arguments ctx top rest hb hv
  have hv1 : top.block < (ctx.extend top.block codes.flatten diags).module.functions.length := by
    rw [CodeGenContext.length_extend]
    exact hv
  refine ⟨vs, codes, ctx.extend top.block codes.flatten diags,
    (ctx.extend top.block codes.flatten diags).extend top.block
      [Instruction.call (some f) vs] [], hord, hl1, hl2,
    CodeGenContext.blockOf_extend _ _ _ _ hv, ?_,
    CodeGenContext.blockOf_extend _ _ _ _ hv1, by simp [CodeGenContext.extend]⟩
  simp only [NExpression.codeGen, hf]
  simp only [reduceCtorEq, if_false, hargs]
  rw [CodeGenContext.currentBlock_of_blocks _ top rest (by exact hb)]
  simp only [CodeGenContext.emit_eq]

/-- Witness of C11: the call `g(a, b)` in the body of `g`. -/
theorem call_arguments_left_to_right_witness :
    (contextG.blocks
        = { block := 1,
            locals := [("a", Value.instruction 1 0), ("b", Value.instruction 1 1)] }
          :: [{ block := 0, locals := [] }] ∧
      1 < contextG.module.functions.length ∧
      contextG.module.getFunction "g" = some 1) ∧
    ∃ vs codes ctx1 ctx2,
      ArgumentsInOrder ArgOrder.leftToRight 1
        [NExpression.identifier "a", NExpression.identifier "b"] contextG vs codes ctx1 ∧
      vs.length = [NExpression.identifier "a", NExpression.identifier "b"].length ∧
      codes.length = [NExpression.identifier "a", NExpression.identifier "b"].length ∧
      ctx1.module.blockOf 1 = contextG.module.blockOf 1 ++ codes.flatten ∧
      NExpression.codeGen ArgOrder.leftToRight (NExpression.methodCall "g"
          [NExpression.identifier "a", NExpression.identifier "b"]) contextG
        = Except.ok (some (Value.instruction 1 (ctx1.module.blockOf 1).length), ctx2) ∧
      ctx2.module.blockOf 1 = ctx1.module.blockOf 1 ++ [Instruction.call (some 1) vs] ∧
      ctx2.cerr = ctx1.cerr :=
  ⟨⟨rfl, by decide, by decide⟩,
   call_arguments_left_to_right ArgOrder.leftToRight "g"
     [NExpression.identifier "a", NExpression.identifier "b"] 1 contextG
     { block := 1, locals := [("a", Value.instruction 1 0), ("b", Value.instruction 1 1)] }
     [{ block := 0, locals := [] }] rfl (by decide) (by decide)⟩

theorem variableDeclaration_without_initializer (ord : ArgOrder) (type x : String)
    (ctx : CodeGenContext) (top : CodeGenBlock) (rest : List CodeGenBlock)
    (hb : ctx.blocks = top :: rest) :
    NVariableDeclaration.codeGen ord { type := type, id := x, assignmentExpr := none } ctx
      = Except.ok (some (Value.instruction top.block (ctx.module.blockOf top.block).length),
          (ctx.extend top.block [Instruction.alloca (typeOf type) x] []).bind x
            (Value.instruction top.block (ctx.module.blockOf top.block).length)) := by
  unfold NVariableDeclaration.codeGen
  rw [ctx.currentBlock_of_blocks top rest hb]
  simp only [CodeGenContext.emit_eq]
  rw [CodeGenContext.declare_of_blocks _ top rest (by exact hb)]

theorem CodeGenContext.locals_bind (ctx : CodeGenContext) (top : CodeGenBlock)
    (rest : List CodeGenBlock) (h : ctx.blocks = top :: rest) (x : String) (v : Value) :
    (ctx.bind x v).locals = Except.ok (assignLocal top.locals x v) := by
  simp [CodeGenContext.bind, CodeGenContext.locals, h]

theorem getElem?_append_cons {α : Type} (l : List α) (a : α) (r : List α) :
    (l ++ a :: r)[l.length]? = some a := by
  rw [List.getElem?_append_right (Nat.le_refl _)]
  simp

/-- C14: on a non-empty scope stack whose current block is a block of the module,
declaring `x` twice in the same frame (any types, with or without initializers)
is not fatal and appends two allocations at different positions of the current
block; afterwards the current frame maps `x` to the second allocation and every
other name to what it was mapped to before; a reference to `x` then loads from
the second allocation and an assignment to `x` stores into it. A second
declaration without initializer writes no diagnostic. -/
theorem redeclaration_overwrites (ord : ArgOrder) (x type1 type2 : String)
    (init1 init2 : Option NExpression) (e : NExpression)
    (ctx : CodeGenContext) (top : CodeGenBlock) (rest : List CodeGenBlock)
    (hb : ctx.blocks = top :: rest) (hv : top.block < ctx.module.functions.length) :
    ∃ i1 ctx1 i2 ctx2 ls2,
      NStatement.codeGen ord (NStatement.variableDeclaration
          { type := type1, id := x, assignmentExpr := init1 }) ctx
        = Except.ok (some (Value.instruction top.block i1), ctx1) ∧
      NStatement.codeGen ord (NStatement.variableDeclaration
          { type := type2, id := x, assignmentExpr := init2 }) ctx1
        = Except.ok (some (Value.instruction top.block i2), ctx2) ∧
      i1 < i2 ∧
      (ctx2.module.blockOf top.block)[i1]? = some (Instruction.alloca (typeOf type1) x) ∧
      (ctx2.module.blockOf top.block)[i2]? = some (Instruction.alloca (typeOf type2) x) ∧
      ctx2.locals = Except.ok ls2 ∧
      lookupLocal ls2 x = some (Value.instruction top.block i2) ∧
      (∀ y, y ≠ x → lookupLocal ls2 y = lookupLocal top.locals y) ∧
      (init2 = none → ctx2.cerr = ctx1.cerr) ∧
      (∃ v ctx3, NExpression.codeGen ord (NExpression.identifier x) ctx2
          = Except.ok (some v, ctx3) ∧
        ctx3.module.blockOf top.block
          = ctx2.module.blockOf top.block
            ++ [Instruction.load (Value.instruction top.block i2)]) ∧
      (∃ v w code ctx3, NStatement.codeGen ord (NStatement.assignment x e) ctx2
          = Except.ok (some v, ctx3) ∧
        ctx3.module.blockOf top.block
          = ctx2.module.blockOf top.block ++ code
            ++ [Instruction.store w (Value.instruction top.block i2)]) := by
  obtain ⟨code1, d1, h1⟩ := variableDeclaration_extend ord
    { type := type1, id := x, assignmentExpr := init1 } ctx top rest hb
  simp only [] at h1
  generalize hi1 : (ctx.module.blockOf top.block).length = i1 at h1
  have hb1 := CodeGenContext.blocks_bind
    (ctx.extend top.block (Instruction.alloca (typeOf type1) x :: code1) d1) top rest
    (by exact hb) x (Value.instruction top.block i1)
  have hblock1 : ((ctx.extend top.block (Instruction.alloca (typeOf type1) x :: code1) d1).bind
      x (Value.instruction top.block i1)).module.blockOf top.block
      = ctx.module.blockOf top.block ++ Instruction.alloca (typeOf type1) x :: code1 := by
    rw [CodeGenContext.module_bind, CodeGenContext.blockOf_extend _ _ _ _ hv]
  have hv1 : top.block < ((ctx.extend top.block (Instruction.alloca (typeOf type1) x :: code1)
      d1).bind x (Value.instruction top.block i1)).module.functions.length := by
    rw [CodeGenContext.module_bind, CodeGenContext.length_extend]
    exact hv
  generalize hctx1 : (ctx.extend top.block (Instruction.alloca (typeOf type1) x :: code1)
      d1).bind x (Value.instruction top.block i1) = ctx1 at h1 hb1 hblock1 hv1
  obtain ⟨code2, d2, h2⟩ := variableDeclaration_extend ord
    { type := type2, id := x, assignmentExpr := init2 } ctx1 _ rest hb1
  simp only [] at h2
  generalize hi2 : (ctx1.module.blockOf top.block).length = i2 at h2
  have hb2 := CodeGenContext.blocks_bind
    (ctx1.extend top.block (Instruction.alloca (typeOf type2) x :: code2) d2) _ rest
    (by exact hb1) x (Value.instruction top.block i2)
  simp only [] at hb2
  have hblock2 : ((ctx1.extend top.block (Instruction.alloca (typeOf type2) x :: code2)
      d2).bind x (Value.instruction top.block i2)).module.blockOf top.block
      = ctx1.module.blockOf top.block ++ Instruction.alloca (typeOf type2) x :: code2 := by
    rw [CodeGenContext.module_bind, CodeGenContext.blockOf_extend _ _ _ _ hv1]
  have hv2 : top.block < ((ctx1.extend top.block (Instruction.alloca (typeOf type2) x :: code2)
      d2).bind x (Value.instruction top.block i2)).module.functions.length := by
    rw [CodeGenContext.module_bind, CodeGenContext.length_extend]
    exact hv1
  have hcerr : init2 = none →
      ((ctx1.extend top.block (Instruction.alloca (typeOf type2) x :: code2) d2).bind x
        (Value.instruction top.block i2)).cerr = ctx1.cerr := by
    intro hnone
    subst hnone
    rw [variableDeclaration_without_initializer ord type2 x ctx1 _ rest hb1, hi2] at h2
    injection h2 with h2
    injection h2 with _ h2
    rw [← h2, CodeGenContext.cerr_bind]
    simp [CodeGenContext.extend]
  generalize hctx2 : (ctx1.extend top.block (Instruction.alloca (typeOf type2) x :: code2)
      d2).bind x (Value.instruction top.block i2) = ctx2 at h2 hb2 hblock2 hv2 hcerr
  have hlt : i1 < i2 := by
    rw [← hi2, hblock1, ← hi1]
    simp
  refine ⟨i1, ctx1, i2, ctx2, _, ?_, ?_, hlt, ?_, ?_,
    CodeGenContext.locals_of_blocks _ _ _ hb2, lookupLocal_assignLocal_self _ _ _, ?_, hcerr,
    ?_, ?_⟩
  · simpa only [NStatement.codeGen] using h1
  · simpa only [NStatement.codeGen] using h2
  · rw [hblock2, hblock1, ← hi1, List.append_assoc, List.cons_append]
    exact getElem?_append_cons _ _ _
  · rw [hblock2, ← hi2]
    exact getElem?_append_cons _ _ _
  · intro y hy
    simp only []
    rw [lookupLocal_assignLocal_other _ _ _ _ hy, lookupLocal_assignLocal_other _ _ _ _ hy]
  · refine ⟨Value.instruction top.block (ctx2.module.blockOf top.block).length,
      ctx2.extend top.block [Instruction.load (Value.instruction top.block i2)] [],
      ?_, CodeGenContext.blockOf_extend _ _ _ _ hv2⟩
    simp only [NExpression.codeGen, NIdentifier.codeGen]
    rw [CodeGenContext.locals_of_blocks _ _ _ hb2, CodeGenContext.currentBlock_of_blocks _ _ _ hb2]
    simp only [lookupLocal_assignLocal_self, CodeGenContext.emit_eq]
  · obtain ⟨w, code, diags, he⟩ := expression_extend ord e ctx2 _ rest hb2
    simp only [] at he
    refine ⟨Value.instruction top.block
        ((ctx2.extend top.block code diags).module.blockOf top.block).length, w, code,
      (ctx2.extend top.block code diags).extend top.block
        [Instruction.store w (Value.instruction top.block i2)] [], ?_, ?_⟩
    · simp only [NStatement.codeGen, NAssignment.codeGen]
      rw [CodeGenContext.locals_of_blocks _ _ _ hb2]
      simp only [lookupLocal_assignLocal_self, he]
      rw [CodeGenContext.currentBlock_of_blocks _ _ rest (by exact hb2)]
      simp only [CodeGenContext.emit_eq]
    · rw [CodeGenContext.extend_extend, CodeGenContext.blockOf_extend _ _ _ _ hv2,
        List.append_assoc]

/-- Witness of C14: `int x; double x = 1;` at top level, then `x = 2`. -/
theorem redeclaration_overwrites_witness :
    (entryContext.blocks = { block := 0, locals := [] } :: [] ∧
      0 < entryContext.module.functions.length) ∧
    ∃ i1 ctx1 i2 ctx2 ls2,
      NStatement.codeGen ArgOrder.leftToRight (NStatement.variableDeclaration
          { type := "int", id := "x", assignmentExpr := none }) entryContext
        = Except.ok (some (Value.instruction 0 i1), ctx1) ∧
      NStatement.codeGen ArgOrder.leftToRight (NStatement.variableDeclaration
          { type := "double", id := "x", assignmentExpr := some (NExpression.integer 1) }) ctx1
        = Except.ok (some (Value.instruction 0 i2), ctx2) ∧
      i1 < i2 ∧
      (ctx2.module.blockOf 0)[i1]? = some (Instruction.alloca (typeOf "int") "x") ∧
      (ctx2.module.blockOf 0)[i2]? = some (Instruction.alloca (typeOf "double") "x") ∧
      ctx2.locals = Except.ok ls2 ∧
      lookupLocal ls2 "x" = some (Value.instruction 0 i2) ∧
      (∀ y, y ≠ "x" → lookupLocal ls2 y = lookupLocal [] y) ∧
      (some (NExpression.integer 1) = none → ctx2.cerr = ctx1.cerr) ∧
      (∃ v ctx3, NExpression.codeGen ArgOrder.leftToRight (NExpression.identifier "x") ctx2
          = Except.ok (some v, ctx3) ∧
        ctx3.module.blockOf 0
          = ctx2.module.blockOf 0 ++ [Instruction.load (Value.instruction 0 i2)]) ∧
      (∃ v w code ctx3, NStatement.codeGen ArgOrder.leftToRight
            (NStatement.assignment "x" (NExpression.integer 2)) ctx2
          = Except.ok (some v, ctx3) ∧
        ctx3.module.blockOf 0
          = ctx2.module.blockOf 0 ++ code
            ++ [Instruction.store w (Value.instruction 0 i2)]) :=
  ⟨⟨rfl, by decide⟩,
   redeclaration_overwrites ArgOrder.leftToRight "x" "int" "double" none
     (some (NExpression.integer 1)) (NExpression.integer 2) entryContext
     { block := 0, locals := [] } [] rfl (by decide)⟩

theorem addressesAllocated_append (b : Nat) (old code : List Instruction)
    (hold : AddressesAllocated b old)
    (hnew : ∀ ins ∈ code, ∀ p, ins.address? = some p →
      ∃ i ty name, p = Value.instruction b i ∧ old[i]? = some (Instruction.alloca ty name)) :
    AddressesAllocated b (old ++ code) := by
  intro j ins p hj ha
  by_cases hlt : j < old.length
  · rw [List.getElem?_append_left hlt] at hj
    obtain ⟨i, ty, name, hij, hp, hi⟩ := hold j ins p hj ha
    refine ⟨i, ty, name, hij, hp, ?_⟩
    rw [List.getElem?_append_left (by omega)]
    exact hi
  · rw [List.getElem?_append_right (by omega)] at hj
    have hmem : ins ∈ code := List.getElem?_mem hj
    obtain ⟨i, ty, name, hp, hi⟩ := hnew ins hmem p ha
    have hil : i < old.length := by
      rcases List.getElem?_eq_some_iff.mp hi with ⟨h, _⟩
      exact h
    refine ⟨i, ty, name, by omega, hp, ?_⟩
    rw [List.getElem?_append_left hil]
    exact hi

theorem registered_of_append (m m2 : Module) (b : Nat) (p : Value) (c : List Instruction)
    (h : Registered m b p) (hblock : m2.blockOf b = m.blockOf b ++ c) : Registered m2 b p := by
  obtain ⟨i, ty, name, hp, hi⟩ := h
  refine ⟨i, ty, name, hp, ?_⟩
  have hil : i < (m.blockOf b).length := by
    rcases List.getElem?_eq_some_iff.mp hi with ⟨h, _⟩
    exact h
  rw [hblock, List.getElem?_append_left hil]
  exact hi

theorem registered_extend (ctx : CodeGenContext) (b b2 : Nat) (c : List Instruction)
    (d : List Diagnostic) (p : Value) (h : Registered ctx.module b2 p) :
    Registered (ctx.extend b c d).module b2 p := by
  by_cases hbb : b2 = b
  · subst hbb
    by_cases hv : b2 < ctx.module.functions.length
    · exact registered_of_append _ _ _ _ c h (CodeGenContext.blockOf_extend _ _ _ _ hv)
    · obtain ⟨i, ty, name, hp, hi⟩ := h
      have hnone : ctx.module.functions[b2]? = none := List.getElem?_eq_none (by omega)
      simp [Module.blockOf, hnone] at hi
  · obtain ⟨i, ty, name, hp, hi⟩ := h
    exact ⟨i, ty, name, hp, by rw [CodeGenContext.blockOf_extend_other _ _ _ _ _ hbb]; exact hi⟩

theorem wellFormed_extend (ctx : CodeGenContext) (top : CodeGenBlock)
    (rest : List CodeGenBlock) (code : List Instruction) (diags : List Diagnostic)
    (h : ctx.WellFormed) (hb : ctx.blocks = top :: rest)
    (hcode : ∀ ins ∈ code, ins.fromFrame top.locals) :
    (ctx.extend top.block code diags).WellFormed := by
  have htop : top ∈ ctx.blocks := by rw [hb]; exact List.mem_cons_self _ _
  have hv : top.block < ctx.module.functions.length := h.valid top htop
  have hsame : ∀ i, i ≠ top.block →
      (ctx.extend top.block code diags).module.blockOf i = ctx.module.blockOf i :=
    fun i hi => CodeGenContext.blockOf_extend_other _ _ _ _ _ hi
  have htopb : (ctx.extend top.block code diags).module.blockOf top.block
      = ctx.module.blockOf top.block ++ code := CodeGenContext.blockOf_extend _ _ _ _ hv
  refine ⟨?_, ?_, ?_, ?_, ?_⟩
  · intro fr hfr
    rw [CodeGenContext.length_extend]
    exact h.valid fr hfr
  · intro fr hfr
    by_cases hbb : fr.block = top.block
    · rw [hbb, htopb]
      intro hmem
      rcases List.mem_append.mp hmem with hm | hm
      · exact h.unfinished top htop hm
      · exact (hcode _ hm).1 rfl
    · rw [hsame _ hbb]
      exact h.unfinished fr hfr
  · intro i hi hnot
    have hne : i ≠ top.block := fun heq => hnot top htop heq.symm
    rw [hsame _ hne]
    rw [CodeGenContext.length_extend] at hi
    exact h.finished i hi hnot
  · intro i
    by_cases hbb : i = top.block
    · rw [hbb, htopb]
      refine addressesAllocated_append _ _ _ (h.addresses top.block) ?_
      intro ins hins p hp
      obtain ⟨x, hx⟩ := (hcode ins hins).2 p hp
      obtain ⟨k, ty, name, hk1, hk2⟩ := h.registered top htop x p hx
      exact ⟨k, ty, name, hk1, hk2⟩
    · rw [hsame _ hbb]
      exact h.addresses i
  · intro fr hfr x p hx
    exact registered_extend _ _ _ _ _ _ (h.registered fr hfr x p hx)

theorem wellFormed_bind (ctx : CodeGenContext) (top : CodeGenBlock)
    (rest : List CodeGenBlock) (x : String) (p : Value)
    (h : ctx.WellFormed) (hb : ctx.blocks = top :: rest)
    (hp : Registered ctx.module top.block p) :
    (ctx.bind x p).WellFormed := by
  have hblocks := CodeGenContext.blocks_bind ctx top rest hb x p
  have hmod := CodeGenContext.module_bind ctx x p
  have hmem : ∀ fr ∈ (ctx.bind x p).blocks,
      fr = { block := top.block, locals := assignLocal top.locals x p } ∨ fr ∈ rest := by
    intro fr hfr
    rw [hblocks] at hfr
    exact List.mem_cons.mp hfr
  have htop : top ∈ ctx.blocks := by rw [hb]; exact List.mem_cons_self _ _
  have hrest : ∀ fr ∈ rest, fr ∈ ctx.blocks := fun fr hfr => by
    rw [hb]
    exact List.mem_cons_of_mem _ hfr
  refine ⟨?_, ?_, ?_, ?_, ?_⟩
  · intro fr hfr
    rw [hmod]
    rcases hmem fr hfr with h1 | h1
    · rw [h1]
      exact h.valid top htop
    · exact h.valid fr (hrest fr h1)
  · intro fr hfr
    rw [hmod]
    rcases hmem fr hfr with h1 | h1
    · rw [h1]
      exact h.unfinished top htop
    · exact h.unfinished fr (hrest fr h1)
  · intro i hi hnot
    rw [hmod] at hi ⊢
    refine h.finished i hi ?_
    intro fr hfr
    rw [hb] at hfr
    rcases List.mem_cons.mp hfr with h1 | h1
    · rw [h1]
      exact hnot { block := top.block, locals := assignLocal top.locals x p }
        (by rw [hblocks]; exact List.mem_cons_self _ _)
    · exact hnot fr (by rw [hblocks]; exact List.mem_cons_of_mem _ h1)
  · intro i
    rw [hmod]
    exact h.addresses i
  · intro fr hfr y q hy
    rw [hmod]
    rcases hmem fr hfr with h1 | h1
    · rw [h1] at hy ⊢
      simp only [] at hy ⊢
      by_cases hyx : y = x
      · rw [hyx, lookupLocal_assignLocal_self] at hy
        injection hy with hy
        rw [← hy]
        exact hp
      · rw [lookupLocal_assignLocal_other _ _ _ _ hyx] at hy
        exact h.registered top htop y q hy
    · exact h.registered fr (hrest fr h1) y q hy

theorem findIdx_set_same {α : Type} (p : α → Bool) (l : List α) (i : Nat) (a : α)
    (h : ∀ x, l[i]? = some x → p a = p x) : (l.set i a).findIdx p = l.findIdx p := by
  induction l generalizing i with
  | nil => rfl
  | cons y ys ih =>
    cases i with
    | zero =>
      have hp : p a = p y := h y (by simp)
      simp [List.findIdx_cons, hp]
    | succ k =>
      have hk : ∀ x, ys[k]? = some x → p a = p x := fun x hx => h x (by simpa using hx)
      simp [List.findIdx_cons, ih k hk]

theorem Module.getFunction_appendCode (m : Module) (b : Nat) (c : List Instruction)
    (g : String) : (m.appendCode b c).getFunction g = m.getFunction g := by
  unfold Module.appendCode
  cases hf : m.functions[b]? with
  | none => rfl
  | some f =>
    have hidx : (m.functions.set b { f with entry := f.entry ++ c }).findIdx
        (fun f => f.name == g) = m.functions.findIdx (fun f => f.name == g) := by
      apply findIdx_set_same
      intro x hx
      rw [hf] at hx
      injection hx with hx
      rw [← hx]
    simp only [Module.getFunction, hidx, List.length_set]

theorem CodeGenContext.getFunction_extend (ctx : CodeGenContext) (b : Nat)
    (c : List Instruction) (d : List Diagnostic) (g : String) :
    (ctx.extend b c d).module.getFunction g = ctx.module.getFunction g := by
  simp [CodeGenContext.extend, Module.getFunction_appendCode]

theorem Module.createFunction_functions (m : Module) (ret : IRType) (params : List IRType)
    (name : String) :
    ∃ nm, (m.createFunction ret params name).1.functions
        = m.functions ++ [{ name := nm, returnType := ret, paramTypes := params, entry := [] }] ∧
      (m.hasName name = false → nm = name) := by
  unfold Module.createFunction
  by_cases h : m.hasName name = true
  · exact ⟨_, rfl, fun h2 => by rw [h] at h2; cases h2⟩
  · refine ⟨name, ?_, fun _ => rfl⟩
    simp [h]

theorem Module.blockOf_of_append (m m2 : Module) (f : Function)
    (h : m2.functions = m.functions ++ [f]) (i : Nat) :
    m2.blockOf i = if i = m.functions.length then f.entry else m.blockOf i := by
  unfold Module.blockOf
  rw [h]
  by_cases hlt : i < m.functions.length
  · have hne : i ≠ m.functions.length := by omega
    rw [List.getElem?_append_left hlt, if_neg hne]
  · by_cases heq : i = m.functions.length
    · rw [if_pos heq, heq, getElem?_append_cons]
    · have h1 : (m.functions ++ [f])[i]? = none :=
        List.getElem?_eq_none (by simp; omega)
      have h2 : m.functions[i]? = none := List.getElem?_eq_none (by omega)
      rw [if_neg heq, h1, h2]

theorem Module.getFunction_lt (m : Module) (g : String) (n : Nat)
    (h : m.getFunction g = some n) : n < m.functions.length := by
  unfold Module.getFunction at h
  simp only [] at h
  by_cases hlt : List.findIdx (fun f => f.name == g) m.functions < m.functions.length
  · rw [if_pos hlt] at h
    injection h with h
    omega
  · rw [if_neg hlt] at h
    cases h

theorem Module.getFunction_of_append (m m2 : Module) (f : Function)
    (h : m2.functions = m.functions ++ [f]) (g : String) (n : Nat)
    (hg : m.getFunction g = some n) : m2.getFunction g = some n := by
  unfold Module.getFunction at hg ⊢
  simp only [] at hg ⊢
  by_cases hlt : List.findIdx (fun f => f.name == g) m.functions < m.functions.length
  · rw [if_pos hlt] at hg
    rw [h, List.findIdx_append, if_pos hlt]
    have hlt2 : List.findIdx (fun f => f.name == g) m.functions
        < (m.functions ++ [f]).length := by
      simp
      omega
    rw [if_pos hlt2]
    exact hg
  · rw [if_neg hlt] at hg
    cases hg

theorem Module.getFunction_new (m m2 : Module) (f : Function)
    (h : m2.functions = m.functions ++ [f]) (hg : m.getFunction f.name = none) :
    m2.getFunction f.name = some m.functions.length := by
  unfold Module.getFunction at hg ⊢
  simp only [] at hg ⊢
  by_cases hlt : List.findIdx (fun x => x.name == f.name) m.functions < m.functions.length
  · rw [if_pos hlt] at hg
    cases hg
  · rw [h, List.findIdx_append, if_neg hlt]
    simp [List.findIdx_cons]

theorem Module.hasName_of_getFunction_none (m : Module) (g : String)
    (h : m.getFunction g = none) : m.hasName g = false := by
  unfold Module.getFunction at h
  simp only [] at h
  by_cases hlt : List.findIdx (fun f => f.name == g) m.functions < m.functions.length
  · rw [if_pos hlt] at h
    cases h
  · have heq : List.findIdx (fun f => f.name == g) m.functions = m.functions.length := by
      have : List.findIdx (fun f : Function => f.name == g) m.functions ≤ m.functions.length :=
        List.findIdx_le_length _
      omega
    have hall := List.findIdx_eq_length.mp heq
    unfold Module.hasName
    rw [List.any_eq_false]
    intro x hx
    simp [hall x hx]

theorem wellFormed_push (ctx : CodeGenContext) (m2 : Module) (f : Function)
    (h : ctx.WellFormed) (hm : m2.functions = ctx.module.functions ++ [f])
    (hf : f.entry = []) :
    (({ ctx with module := m2 } : CodeGenContext).pushBlock
      ctx.module.functions.length).WellFormed := by
  have hblock : ∀ i, m2.blockOf i
      = if i = ctx.module.functions.length then [] else ctx.module.blockOf i := by
    intro i
    rw [Module.blockOf_of_append _ _ _ hm, hf]
  have hlen : m2.functions.length = ctx.module.functions.length + 1 := by
    rw [hm]
    simp
  have hmem : ∀ fr ∈ (({ ctx with module := m2 } : CodeGenContext).pushBlock
      ctx.module.functions.length).blocks,
      fr = { block := ctx.module.functions.length, locals := [] } ∨ fr ∈ ctx.blocks := by
    intro fr hfr
    exact List.mem_cons.mp hfr
  refine ⟨?_, ?_, ?_, ?_, ?_⟩
  · intro fr hfr
    show fr.block < m2.functions.length
    rw [hlen]
    rcases hmem fr hfr with h1 | h1
    · rw [h1]
      exact Nat.lt_succ_self _
    · exact Nat.lt_succ_of_lt (h.valid fr h1)
  · intro fr hfr
    show Instruction.ret ∉ m2.blockOf fr.block
    rw [hblock]
    rcases hmem fr hfr with h1 | h1
    · rw [h1]
      simp
    · have hne : fr.block ≠ ctx.module.functions.length := Nat.ne_of_lt (h.valid fr h1)
      rw [if_neg hne]
      exact h.unfinished fr h1
  · intro i hi hnot
    show EndsWithOneReturn (m2.blockOf i)
    have hne : i ≠ ctx.module.functions.length := fun heq =>
      hnot { block := ctx.module.functions.length, locals := [] }
        (List.mem_cons_self _ _) heq.symm
    have hi2 : i < ctx.module.functions.length := by
      have : i < m2.functions.length := hi
      omega
    rw [hblock, if_neg hne]
    exact h.finished i hi2 (fun fr hfr => hnot fr (List.mem_cons_of_mem _ hfr))
  · intro i
    show AddressesAllocated i (m2.blockOf i)
    rw [hblock]
    by_cases heq : i = ctx.module.functions.length
    · rw [if_pos heq]
      intro j ins p hj
      simp at hj
    · rw [if_neg heq]
      exact h.addresses i
  · intro fr hfr x p hx
    show Registered m2 fr.block p
    rcases hmem fr hfr with h1 | h1
    · rw [h1] at hx
      simp [lookupLocal] at hx
    · have hne : fr.block ≠ ctx.module.functions.length := Nat.ne_of_lt (h.valid fr h1)
      obtain ⟨k, ty, name, hk1, hk2⟩ := h.registered fr h1 x p hx
      refine ⟨k, ty, name, hk1, ?_⟩
      rw [hblock, if_neg hne]
      exact hk2

theorem wellFormed_pop (ctx : CodeGenContext) (top : CodeGenBlock) (rest : List CodeGenBlock)
    (h : ctx.WellFormed) (hb : ctx.blocks = top :: rest)
    (hnot : ∀ fr ∈ rest, fr.block ≠ top.block) :
    ({ ctx.extend top.block [Instruction.ret] [] with blocks := rest } :
      CodeGenContext).WellFormed := by
  have htop : top ∈ ctx.blocks := by rw [hb]; exact List.mem_cons_self _ _
  have hrest : ∀ fr ∈ rest, fr ∈ ctx.blocks := fun fr hfr => by
    rw [hb]
    exact List.mem_cons_of_mem _ hfr
  have hv : top.block < ctx.module.functions.length := h.valid top htop
  have hsame : ∀ i, i ≠ top.block →
      (ctx.extend top.block [Instruction.ret] []).module.blockOf i = ctx.module.blockOf i :=
    fun i hi => CodeGenContext.blockOf_extend_other _ _ _ _ _ hi
  have htopb : (ctx.extend top.block [Instruction.ret] []).module.blockOf top.block
      = ctx.module.blockOf top.block ++ [Instruction.ret] :=
    CodeGenContext.blockOf_extend _ _ _ _ hv
  refine ⟨?_, ?_, ?_, ?_, ?_⟩
  · intro fr hfr
    show fr.block < (ctx.extend top.block [Instruction.ret] []).module.functions.length
    rw [CodeGenContext.length_extend]
    exact h.valid fr (hrest fr hfr)
  · intro fr hfr
    show Instruction.ret ∉ (ctx.extend top.block [Instruction.ret] []).module.blockOf fr.block
    rw [hsame _ (hnot fr hfr)]
    exact h.unfinished fr (hrest fr hfr)
  · intro i hi hno
    show EndsWithOneReturn ((ctx.extend top.block [Instruction.ret] []).module.blockOf i)
    by_cases heq : i = top.block
    · rw [heq, htopb]
      exact ⟨_, rfl, h.unfinished top htop⟩
    · rw [hsame _ heq]
      have hi2 : i < ctx.module.functions.length := by
        have : i < (ctx.extend top.block [Instruction.ret] []).module.functions.length := hi
        rw [CodeGenContext.length_extend] at this
        exact this
      refine h.finished i hi2 ?_
      intro fr hfr
      rw [hb] at hfr
      rcases List.mem_cons.mp hfr with h1 | h1
      · rw [h1]
        exact fun h2 => heq h2.symm
      · exact hno fr h1
  · intro i
    show AddressesAllocated i ((ctx.extend top.block [Instruction.ret] []).module.blockOf i)
    by_cases heq : i = top.block
    · rw [heq, htopb]
      refine addressesAllocated_append _ _ _ (h.addresses top.block) ?_
      intro ins hins p hp
      rw [List.mem_singleton.mp hins] at hp
      cases hp
    · rw [hsame _ heq]
      exact h.addresses i
  · intro fr hfr x p hx
    exact registered_extend ctx top.block fr.block [Instruction.ret] [] p
      (h.registered fr (hrest fr hfr) x p hx)

theorem justified_extend (ctx : CodeGenContext) (b : Nat) (c : List Instruction)
    (ds : List Diagnostic) (d : Diagnostic) (h : d.justified (ctx.extend b c ds).module) :
    d.justified ctx.module := by
  cases d with
  | undeclaredVariable x => trivial
  | noSuchFunction g =>
    simp only [Diagnostic.justified, CodeGenContext.getFunction_extend] at h ⊢
    exact h

theorem fromFrame_call (ls : List (String × Value)) (f : Option Nat)
    (args : List (Option Value)) : (Instruction.call f args).fromFrame ls :=
  ⟨fun h => (by cases h), fun p hp => (by cases hp)⟩

theorem fromFrame_binary (ls : List (String × Value)) (op : BinaryOps)
    (l r : Option Value) : (Instruction.binary op l r).fromFrame ls :=
  ⟨fun h => (by cases h), fun p hp => (by cases hp)⟩

theorem fromFrame_alloca (ls : List (String × Value)) (ty : IRType) (name : String) :
    (Instruction.alloca ty name).fromFrame ls :=
  ⟨fun h => (by cases h), fun p hp => (by cases hp)⟩

theorem fromFrame_load (ls : List (String × Value)) (x : String) (p : Value)
    (h : lookupLocal ls x = some p) : (Instruction.load p).fromFrame ls :=
  by
  refine ⟨fun h2 => (by cases h2), fun q hq => ?_⟩
  simp only [Instruction.address?, Option.some.injEq] at hq
  exact ⟨x, hq ▸ h⟩

theorem fromFrame_store (ls : List (String × Value)) (x : String) (v : Option Value)
    (p : Value) (h : lookupLocal ls x = some p) : (Instruction.store v p).fromFrame ls :=
  by
  refine ⟨fun h2 => (by cases h2), fun q hq => ?_⟩
  simp only [Instruction.address?, Option.some.injEq] at hq
  exact ⟨x, hq ▸ h⟩

mutual
/-- The code and the diagnostics of an expression: no return, Loads only from
locations of the current frame, "no such function" only for names that do not
resolve. -/
theorem expression_code (ord : ArgOrder) :
    ∀ (e : NExpression) (ctx : CodeGenContext) (top : CodeGenBlock) (rest : List CodeGenBlock),
      ctx.blocks = top :: rest →
      ∃ v code diags,
        NExpression.codeGen ord e ctx = Except.ok (v, ctx.extend top.block code diags) ∧
        (∀ ins ∈ code, ins.fromFrame top.locals) ∧
        (∀ d ∈ diags, d.justified ctx.module)
  | NExpression.integer value, ctx, top, rest, _ =>
    ⟨_, [], [], by rw [CodeGenContext.extend_nil]; rfl, by simp, by simp⟩
  | NExpression.double value, ctx, top, rest, _ =>
    ⟨_, [], [], by rw [CodeGenContext.extend_nil]; rfl, by simp, by simp⟩
  | NExpression.identifier name, ctx, top, rest, h => by
    simp only [NExpression.codeGen, NIdentifier.codeGen]
    rw [ctx.locals_of_blocks top rest h, ctx.currentBlock_of_blocks top rest h]
    cases hl : lookupLocal top.locals name with
    | none =>
      simp only [hl, ctx.report_eq top.block]
      exact ⟨_, [], [Diagnostic.undeclaredVariable name], rfl, by simp, by
        simp [Diagnostic.justified]⟩
    | some loc =>
      simp only [hl, CodeGenContext.emit_eq]
      refine ⟨_, [Instruction.load loc], [], rfl, ?_, by simp⟩
      intro ins hins
      rw [List.mem_singleton.mp hins]
      exact fromFrame_load _ name loc hl
  | NExpression.methodCall id arguments, ctx, top, rest, h => by
    have h0 : ∃ d0, (if ctx.module.getFunction id = none
        then ctx.report (Diagnostic.noSuchFunction id) else ctx) = ctx.extend top.block [] d0 ∧
        ∀ d ∈ d0, d.justified ctx.module := by
      by_cases hf : ctx.module.getFunction id = none
      · refine ⟨[Diagnostic.noSuchFunction id], by simp [hf, ctx.report_eq top.block], ?_⟩
        intro d hd
        rw [List.mem_singleton.mp hd]
        exact hf
      · exact ⟨[], by simp [hf, CodeGenContext.extend_nil], by simp⟩
    obtain ⟨d0, hd0, hj0⟩ := h0
    obtain ⟨vs, code, diags, hargs, hcode, hdiags⟩ :=
      arguments_code ord arguments (ctx.extend top.block [] d0) top rest h
    simp only [NExpression.codeGen]
    rw [hd0, hargs]
    simp only [CodeGenContext.extend_extend]
    rw [CodeGenContext.currentBlock_of_blocks _ top rest (by exact h)]
    simp only [CodeGenContext.emit_eq, CodeGenContext.extend_extend]
    refine ⟨_, _, _, rfl, ?_, ?_⟩
    · intro ins hins
      simp only [List.nil_append, List.mem_append, List.mem_singleton] at hins
      rcases hins with h1 | h1
      · exact hcode ins h1
      · rw [h1]
        exact fromFrame_call _ _ _
    · intro d hd
      simp only [List.append_nil, List.mem_append] at hd
      rcases hd with h1 | h1
      · exact hj0 d h1
      · exact justified_extend _ _ _ _ _ (hdiags d h1)
  | NExpression.binaryOperator op leftSide rightSide, ctx, top, rest, h => by
    cases hop : binaryOpsOf op with
    | none =>
      simp only [NExpression.codeGen, hop]
      exact ⟨none, [], [], by rw [CodeGenContext.extend_nil], by simp, by simp⟩
    | some instr =>
      cases ord with
      | leftToRight =>
        obtain ⟨l, c1, d1, h1, hc1, hd1⟩ :=
          expression_code ArgOrder.leftToRight leftSide ctx top rest h
        obtain ⟨r, c2, d2, h2, hc2, hd2⟩ := expression_code ArgOrder.leftToRight rightSide
          (ctx.extend top.block c1 d1) top rest h
        simp only [NExpression.codeGen, hop, h1, h2, CodeGenContext.extend_extend]
        rw [CodeGenContext.currentBlock_of_blocks _ top rest (by exact h)]
        simp only [CodeGenContext.emit_eq, CodeGenContext.extend_extend]
        refine ⟨_, _, _, rfl, ?_, ?_⟩
        · intro ins hins
          simp only [List.mem_append, List.mem_singleton] at hins
          rcases hins with (h3 | h3) | h3
          · exact hc1 ins h3
          · exact hc2 ins h3
          · rw [h3]
            exact fromFrame_binary _ _ _ _
        · intro d hd
          simp only [List.append_nil, List.mem_append] at hd
          rcases hd with h3 | h3
          · exact hd1 d h3
          · exact justified_extend _ _ _ _ _ (hd2 d h3)
      | rightToLeft =>
        obtain ⟨r, c1, d1, h1, hc1, hd1⟩ :=
          expression_code ArgOrder.rightToLeft rightSide ctx top rest h
        obtain ⟨l, c2, d2, h2, hc2, hd2⟩ := expression_code ArgOrder.rightToLeft leftSide
          (ctx.extend top.block c1 d1) top rest h
        simp only [NExpression.codeGen, hop, h1, h2, CodeGenContext.extend_extend]
        rw [CodeGenContext.currentBlock_of_blocks _ top rest (by exact h)]
        simp only [CodeGenContext.emit_eq, CodeGenContext.extend_extend]
        refine ⟨_, _, _, rfl, ?_, ?_⟩
        · intro ins hins
          simp only [List.mem_append, List.mem_singleton] at hins
          rcases hins with (h3 | h3) | h3
          · exact hc1 ins h3
          · exact hc2 ins h3
          · rw [h3]
            exact fromFrame_binary _ _ _ _
        · intro d hd
          simp only [List.append_nil, List.mem_append] at hd
          rcases hd with h3 | h3
          · exact hd1 d h3
          · exact justified_extend _ _ _ _ _ (hd2 d h3)
/-- The code and the diagnostics of the argument loop, likewise. -/
theorem arguments_code (ord : ArgOrder) :
    ∀ (es : List NExpression) (ctx : CodeGenContext) (top : CodeGenBlock)
      (rest : List CodeGenBlock), ctx.blocks = top :: rest →
      ∃ vs code diags,
        NExpression.codeGenArgs ord es ctx = Except.ok (vs, ctx.extend top.block code diags) ∧
        (∀ ins ∈ code, ins.fromFrame top.locals) ∧
        (∀ d ∈ diags, d.justified ctx.module)
  | [], ctx, top, rest, _ =>
    ⟨[], [], [], by rw [CodeGenContext.extend_nil]; rfl, by simp, by simp⟩
  | e :: es, ctx, top, rest, h => by
    obtain ⟨v, c1, d1, h1, hc1, hd1⟩ := expression_code ord e ctx top rest h
    obtain ⟨vs, c2, d2, h2, hc2, hd2⟩ := arguments_code ord es
      (ctx.extend top.block c1 d1) top rest h
    simp only [NExpression.codeGenArgs, h1, h2, CodeGenContext.extend_extend]
    refine ⟨_, _, _, rfl, ?_, ?_⟩
    · intro ins hins
      rcases List.mem_append.mp hins with h3 | h3
      · exact hc1 ins h3
      · exact hc2 ins h3
    · intro d hd
      rcases List.mem_append.mp hd with h3 | h3
      · exact hd1 d h3
      · exact justified_extend _ _ _ _ _ (hd2 d h3)
end

theorem stepOK_extend (ctx : CodeGenContext) (top : CodeGenBlock) (rest : List CodeGenBlock)
    (code : List Instruction) (diags : List Diagnostic) (hb : ctx.blocks = top :: rest)
    (hcode : ∀ ins ∈ code, ins.fromFrame top.locals) :
    StepOK ctx top rest (ctx.extend top.block code diags) :=
  ⟨⟨top.locals, hb⟩, fun h => wellFormed_extend ctx top rest code diags h hb hcode,
    fun g n hg => by rw [CodeGenContext.getFunction_extend]; exact hg⟩

theorem stepOK_refl (ctx : CodeGenContext) (top : CodeGenBlock) (rest : List CodeGenBlock)
    (hb : ctx.blocks = top :: rest) : StepOK ctx top rest ctx :=
  ⟨⟨top.locals, hb⟩, fun h => h, fun _ _ hg => hg⟩

theorem stepOK_trans (ctx ctx1 ctx2 : CodeGenContext) (top : CodeGenBlock)
    (rest : List CodeGenBlock) (h1 : StepOK ctx top rest ctx1)
    (h2 : ∀ ls, ctx1.blocks = { block := top.block, locals := ls } :: rest →
      StepOK ctx1 { block := top.block, locals := ls } rest ctx2) :
    StepOK ctx top rest ctx2 := by
  obtain ⟨⟨ls, hls⟩, hw1, hg1⟩ := h1
  obtain ⟨⟨ls2, hls2⟩, hw2, hg2⟩ := h2 ls hls
  exact ⟨⟨ls2, hls2⟩, fun h => hw2 (hw1 h), fun g n hg => hg2 g n (hg1 g n hg)⟩

theorem expression_step (ord : ArgOrder) (e : NExpression) (ctx : CodeGenContext)
    (top : CodeGenBlock) (rest : List CodeGenBlock) (hb : ctx.blocks = top :: rest) :
    ∃ v ctx2, NExpression.codeGen ord e ctx = Except.ok (v, ctx2) ∧ StepOK ctx top rest ctx2 := by
  obtain ⟨v, code, diags, he, hcode, _⟩ := expression_code ord e ctx top rest hb
  exact ⟨v, _, he, stepOK_extend ctx top rest code diags hb hcode⟩

theorem assignment_step (ord : ArgOrder) (x : String) (e : NExpression)
    (ctx : CodeGenContext) (top : CodeGenBlock) (rest : List CodeGenBlock)
    (hb : ctx.blocks = top :: rest) :
    ∃ v ctx2, NAssignment.codeGen ord x e ctx = Except.ok (v, ctx2) ∧
      StepOK ctx top rest ctx2 := by
  unfold NAssignment.codeGen
  rw [ctx.locals_of_blocks top rest hb]
  cases hl : lookupLocal top.locals x with
  | none =>
    simp only [hl, ctx.report_eq top.block]
    exact ⟨_, _, rfl, stepOK_extend ctx top rest [] _ hb (by simp)⟩
  | some loc =>
    obtain ⟨v, c, d, he, hcode, _⟩ := expression_code ord e ctx top rest hb
    simp only [hl, he]
    rw [CodeGenContext.currentBlock_of_blocks _ top rest (by exact hb)]
    simp only [CodeGenContext.emit_eq, CodeGenContext.extend_extend]
    refine ⟨_, _, rfl, stepOK_extend ctx top rest _ _ hb ?_⟩
    intro ins hins
    rcases List.mem_append.mp hins with h1 | h1
    · exact hcode ins h1
    · rw [List.mem_singleton.mp h1]
      exact fromFrame_store _ x v loc hl

theorem variableDeclaration_with_initializer (ord : ArgOrder) (type x : String)
    (e : NExpression) (ctx : CodeGenContext) (top : CodeGenBlock) (rest : List CodeGenBlock)
    (hb : ctx.blocks = top :: rest) :
    NVariableDeclaration.codeGen ord { type := type, id := x, assignmentExpr := some e } ctx
      = (match NAssignment.codeGen ord x e
          ((ctx.extend top.block [Instruction.alloca (typeOf type) x] []).bind x
            (Value.instruction top.block (ctx.module.blockOf top.block).length)) with
         | Except.error err => Except.error err
         | Except.ok (_, ctx2) =>
           Except.ok (some (Value.instruction top.block
             (ctx.module.blockOf top.block).length), ctx2)) := by
  unfold NVariableDeclaration.codeGen
  rw [ctx.currentBlock_of_blocks top rest hb]
  simp only [CodeGenContext.emit_eq]
  have hdec := CodeGenContext.declare_of_blocks
    (ctx.extend top.block [Instruction.alloca (typeOf type) x] []) top rest (by exact hb) x
    (Value.instruction top.block (ctx.module.blockOf top.block).length)
  simp only [hdec]

theorem declared_step (type x : String) (ctx : CodeGenContext)
    (top : CodeGenBlock) (rest : List CodeGenBlock) (hb : ctx.blocks = top :: rest) :
    StepOK ctx top rest
      ((ctx.extend top.block [Instruction.alloca (typeOf type) x] []).bind x
        (Value.instruction top.block (ctx.module.blockOf top.block).length)) := by
  have hbe : (ctx.extend top.block [Instruction.alloca (typeOf type) x] []).blocks
      = top :: rest := hb
  refine ⟨⟨_, CodeGenContext.blocks_bind _ top rest hbe x _⟩, ?_, ?_⟩
  · intro h
    have hw := wellFormed_extend ctx top rest [Instruction.alloca (typeOf type) x] [] h hb (by
      intro ins hins
      rw [List.mem_singleton.mp hins]
      exact fromFrame_alloca _ _ _)
    have hv : top.block < ctx.module.functions.length :=
      h.valid top (by rw [hb]; exact List.mem_cons_self _ _)
    refine wellFormed_bind _ top rest x _ hw hbe ?_
    refine ⟨(ctx.module.blockOf top.block).length, typeOf type, x, rfl, ?_⟩
    rw [CodeGenContext.blockOf_extend _ _ _ _ hv]
    exact getElem?_append_cons _ _ _
  · intro g n hg
    rw [CodeGenContext.module_bind, CodeGenContext.getFunction_extend]
    exact hg

theorem variableDeclaration_step (ord : ArgOrder) (d : NVariableDeclaration)
    (ctx : CodeGenContext) (top : CodeGenBlock) (rest : List CodeGenBlock)
    (hb : ctx.blocks = top :: rest) :
    ∃ v ctx2, NVariableDeclaration.codeGen ord d ctx = Except.ok (v, ctx2) ∧
      StepOK ctx top rest ctx2 := by
  obtain ⟨type, x, init⟩ := d
  have hstep := declared_step type x ctx top rest hb
  cases init with
  | none =>
    rw [variableDeclaration_without_initializer ord type x ctx top rest hb]
    exact ⟨_, _, rfl, hstep⟩
  | some e =>
    rw [variableDeclaration_with_initializer ord type x e ctx top rest hb]
    obtain ⟨ls, hls⟩ := hstep.1
    obtain ⟨v, ctx2, ha, hstep2⟩ := assignment_step ord x e _ _ rest hls
    rw [ha]
    refine ⟨_, ctx2, rfl, stepOK_trans _ _ _ top rest hstep ?_⟩
    intro ls2 hls2
    have heq : ls2 = ls := by
      have h3 := hls.symm.trans hls2
      simp only [List.cons.injEq, CodeGenBlock.mk.injEq, true_and, and_true] at h3
      exact h3.symm
    rw [heq]
    exact hstep2

theorem parameters_step (ord : ArgOrder) (ds : List NVariableDeclaration) :
    ∀ (ctx : CodeGenContext) (top : CodeGenBlock) (rest : List CodeGenBlock),
      ctx.blocks = top :: rest →
      ∃ ctx2, codeGenParams ord ds ctx = Except.ok ctx2 ∧ StepOK ctx top rest ctx2 := by
  induction ds with
  | nil =>
    intro ctx top rest hb
    exact ⟨ctx, rfl, stepOK_refl ctx top rest hb⟩
  | cons d ds ih =>
    intro ctx top rest hb
    obtain ⟨v, ctx1, hd, hstep⟩ := variableDeclaration_step ord d ctx top rest hb
    obtain ⟨ls, hls⟩ := hstep.1
    obtain ⟨ctx2, hps, hstep2⟩ := ih ctx1 _ rest hls
    refine ⟨ctx2, by simp only [codeGenParams, hd, hps], stepOK_trans _ _ _ top rest hstep ?_⟩
    intro ls2 hls2
    have heq : ls2 = ls := by
      have h3 := hls.symm.trans hls2
      simp only [List.cons.injEq, CodeGenBlock.mk.injEq, true_and, and_true] at h3
      exact h3.symm
    rw [heq]
    exact hstep2

theorem functionDeclaration_unfold (ord : ArgOrder) (type id : String)
    (arguments : List NVariableDeclaration) (body : List NStatement) (ctx : CodeGenContext) :
    NStatement.codeGen ord (NStatement.functionDeclaration type id arguments body) ctx
      = (match NFunctionDeclaration.bodyContext ord type id arguments ctx with
         | Except.error e => Except.error e
         | Except.ok ctx1 =>
           NFunctionDeclaration.finish ctx.module.functions.length
             (NBlock.codeGen ord body ctx1)) := by
  simp only [NStatement.codeGen, NFunctionDeclaration.bodyContext, NFunctionDeclaration.finish,
    NBlock.codeGen, Module.createFunction]

theorem CodeGenContext.popBlock_of_blocks (ctx : CodeGenContext) (top : CodeGenBlock)
    (rest : List CodeGenBlock) (h : ctx.blocks = top :: rest) :
    ctx.popBlock = Except.ok { ctx with blocks := rest } := by
  simp [CodeGenContext.popBlock, h]

/-- The body context of a function declaration: never fatal; the new function is
the last of the module and its frame is current above the frames of before. -/
theorem bodyContext_step (ord : ArgOrder) (type id : String)
    (arguments : List NVariableDeclaration) (ctx : CodeGenContext) :
    ∃ ctx1 ls nm,
      NFunctionDeclaration.bodyContext ord type id arguments ctx = Except.ok ctx1 ∧
      ctx1.blocks = { block := ctx.module.functions.length, locals := ls } :: ctx.blocks ∧
      (ctx.WellFormed → ctx1.WellFormed) ∧
      (∀ g n, ctx.module.getFunction g = some n → ctx1.module.getFunction g = some n) ∧
      (ctx.module.getFunction id = none →
        ctx1.module.getFunction id = some ctx.module.functions.length) ∧
      (ctx.module.createFunction (typeOf type)
          (arguments.map (fun a => typeOf a.type)) id).1.functions
        = ctx.module.functions ++
            [{ name := nm, returnType := typeOf type,
               paramTypes := arguments.map (fun a => typeOf a.type), entry := [] }] ∧
      (ctx.module.getFunction id = none → nm = id) := by
  obtain ⟨nm, hfs, hnm⟩ := Module.createFunction_functions ctx.module (typeOf type)
    (arguments.map (fun a => typeOf a.type)) id
  have hbp : (({ ctx with module := (ctx.module.createFunction (typeOf type)
        (arguments.map (fun a => typeOf a.type)) id).1 } : CodeGenContext).pushBlock
      ctx.module.functions.length).blocks
      = { block := ctx.module.functions.length, locals := [] } :: ctx.blocks := rfl
  obtain ⟨ctx1, hps, hstep⟩ := parameters_step ord arguments _ _ _ hbp
  obtain ⟨⟨ls, hls⟩, hw, hg⟩ := hstep
  refine ⟨ctx1, ls, nm, hps, hls, ?_, ?_, ?_, hfs, ?_⟩
  · intro h
    exact hw (wellFormed_push ctx _ _ h hfs rfl)
  · intro g n hgn
    exact hg g n (Module.getFunction_of_append _ _ _ hfs g n hgn)
  · intro hnone
    have hname := hnm (Module.hasName_of_getFunction_none _ _ hnone)
    refine hg id _ ?_
    have := Module.getFunction_new ctx.module _ _ hfs (by rw [hname]; exact hnone)
    rw [hname] at this
    exact this
  · intro hnone
    exact hnm (Module.hasName_of_getFunction_none _ _ hnone)

/-- A function declaration whose body generates step by step: it is not fatal,
returns the new function, leaves the scope stack exactly as it was, keeps the
invariant of generation and keeps every function name resolving as before. -/
theorem functionDeclaration_of_body (ord : ArgOrder) (type id : String)
    (arguments : List NVariableDeclaration) (body : List NStatement)
    (hbody : ∀ (c : CodeGenContext) (t : CodeGenBlock) (r : List CodeGenBlock),
      c.blocks = t :: r →
      ∃ v c2, NStatement.codeGenList ord body none c = Except.ok (v, c2) ∧ StepOK c t r c2)
    (ctx : CodeGenContext) :
    ∃ ctx3,
      NStatement.codeGen ord (NStatement.functionDeclaration type id arguments body) ctx
        = Except.ok (some (Value.function ctx.module.functions.length), ctx3) ∧
      ctx3.blocks = ctx.blocks ∧
      (ctx.WellFormed → ctx3.WellFormed) ∧
      (∀ g n, ctx.module.getFunction g = some n → ctx3.module.getFunction g = some n) := by
  obtain ⟨ctx1, ls, nm, hbc, hls, hw1, hg1, _, _, _⟩ :=
    bodyContext_step ord type id arguments ctx
  obtain ⟨v, ctx2, hb2, ⟨ls2, hls2⟩, hw2, hg2⟩ := hbody ctx1 _ _ hls
  simp only [] at hls2
  have hpop := CodeGenContext.popBlock_of_blocks
    (ctx2.extend ctx.module.functions.length [Instruction.ret] []) _ _ (by exact hls2)
  refine ⟨{ ctx2.extend ctx.module.functions.length [Instruction.ret] [] with
      blocks := ctx.blocks }, ?_, ?_, ?_, ?_⟩
  · rw [functionDeclaration_unfold, hbc]
    simp only [NBlock.codeGen, hb2, NFunctionDeclaration.finish, CodeGenContext.emit_eq, hpop]
  · rfl
  · intro h
    refine wellFormed_pop ctx2 { block := ctx.module.functions.length, locals := ls2 }
      ctx.blocks (hw2 (hw1 h)) hls2 ?_
    intro fr hfr
    exact Nat.ne_of_lt (h.valid fr hfr)
  · intro g n hgn
    show (ctx2.extend ctx.module.functions.length [Instruction.ret] []).module.getFunction g
      = some n
    rw [CodeGenContext.getFunction_extend]
    exact hg2 g n (hg1 g n hgn)

mutual
/-- On a non-empty scope stack a statement generates without a fatal outcome; the
frames below the current one stay, the current frame keeps its block, the
invariant of generation is kept and function names keep resolving. -/
theorem statement_step (ord : ArgOrder) :
    ∀ (s : NStatement) (ctx : CodeGenContext) (top : CodeGenBlock) (rest : List CodeGenBlock),
      ctx.blocks = top :: rest →
      ∃ v ctx2, NStatement.codeGen ord s ctx = Except.ok (v, ctx2) ∧ StepOK ctx top rest ctx2
  | NStatement.block statements, ctx, top, rest, hb => by
    simp only [NStatement.codeGen]
    exact statements_step ord statements none ctx top rest hb
  | NStatement.assignment x e, ctx, top, rest, hb => by
    simp only [NStatement.codeGen]
    exact assignment_step ord x e ctx top rest hb
  | NStatement.expressionStatement e, ctx, top, rest, hb => by
    simp only [NStatement.codeGen, NExpressionStatement.codeGen]
    exact expression_step ord e ctx top rest hb
  | NStatement.variableDeclaration d, ctx, top, rest, hb => by
    simp only [NStatement.codeGen]
    exact variableDeclaration_step ord d ctx top rest hb
  | NStatement.functionDeclaration type id arguments body, ctx, top, rest, hb => by
    obtain ⟨ctx3, h3, hblocks, hw, hg⟩ := functionDeclaration_of_body ord type id arguments body
      (fun c t r h => statements_step ord body none c t r h) ctx
    exact ⟨_, ctx3, h3, ⟨top.locals, by rw [hblocks, hb]⟩, hw, hg⟩
/-- The statement loop of a block, likewise. -/
theorem statements_step (ord : ArgOrder) :
    ∀ (ss : List NStatement) (last : Option Value) (ctx : CodeGenContext)
      (top : CodeGenBlock) (rest : List CodeGenBlock), ctx.blocks = top :: rest →
      ∃ v ctx2, NStatement.codeGenList ord ss last ctx = Except.ok (v, ctx2) ∧
        StepOK ctx top rest ctx2
  | [], last, ctx, top, rest, hb =>
    ⟨last, ctx, by simp only [NStatement.codeGenList], stepOK_refl ctx top rest hb⟩
  | s :: ss, last, ctx, top, rest, hb => by
    obtain ⟨v, ctx1, h1, hstep1⟩ := statement_step ord s ctx top rest hb
    obtain ⟨ls, hls⟩ := hstep1.1
    obtain ⟨w, ctx2, h2, hstep2⟩ := statements_step ord ss v ctx1 _ rest hls
    refine ⟨w, ctx2, by simp only [NStatement.codeGenList, h1, h2],
      stepOK_trans _ _ _ top rest hstep1 ?_⟩
    intro ls2 hls2
    have heq : ls2 = ls := by
      have h3 := hls.symm.trans hls2
      simp only [List.cons.injEq, CodeGenBlock.mk.injEq, true_and, and_true] at h3
      exact h3.symm
    rw [heq]
    exact hstep2
end

theorem wellFormed_congr (c1 c2 : CodeGenContext) (hb : c2.blocks = c1.blocks)
    (hm : c2.module = c1.module) (h : c1.WellFormed) : c2.WellFormed := by
  refine ⟨?_, ?_, ?_, ?_, ?_⟩
  · rw [hb, hm]
    exact h.valid
  · rw [hb, hm]
    exact h.unfinished
  · rw [hb, hm]
    exact h.finished
  · rw [hm]
    exact h.addresses
  · rw [hb, hm]
    exact h.registered

theorem wellFormed_fresh : CodeGenContext.fresh.WellFormed := by
  refine ⟨?_, ?_, ?_, ?_, ?_⟩
  · intro fr hfr
    simp [CodeGenContext.fresh] at hfr
  · intro fr hfr
    simp [CodeGenContext.fresh] at hfr
  · intro i hi
    simp [CodeGenContext.fresh] at hi
  · intro i j ins p hj
    simp [CodeGenContext.fresh, Module.blockOf] at hj
  · intro fr hfr
    simp [CodeGenContext.fresh] at hfr

/-- The module driver: never fatal; it leaves the scope stack as it found it and
keeps the invariant of generation. -/
theorem generateCode_step (ord : ArgOrder) (root : List NStatement) (ctx : CodeGenContext) :
    ∃ ctx2, CodeGenContext.generateCode ord root ctx = Except.ok ctx2 ∧
      ctx2.blocks = ctx.blocks ∧ (ctx.WellFormed → ctx2.WellFormed) := by
  obtain ⟨nm, hfs, _⟩ := Module.createFunction_functions ctx.module IRType.void [] "main"
  have hbp : (({ ctx with module := (ctx.module.createFunction IRType.void [] "main").1,
                          mainFunction := some ctx.module.functions.length } :
      CodeGenContext).pushBlock ctx.module.functions.length).blocks
      = { block := ctx.module.functions.length, locals := [] } :: ctx.blocks := rfl
  obtain ⟨v, ctx1, h1, ⟨ls, hls⟩, hw, _⟩ := statements_step ord root none _ _ _ hbp
  simp only [] at hls
  have hpop := CodeGenContext.popBlock_of_blocks
    (ctx1.extend ctx.module.functions.length [Instruction.ret] []) _ _ (by exact hls)
  refine ⟨{ ctx1.extend ctx.module.functions.length [Instruction.ret] [] with
      blocks := ctx.blocks }, ?_, rfl, ?_⟩
  · simp only [CodeGenContext.generateCode, NBlock.codeGen, Module.createFunction] at h1 ⊢
    simp only [h1, CodeGenContext.emit_eq, hpop]
  · intro h
    have hpush := wellFormed_push ctx _ _ h hfs rfl
    have hpush2 := wellFormed_congr
      (({ ctx with module := (ctx.module.createFunction IRType.void [] "main").1 } :
        CodeGenContext).pushBlock ctx.module.functions.length)
      (({ ctx with module := (ctx.module.createFunction IRType.void [] "main").1,
                   mainFunction := some ctx.module.functions.length } :
        CodeGenContext).pushBlock ctx.module.functions.length) rfl rfl hpush
    refine wellFormed_pop ctx1 { block := ctx.module.functions.length, locals := ls }
      ctx.blocks (hw hpush2) hls ?_
    intro fr hfr
    exact Nat.ne_of_lt (h.valid fr hfr)

theorem blockOf_of_mem (m : Module) (f : Function) (hf : f ∈ m.functions) :
    ∃ i, i < m.functions.length ∧ m.blockOf i = f.entry := by
  obtain ⟨i, hi⟩ := List.mem_iff_getElem?.mp hf
  refine ⟨i, (List.getElem?_eq_some_iff.mp hi).1, ?_⟩
  simp [Module.blockOf, hi]

/-- C18: for every program, `generateCode` from a fresh context completes, and
then every Load and every Store of every block has as address operand the result
of an allocation instruction that stands earlier in the same block. -/
theorem loads_and_stores_address_allocations (ord : ArgOrder) (root : List NStatement) :
    ∃ ctx2, CodeGenContext.generateCode ord root CodeGenContext.fresh = Except.ok ctx2 ∧
      ∀ b j p,
        ((ctx2.module.blockOf b)[j]? = some (Instruction.load p) ∨
          ∃ v, (ctx2.module.blockOf b)[j]? = some (Instruction.store v p)) →
        ∃ i ty name, i < j ∧ p = Value.instruction b i ∧
          (ctx2.module.blockOf b)[i]? = some (Instruction.alloca ty name) := by
  obtain ⟨ctx2, hgen, _, hw⟩ := generateCode_step ord root CodeGenContext.fresh
  refine ⟨ctx2, hgen, ?_⟩
  intro b j p hj
  have haddr := (hw wellFormed_fresh).addresses b
  rcases hj with h1 | ⟨v, h1⟩
  · exact haddr j _ p h1 rfl
  · exact haddr j _ p h1 rfl

/-- C19: on a non-empty scope stack, generating an expression leaves the stack as
it was; generating a statement is not fatal and leaves the frames below the
current one as they were and the current frame on its block; generating a function
declaration, on any stack, is not fatal and leaves the whole stack, the map of the
current frame included, as it was; and `generateCode` is not fatal and leaves the
stack as it found it, empty when started from a fresh context. -/
theorem scope_stack_discipline (ord : ArgOrder) (e : NExpression) (s : NStatement)
    (type id : String) (arguments : List NVariableDeclaration) (body root : List NStatement)
    (ctx : CodeGenContext) (top : CodeGenBlock) (rest : List CodeGenBlock)
    (hb : ctx.blocks = top :: rest) :
    (∃ v ctx2, NExpression.codeGen ord e ctx = Except.ok (v, ctx2) ∧
      ctx2.blocks = ctx.blocks) ∧
    (∃ v ctx2 ls, NStatement.codeGen ord s ctx = Except.ok (v, ctx2) ∧
      ctx2.blocks = { block := top.block, locals := ls } :: rest ∧
      ctx2.blocks.length = ctx.blocks.length) ∧
    (∀ c : CodeGenContext, ∃ v ctx2,
      NStatement.codeGen ord (NStatement.functionDeclaration type id arguments body) c
        = Except.ok (v, ctx2) ∧
      ctx2.blocks = c.blocks) ∧
    (∀ c : CodeGenContext, ∃ ctx2,
      CodeGenContext.generateCode ord root c = Except.ok ctx2 ∧ ctx2.blocks = c.blocks) ∧
    (∃ ctx2, CodeGenContext.generateCode ord root CodeGenContext.fresh = Except.ok ctx2 ∧
      ctx2.blocks = []) := by
  refine ⟨?_, ?_, ?_, ?_, ?_⟩
  · obtain ⟨v, code, diags, he⟩ := expression_extend ord e ctx top rest hb
    exact ⟨v, _, he, rfl⟩
  · obtain ⟨v, ctx2, hs, ⟨ls, hls⟩, _, _⟩ := statement_step ord s ctx top rest hb
    exact ⟨v, ctx2, ls, hs, hls, by rw [hls, hb]; rfl⟩
  · intro c
    obtain ⟨ctx3, h3, hblocks, _, _⟩ := functionDeclaration_of_body ord type id arguments body
      (fun c t r h => statements_step ord body none c t r h) c
    exact ⟨_, ctx3, h3, hblocks⟩
  · intro c
    obtain ⟨ctx2, hgen, hblocks, _⟩ := generateCode_step ord root c
    exact ⟨ctx2, hgen, hblocks⟩
  · obtain ⟨ctx2, hgen, hblocks, _⟩ := generateCode_step ord root CodeGenContext.fresh
    exact ⟨ctx2, hgen, hblocks⟩

/-- Witness of C19: a declaration of a function at top level, between statements
that use the top-level frame. -/
theorem scope_stack_discipline_witness :
    entryContext.blocks = { block := 0, locals := [] } :: [] ∧
    ((∃ v ctx2, NExpression.codeGen ArgOrder.leftToRight (NExpression.identifier "x")
        entryContext = Except.ok (v, ctx2) ∧
      ctx2.blocks = entryContext.blocks) ∧
    (∃ v ctx2 ls, NStatement.codeGen ArgOrder.leftToRight (NStatement.block programNested)
        entryContext = Except.ok (v, ctx2) ∧
      ctx2.blocks = { block := 0, locals := ls } :: [] ∧
      ctx2.blocks.length = entryContext.blocks.length) ∧
    (∀ c : CodeGenContext, ∃ v ctx2,
      NStatement.codeGen ArgOrder.leftToRight (NStatement.functionDeclaration "int" "g"
          [{ type := "int", id := "a", assignmentExpr := none }] programNested) c
        = Except.ok (v, ctx2) ∧
      ctx2.blocks = c.blocks) ∧
    (∀ c : CodeGenContext, ∃ ctx2,
      CodeGenContext.generateCode ArgOrder.leftToRight programNested c = Except.ok ctx2 ∧
      ctx2.blocks = c.blocks) ∧
    (∃ ctx2, CodeGenContext.generateCode ArgOrder.leftToRight programNested
        CodeGenContext.fresh = Except.ok ctx2 ∧
      ctx2.blocks = [])) :=
  ⟨rfl,
   scope_stack_discipline ArgOrder.leftToRight (NExpression.identifier "x")
     (NStatement.block programNested) "int" "g"
     [{ type := "int", id := "a", assignmentExpr := none }] programNested programNested
     entryContext { block := 0, locals := [] } [] rfl⟩

theorem codeGenList_append (ord : ArgOrder) (pre ss : List NStatement) :
    ∀ (last : Option Value) (ctx : CodeGenContext),
      NStatement.codeGenList ord (pre ++ ss) last ctx
        = (match NStatement.codeGenList ord pre last ctx with
           | Except.error e => Except.error e
           | Except.ok (v, c) => NStatement.codeGenList ord ss v c) := by
  induction pre with
  | nil =>
    intro last ctx
    simp only [List.nil_append, NStatement.codeGenList]
  | cons s pre ih =>
    intro last ctx
    simp only [List.cons_append, NStatement.codeGenList]
    cases NStatement.codeGen ord s ctx with
    | error e => rfl
    | ok p =>
      obtain ⟨v, c⟩ := p
      exact ih v c

/-- The code of a call: the code of the arguments, then one Call with what the
callee name resolves to; "no such function" is written first when it does not
resolve. -/
theorem methodCall_code (ord : ArgOrder) (id : String) (arguments : List NExpression)
    (ctx : CodeGenContext) (top : CodeGenBlock) (rest : List CodeGenBlock)
    (hb : ctx.blocks = top :: rest) :
    ∃ v vs code diags,
      NExpression.codeGen ord (NExpression.methodCall id arguments) ctx
        = Except.ok (some v,
            ctx.extend top.block (code ++ [Instruction.call (ctx.module.getFunction id) vs])
              ((if ctx.module.getFunction id = none then [Diagnostic.noSuchFunction id]
                else []) ++ diags)) ∧
      (∀ d ∈ diags, d.justified ctx.module) := by
  have h0 : (if ctx.module.getFunction id = none
      then ctx.report (Diagnostic.noSuchFunction id) else ctx)
      = ctx.extend top.block []
          (if ctx.module.getFunction id = none then [Diagnostic.noSuchFunction id] else []) := by
    by_cases hf : ctx.module.getFunction id = none
    · simp [hf, ctx.report_eq top.block]
    · simp [hf, CodeGenContext.extend_nil]
  obtain ⟨vs, code, diags, hargs, _, hdiags⟩ :=
    arguments_code ord arguments (ctx.extend top.block []
      (if ctx.module.getFunction id = none then [Diagnostic.noSuchFunction id] else []))
      top rest hb
  simp only [NExpression.codeGen]
  rw [h0, hargs]
  simp only [CodeGenContext.extend_extend]
  rw [CodeGenContext.currentBlock_of_blocks _ top rest (by exact hb)]
  simp only [CodeGenContext.emit_eq, CodeGenContext.extend_extend, List.nil_append,
    List.append_nil]
  exact ⟨_, vs, code, diags, rfl, fun d hd => justified_extend _ _ _ _ _ (hdiags d hd)⟩

/-- C12, as the code has it: a sub-expression that yields no value does not stop
the enclosing node, which neither tests the value nor writes a diagnostic of its own
nor returns early. On a non-empty scope stack: an assignment to a declared variable
whose right-hand side yields no value hands the context the right-hand side left,
the null value as value operand and the location of the variable as address to the
Store constructor for the current block, and returns what the constructor returns;
and a binary expression with operator `+ - * /` of which an operand yields no value
hands the context the operands left and the operand values, the null one in its
position, to the constructor of the arithmetic instruction and returns what it
returns. `CodeGenContext.emit` is the constructor call; the statement does not depend
on what the constructor does with a null operand. -/
theorem failure_not_propagated (ord : ArgOrder) (ctx : CodeGenContext)
    (top : CodeGenBlock) (rest : List CodeGenBlock) (hb : ctx.blocks = top :: rest) :
    (∀ (x : String) (e : NExpression) (loc : Value) (ctx1 : CodeGenContext),
      lookupLocal top.locals x = some loc →
      NExpression.codeGen ord e ctx = Except.ok (none, ctx1) →
      NStatement.codeGen ord (NStatement.assignment x e) ctx
          = Except.ok (some (ctx1.emit top.block (Instruction.store none loc)).1,
              (ctx1.emit top.block (Instruction.store none loc)).2)) ∧
    (∀ (op : Token) (instr : BinaryOps) (l r : NExpression) (lv rv : Option Value)
        (ctxa ctxb : CodeGenContext),
      (op, instr) ∈ [(Token.TPLUS, BinaryOps.Add), (Token.TMINUS, BinaryOps.Sub),
        (Token.TMUL, BinaryOps.Mul), (Token.TDIV, BinaryOps.SDiv)] →
      NExpression.codeGen ord (ord.first l r) ctx = Except.ok (ord.first lv rv, ctxa) →
      NExpression.codeGen ord (ord.second l r) ctxa = Except.ok (ord.second lv rv, ctxb) →
      (lv = none ∨ rv = none) →
      NExpression.codeGen ord (NExpression.binaryOperator op l r) ctx
          = Except.ok (some (ctxb.emit top.block (Instruction.binary instr lv rv)).1,
              (ctxb.emit top.block (Instruction.binary instr lv rv)).2)) := by
  constructor
  · intro x e loc ctx1 hx he
    obtain ⟨c, d, hc⟩ := expression_result ord e ctx ctx1 top rest hb none he
    have hb1 : ctx1.blocks = top :: rest := by rw [hc]; exact hb
    simp only [NStatement.codeGen, NAssignment.codeGen, ctx.locals_of_blocks top rest hb, hx, he,
      ctx1.currentBlock_of_blocks top rest hb1]
  · intro op instr l r lv rv ctxa ctxb hop h1 h2 _
    have hinstr := binaryOpsOf_table op instr hop
    obtain ⟨c1, d1, hc1⟩ := expression_result ord _ ctx ctxa top rest hb _ h1
    have hba : ctxa.blocks = top :: rest := by rw [hc1]; exact hb
    obtain ⟨c2, d2, hc2⟩ := expression_result ord _ ctxa ctxb top rest hba _ h2
    have hbb : ctxb.blocks = top :: rest := by rw [hc2]; exact hba
    cases ord with
    | leftToRight =>
      simp only [ArgOrder.first, ArgOrder.second] at h1 h2
      simp only [NExpression.codeGen, hinstr, h1, h2, ctxb.currentBlock_of_blocks top rest hbb]
    | rightToLeft =>
      simp only [ArgOrder.first, ArgOrder.second] at h1 h2
      simp only [NExpression.codeGen, hinstr, h1, h2, ctxb.currentBlock_of_blocks top rest hbb]

/-- Witness of C12: `a = y` where the current frame declares `a` and not `y`, and
`y + 1` in a frame without locals. -/
theorem failure_not_propagated_witness :
    (contextAB.blocks
        = { block := 0,
            locals := [("a", Value.instruction 0 0), ("b", Value.instruction 0 1)] } :: [] ∧
      entryContext.blocks = { block := 0, locals := [] } :: []) ∧
    (NStatement.codeGen ArgOrder.leftToRight
          (NStatement.assignment "a" (NExpression.identifier "y")) contextAB
        = Except.ok (some (contextABy.emit 0
              (Instruction.store none (Value.instruction 0 0))).1,
            (contextABy.emit 0 (Instruction.store none (Value.instruction 0 0))).2)) ∧
    (NExpression.codeGen ArgOrder.leftToRight
          (NExpression.binaryOperator Token.TPLUS (NExpression.identifier "y")
            (NExpression.integer 1)) entryContext
        = Except.ok (some (entryContextY.emit 0 (Instruction.binary BinaryOps.Add none
              (some (Value.constantInt IRType.int64 1)))).1,
            (entryContextY.emit 0 (Instruction.binary BinaryOps.Add none
              (some (Value.constantInt IRType.int64 1)))).2)) :=
  ⟨⟨rfl, rfl⟩,
   (failure_not_propagated ArgOrder.leftToRight contextAB
     { block := 0, locals := [("a", Value.instruction 0 0), ("b", Value.instruction 0 1)] } []
     rfl).1 "a" (NExpression.identifier "y") (Value.instruction 0 0) contextABy rfl rfl,
   (failure_not_propagated ArgOrder.leftToRight entryContext { block := 0, locals := [] } []
     rfl).2 Token.TPLUS BinaryOps.Add (NExpression.identifier "y") (NExpression.integer 1)
     none (some (Value.constantInt IRType.int64 1)) entryContextY entryContextY
     (by decide) rfl rfl (Or.inl rfl)⟩

/-- C12 fails as stated: with `a` declared and `y` not, the assignment `a = y`
does not fail after the diagnostic of `y`: it does not return the null value with
the context the right-hand side left, it returns what the Store constructor
returns for the null value operand and the location of `a`; and the binary
expression `y + a` likewise returns what the constructor of the add returns for
the null first operand. -/
theorem failed_operand_reaches_constructor :
    NExpression.codeGen ArgOrder.leftToRight (NExpression.identifier "y") contextAB
      = Except.ok (none, contextABy) ∧
    NStatement.codeGen ArgOrder.leftToRight
        (NStatement.assignment "a" (NExpression.identifier "y")) contextAB
      = Except.ok (some (contextABy.emit 0
            (Instruction.store none (Value.instruction 0 0))).1,
          (contextABy.emit 0 (Instruction.store none (Value.instruction 0 0))).2) ∧
    NStatement.codeGen ArgOrder.leftToRight
        (NStatement.assignment "a" (NExpression.identifier "y")) contextAB
      ≠ Except.ok (none, contextABy) ∧
    NExpression.codeGen ArgOrder.leftToRight
        (NExpression.binaryOperator Token.TPLUS (NExpression.identifier "y")
          (NExpression.identifier "a")) contextAB
      = Except.ok (some (contextAByA.emit 0 (Instruction.binary BinaryOps.Add none
            (some (Value.instruction 0 2)))).1,
          (contextAByA.emit 0 (Instruction.binary BinaryOps.Add none
            (some (Value.instruction 0 2)))).2) ∧
    NExpression.codeGen ArgOrder.leftToRight
        (NExpression.binaryOperator Token.TPLUS (NExpression.identifier "y")
          (NExpression.identifier "a")) contextAB
      ≠ Except.ok (none, contextAByA) := by
  refine ⟨rfl, rfl, ?_, rfl, ?_⟩
  · intro h
    have h2 : NStatement.codeGen ArgOrder.leftToRight
        (NStatement.assignment "a" (NExpression.identifier "y")) contextAB
        = Except.ok (some (contextABy.emit 0
            (Instruction.store none (Value.instruction 0 0))).1,
          (contextABy.emit 0 (Instruction.store none (Value.instruction 0 0))).2) := rfl
    rw [h2] at h
    injection h with h
    injection h with h _
    cases h
  · intro h
    have h2 : NExpression.codeGen ArgOrder.leftToRight
        (NExpression.binaryOperator Token.TPLUS (NExpression.identifier "y")
          (NExpression.identifier "a")) contextAB
        = Except.ok (some (contextAByA.emit 0 (Instruction.binary BinaryOps.Add none
            (some (Value.instruction 0 2)))).1,
          (contextAByA.emit 0 (Instruction.binary BinaryOps.Add none
            (some (Value.instruction 0 2)))).2) := rfl
    rw [h2] at h
    injection h with h
    injection h with h _
    cases h

theorem map_set_same {α β : Type} (g : α → β) (l : List α) (i : Nat) (a x : α)
    (hx : l[i]? = some x) (hg : g a = g x) : (l.set i a).map g = l.map g := by
  induction l generalizing i with
  | nil => rfl
  | cons y ys ih =>
    cases i with
    | zero =>
      simp only [List.getElem?_cons_zero, Option.some.injEq] at hx
      simp [hg, hx]
    | succ k =>
      simp only [List.getElem?_cons_succ] at hx
      simp [ih k hx]

theorem Module.headers_appendCode (m : Module) (b : Nat) (c : List Instruction) :
    (m.appendCode b c).functions.map Function.header = m.functions.map Function.header := by
  unfold Module.appendCode
  cases hf : m.functions[b]? with
  | none => rfl
  | some f => exact map_set_same Function.header m.functions b _ f hf rfl

theorem CodeGenContext.headers_extend (ctx : CodeGenContext) (b : Nat)
    (c : List Instruction) (d : List Diagnostic) :
    (ctx.extend b c d).module.functions.map Function.header
      = ctx.module.functions.map Function.header := by
  simp [CodeGenContext.extend, Module.headers_appendCode]

theorem CodeGenContext.mainFunction_bind (ctx : CodeGenContext) (x : String) (v : Value) :
    (ctx.bind x v).mainFunction = ctx.mainFunction := by
  unfold CodeGenContext.bind
  cases h : ctx.blocks <;> rfl

theorem headerStep_same (ctx ctx2 : CodeGenContext) (top : CodeGenBlock)
    (rest : List CodeGenBlock) (ls : List (String × Value))
    (hb : ctx2.blocks = { block := top.block, locals := ls } :: rest)
    (hm : ctx2.mainFunction = ctx.mainFunction)
    (hh : ctx2.module.functions.map Function.header
      = ctx.module.functions.map Function.header) :
    HeaderStep ctx top rest [] ctx2 :=
  ⟨⟨ls, hb⟩, hm, [], by rw [hh, List.append_nil], rfl⟩

theorem headerStep_trans (ctx ctx1 ctx2 : CodeGenContext) (top : CodeGenBlock)
    (rest : List CodeGenBlock) (n1 n2 : List (IRType × List IRType))
    (h1 : HeaderStep ctx top rest n1 ctx1)
    (h2 : ∀ ls, ctx1.blocks = { block := top.block, locals := ls } :: rest →
      HeaderStep ctx1 { block := top.block, locals := ls } rest n2 ctx2) :
    HeaderStep ctx top rest (n1 ++ n2) ctx2 := by
  obtain ⟨⟨ls, hls⟩, hm1, a1, ha1, hn1⟩ := h1
  obtain ⟨⟨ls2, hls2⟩, hm2, a2, ha2, hn2⟩ := h2 ls hls
  refine ⟨⟨ls2, hls2⟩, hm2.trans hm1, a1 ++ a2, ?_, ?_⟩
  · rw [ha2, ha1, List.append_assoc]
  · rw [List.map_append, hn1, hn2]

theorem headerStep_length (ctx ctx2 : CodeGenContext) (top : CodeGenBlock)
    (rest : List CodeGenBlock) (news : List (IRType × List IRType))
    (h : HeaderStep ctx top rest news ctx2) :
    ctx2.module.functions.length = ctx.module.functions.length + news.length := by
  obtain ⟨_, _, added, ha, hn⟩ := h
  have h1 := congrArg List.length ha
  have h2 := congrArg List.length hn
  simp only [List.length_map, List.length_append] at h1 h2
  omega

theorem expression_headers (ord : ArgOrder) (e : NExpression) (ctx : CodeGenContext)
    (top : CodeGenBlock) (rest : List CodeGenBlock) (hb : ctx.blocks = top :: rest) :
    ∃ v ctx2, NExpression.codeGen ord e ctx = Except.ok (v, ctx2) ∧
      HeaderStep ctx top rest [] ctx2 := by
  obtain ⟨v, code, diags, he⟩ := expression_extend ord e ctx top rest hb
  exact ⟨v, _, he, headerStep_same _ _ top rest top.locals hb rfl
    (CodeGenContext.headers_extend _ _ _ _)⟩

theorem assignment_headers (ord : ArgOrder) (x : String) (e : NExpression)
    (ctx : CodeGenContext) (top : CodeGenBlock) (rest : List CodeGenBlock)
    (hb : ctx.blocks = top :: rest) :
    ∃ v ctx2, NAssignment.codeGen ord x e ctx = Except.ok (v, ctx2) ∧
      HeaderStep ctx top rest [] ctx2 := by
  obtain ⟨v, code, diags, he⟩ := assignment_extend ord x e ctx top rest hb
  exact ⟨v, _, he, headerStep_same _ _ top rest top.locals hb rfl
    (CodeGenContext.headers_extend _ _ _ _)⟩

theorem variableDeclaration_headers (ord : ArgOrder) (d : NVariableDeclaration)
    (ctx : CodeGenContext) (top : CodeGenBlock) (rest : List CodeGenBlock)
    (hb : ctx.blocks = top :: rest) :
    ∃ v ctx2, NVariableDeclaration.codeGen ord d ctx = Except.ok (v, ctx2) ∧
      HeaderStep ctx top rest [] ctx2 := by
  obtain ⟨code, diags, hd⟩ := variableDeclaration_extend ord d ctx top rest hb
  refine ⟨_, _, hd, headerStep_same _ _ top rest _
    (CodeGenContext.blocks_bind _ top rest (by exact hb) _ _)
    (CodeGenContext.mainFunction_bind _ _ _) ?_⟩
  rw [CodeGenContext.module_bind, CodeGenContext.headers_extend]

theorem parameters_headers (ord : ArgOrder) (ds : List NVariableDeclaration) :
    ∀ (ctx : CodeGenContext) (top : CodeGenBlock) (rest : List CodeGenBlock),
      ctx.blocks = top :: rest →
      ∃ ctx2, codeGenParams ord ds ctx = Except.ok ctx2 ∧ HeaderStep ctx top rest [] ctx2 := by
  induction ds with
  | nil =>
    intro ctx top rest hb
    exact ⟨ctx, rfl, headerStep_same _ _ top rest top.locals hb rfl rfl⟩
  | cons d ds ih =>
    intro ctx top rest hb
    obtain ⟨v, ctx1, hd, hstep⟩ := variableDeclaration_headers ord d ctx top rest hb
    obtain ⟨ls, hls⟩ := hstep.1
    obtain ⟨ctx2, hps, hstep2⟩ := ih ctx1 _ rest hls
    refine ⟨ctx2, by simp only [codeGenParams, hd, hps], ?_⟩
    have := headerStep_trans _ _ _ top rest [] [] hstep (fun ls2 hls2 => by
      have heq : ls2 = ls := by
        have h3 := hls.symm.trans hls2
        simp only [List.cons.injEq, CodeGenBlock.mk.injEq, true_and, and_true] at h3
        exact h3.symm
      rw [heq]
      exact hstep2)
    simpa using this

/-- The body context of a function declaration adds exactly the declared function
to the module, with the declared signature, and with the declared name when that
name was free. -/
theorem bodyContext_headers (ord : ArgOrder) (type id : String)
    (arguments : List NVariableDeclaration) (ctx : CodeGenContext) :
    ∃ ctx1 ls nm,
      NFunctionDeclaration.bodyContext ord type id arguments ctx = Except.ok ctx1 ∧
      ctx1.blocks = { block := ctx.module.functions.length, locals := ls } :: ctx.blocks ∧
      ctx1.module.functions.map Function.header
        = ctx.module.functions.map Function.header
          ++ [(nm, typeOf type, arguments.map (fun a => typeOf a.type))] ∧
      ctx1.mainFunction = ctx.mainFunction ∧
      (ctx.module.hasName id = false → nm = id) := by
  obtain ⟨nm, hfs, hnm⟩ := Module.createFunction_functions ctx.module (typeOf type)
    (arguments.map (fun a => typeOf a.type)) id
  have hbp : (({ ctx with module := (ctx.module.createFunction (typeOf type)
        (arguments.map (fun a => typeOf a.type)) id).1 } : CodeGenContext).pushBlock
      ctx.module.functions.length).blocks
      = { block := ctx.module.functions.length, locals := [] } :: ctx.blocks := rfl
  obtain ⟨ctx1, hps, ⟨ls, hls⟩, hmf, added, hadd, hnil⟩ :=
    parameters_headers ord arguments _ _ _ hbp
  have hempty : added = [] := by
    cases added with
    | nil => rfl
    | cons a as => simp at hnil
  refine ⟨ctx1, ls, nm, hps, hls, ?_, hmf, hnm⟩
  rw [hadd, hempty, List.append_nil]
  show (ctx.module.createFunction (typeOf type)
      (arguments.map (fun a => typeOf a.type)) id).1.functions.map Function.header = _
  rw [hfs, List.map_append]
  rfl

theorem functionDeclaration_headers (ord : ArgOrder) (type id : String)
    (arguments : List NVariableDeclaration) (body : List NStatement)
    (hbody : ∀ (c : CodeGenContext) (t : CodeGenBlock) (r : List CodeGenBlock),
      c.blocks = t :: r →
      ∃ v c2, NStatement.codeGenList ord body none c = Except.ok (v, c2) ∧
        HeaderStep c t r (declaredFunctionsOf body) c2)
    (ctx : CodeGenContext) :
    ∃ ctx3 nm added,
      NStatement.codeGen ord (NStatement.functionDeclaration type id arguments body) ctx
        = Except.ok (some (Value.function ctx.module.functions.length), ctx3) ∧
      ctx3.blocks = ctx.blocks ∧
      ctx3.module.functions.map Function.header
        = ctx.module.functions.map Function.header
          ++ (nm, typeOf type, arguments.map (fun a => typeOf a.type)) :: added ∧
      added.map (fun h => h.2) = declaredFunctionsOf body ∧
      ctx3.mainFunction = ctx.mainFunction ∧
      (ctx.module.hasName id = false → nm = id) := by
  obtain ⟨ctx1, ls, nm, hbc, hls, hh1, hm1, hnm⟩ :=
    bodyContext_headers ord type id arguments ctx
  obtain ⟨v, ctx2, hb2, ⟨ls2, hls2⟩, hm2, added, hadd, hsig⟩ := hbody ctx1 _ _ hls
  simp only [] at hls2
  have hpop := CodeGenContext.popBlock_of_blocks
    (ctx2.extend ctx.module.functions.length [Instruction.ret] []) _ _ (by exact hls2)
  refine ⟨{ ctx2.extend ctx.module.functions.length [Instruction.ret] [] with
      blocks := ctx.blocks }, nm, added, ?_, rfl, ?_, hsig, hm2.trans hm1, hnm⟩
  · rw [functionDeclaration_unfold, hbc]
    simp only [NBlock.codeGen, hb2, NFunctionDeclaration.finish, CodeGenContext.emit_eq, hpop]
  · show (ctx2.extend ctx.module.functions.length [Instruction.ret] []).module.functions.map
      Function.header = _
    rw [CodeGenContext.headers_extend, hadd, hh1, List.append_assoc]
    rfl

mutual
/-- On a non-empty scope stack a statement adds to the module exactly the
functions it declares, in source order, and changes no name or signature. -/
theorem statement_headers (ord : ArgOrder) :
    ∀ (s : NStatement) (ctx : CodeGenContext) (top : CodeGenBlock) (rest : List CodeGenBlock),
      ctx.blocks = top :: rest →
      ∃ v ctx2, NStatement.codeGen ord s ctx = Except.ok (v, ctx2) ∧
        HeaderStep ctx top rest s.declaredFunctions ctx2
  | NStatement.block statements, ctx, top, rest, hb => by
    simp only [NStatement.codeGen, NStatement.declaredFunctions]
    exact statements_headers ord statements none ctx top rest hb
  | NStatement.assignment x e, ctx, top, rest, hb => by
    simp only [NStatement.codeGen, NStatement.declaredFunctions]
    exact assignment_headers ord x e ctx top rest hb
  | NStatement.expressionStatement e, ctx, top, rest, hb => by
    simp only [NStatement.codeGen, NExpressionStatement.codeGen, NStatement.declaredFunctions]
    exact expression_headers ord e ctx top rest hb
  | NStatement.variableDeclaration d, ctx, top, rest, hb => by
    simp only [NStatement.codeGen, NStatement.declaredFunctions]
    exact variableDeclaration_headers ord d ctx top rest hb
  | NStatement.functionDeclaration type id arguments body, ctx, top, rest, hb => by
    obtain ⟨ctx3, nm, added, h3, hblocks, hh, hsig, hm, _⟩ :=
      functionDeclaration_headers ord type id arguments body
        (fun c t r h => statements_headers ord body none c t r h) ctx
    refine ⟨_, ctx3, h3, ⟨top.locals, by rw [hblocks, hb]⟩, hm, _, hh, ?_⟩
    simp only [NStatement.declaredFunctions, List.map_cons, hsig]
/-- The statement loop of a block, likewise. -/
theorem statements_headers (ord : ArgOrder) :
    ∀ (ss : List NStatement) (last : Option Value) (ctx : CodeGenContext)
      (top : CodeGenBlock) (rest : List CodeGenBlock), ctx.blocks = top :: rest →
      ∃ v ctx2, NStatement.codeGenList ord ss last ctx = Except.ok (v, ctx2) ∧
        HeaderStep ctx top rest (declaredFunctionsOf ss) ctx2
  | [], last, ctx, top, rest, hb =>
    ⟨last, ctx, by simp only [NStatement.codeGenList], by
      simp only [declaredFunctionsOf]
      exact headerStep_same _ _ top rest top.locals hb rfl rfl⟩
  | s :: ss, last, ctx, top, rest, hb => by
    obtain ⟨v, ctx1, h1, hstep1⟩ := statement_headers ord s ctx top rest hb
    obtain ⟨ls, hls⟩ := hstep1.1
    obtain ⟨w, ctx2, h2, hstep2⟩ := statements_headers ord ss v ctx1 _ rest hls
    refine ⟨w, ctx2, by simp only [NStatement.codeGenList, h1, h2], ?_⟩
    simp only [declaredFunctionsOf]
    refine headerStep_trans _ _ _ top rest _ _ hstep1 ?_
    intro ls2 hls2
    have heq : ls2 = ls := by
      have h3 := hls.symm.trans hls2
      simp only [List.cons.injEq, CodeGenBlock.mk.injEq, true_and, and_true] at h3
      exact h3.symm
    rw [heq]
    exact hstep2
end

/-- The module driver adds to the module the entry function, void and without
parameters, and after it the declared functions of the program in source order;
it records the entry function as main function. -/
theorem generateCode_headers (ord : ArgOrder) (root : List NStatement)
    (ctx : CodeGenContext) :
    ∃ ctx2 nm added,
      CodeGenContext.generateCode ord root ctx = Except.ok ctx2 ∧
      ctx2.mainFunction = some ctx.module.functions.length ∧
      ctx2.module.functions.map Function.header
        = ctx.module.functions.map Function.header ++ (nm, IRType.void, []) :: added ∧
      added.map (fun h => h.2) = declaredFunctionsOf root ∧
      (ctx.module.hasName "main" = false → nm = "main") := by
  obtain ⟨nm, hfs, hnm⟩ := Module.createFunction_functions ctx.module IRType.void [] "main"
  have hbp : (({ ctx with module := (ctx.module.createFunction IRType.void [] "main").1,
                          mainFunction := some ctx.module.functions.length } :
      CodeGenContext).pushBlock ctx.module.functions.length).blocks
      = { block := ctx.module.functions.length, locals := [] } :: ctx.blocks := rfl
  obtain ⟨v, ctx1, h1, ⟨ls, hls⟩, hmain, added, hadd, hsig⟩ :=
    statements_headers ord root none _ _ _ hbp
  simp only [] at hls
  have hpop := CodeGenContext.popBlock_of_blocks
    (ctx1.extend ctx.module.functions.length [Instruction.ret] []) _ _ (by exact hls)
  refine ⟨{ ctx1.extend ctx.module.functions.length [Instruction.ret] [] with
      blocks := ctx.blocks }, nm, added, ?_, ?_, ?_, hsig, hnm⟩
  · simp only [CodeGenContext.generateCode, NBlock.codeGen, Module.createFunction] at h1 ⊢
    simp only [h1, CodeGenContext.emit_eq, hpop]
  · exact hmain
  · show (ctx1.extend ctx.module.functions.length [Instruction.ret] []).module.functions.map
      Function.header = _
    rw [CodeGenContext.headers_extend, hadd]
    show (ctx.module.createFunction IRType.void [] "main").1.functions.map Function.header
      ++ added = _
    rw [hfs, List.map_append, List.append_assoc]
    rfl

/-- C17: for every program, `generateCode` from a fresh context completes with the
scope stack empty again, and then the module holds exactly the functions the generator
created: first the entry function (the main function, named "main", void and without
parameters), and after it one function for every function declaration of the program,
declarations nested in function bodies and blocks included, in source order and with
the declared signature; and the entry block of every one of these functions ends with a
return and holds no other return. The return instruction carries no value, whatever the
body's last statement and whatever the declared return type. -/
theorem every_function_ends_with_one_return (ord : ArgOrder) (root : List NStatement) :
    ∃ ctx2, CodeGenContext.generateCode ord root CodeGenContext.fresh = Except.ok ctx2 ∧
      ctx2.blocks = [] ∧
      ctx2.mainFunction = some 0 ∧
      ctx2.module.functions.head?.map Function.header = some ("main", IRType.void, []) ∧
      ctx2.module.functions.map Function.signature
        = (IRType.void, []) :: declaredFunctionsOf root ∧
      ctx2.module.functions.length = 1 + (declaredFunctionsOf root).length ∧
      ∀ f ∈ ctx2.module.functions,
        ∃ body, f.entry = body ++ [Instruction.ret] ∧ Instruction.ret ∉ body := by
  obtain ⟨ctx2, hgen, hblocks, hw⟩ := generateCode_step ord root CodeGenContext.fresh
  obtain ⟨ctx3, nm, added, hgen3, hmain, hh, hsig, hnm⟩ :=
    generateCode_headers ord root CodeGenContext.fresh
  have heq : ctx3 = ctx2 := by
    have h := hgen3.symm.trans hgen
    simp only [Except.ok.injEq] at h
    exact h
  rw [heq] at hmain hh
  have hname : nm = "main" := hnm rfl
  rw [hname] at hh
  have hh2 : ctx2.module.functions.map Function.header
      = ("main", IRType.void, []) :: added := hh
  have hsigs : ctx2.module.functions.map Function.signature
      = (IRType.void, []) :: declaredFunctionsOf root := by
    have h2 := congrArg (List.map (fun h : String × IRType × List IRType => h.2)) hh2
    rw [List.map_map, List.map_cons, hsig] at h2
    exact h2
  refine ⟨ctx2, hgen, hblocks, hmain, ?_, hsigs, ?_, ?_⟩
  · have h2 := congrArg List.head? hh2
    rw [List.head?_map] at h2
    exact h2
  · have h2 := congrArg List.length hsigs
    simp only [List.length_map, List.length_cons] at h2
    omega
  · intro f hf
    obtain ⟨i, hi, hentry⟩ := blockOf_of_mem _ f hf
    have hfin := (hw wellFormed_fresh).finished i hi (by
      intro fr hfr
      rw [hblocks] at hfr
      simp [CodeGenContext.fresh] at hfr)
    rw [hentry] at hfin
    exact hfin

theorem resolves_extend (f : String) (n : Nat) (ctx : CodeGenContext) (b : Nat)
    (code : List Instruction) (diags : List Diagnostic) (h : ctx.Resolves f n) :
    (ctx.extend b code diags).Resolves f n := by
  obtain ⟨hf, top, rest, hb, hv⟩ := h
  refine ⟨by rw [CodeGenContext.getFunction_extend]; exact hf, top, rest, hb, ?_⟩
  rw [CodeGenContext.length_extend]
  exact hv

theorem resolves_expression (ord : ArgOrder) (f : String) (n : Nat) (e : NExpression)
    (c : CodeGenContext) (v : Option Value) (c1 : CodeGenContext)
    (he : NExpression.codeGen ord e c = Except.ok (v, c1)) (h : c.Resolves f n) :
    c1.Resolves f n := by
  obtain ⟨_, top, rest, hb, _⟩ := id h
  obtain ⟨w, code, diags, hx⟩ := expression_extend ord e c top rest hb
  have heq := he.symm.trans hx
  simp only [Except.ok.injEq, Prod.mk.injEq] at heq
  rw [heq.2]
  exact resolves_extend f n c _ _ _ h

theorem resolves_lookup (f : String) (n : Nat) (id : String) (c : CodeGenContext)
    (h : c.Resolves f n) :
    (if c.module.getFunction id = none
      then c.report (Diagnostic.noSuchFunction id) else c).Resolves f n := by
  by_cases hid : c.module.getFunction id = none
  · rw [if_pos hid, c.report_eq 0]
    exact resolves_extend f n c _ _ _ h
  · rw [if_neg hid]
    exact h

theorem resolves_arguments (ord : ArgOrder) (f : String) (n : Nat) (es : List NExpression)
    (c : CodeGenContext) (vs : List (Option Value)) (c1 : CodeGenContext)
    (he : NExpression.codeGenArgs ord es c = Except.ok (vs, c1)) (h : c.Resolves f n) :
    c1.Resolves f n := by
  obtain ⟨_, top, rest, hb, _⟩ := id h
  obtain ⟨w, code, diags, hx⟩ := arguments_extend ord es c top rest hb
  have heq := he.symm.trans hx
  simp only [Except.ok.injEq, Prod.mk.injEq] at heq
  rw [heq.2]
  exact resolves_extend f n c _ _ _ h

theorem resolves_step (f : String) (n : Nat) (c c2 : CodeGenContext) (top : CodeGenBlock)
    (rest : List CodeGenBlock) (news : List (IRType × List IRType))
    (hb : c.blocks = top :: rest) (hs : StepOK c top rest c2)
    (hh : HeaderStep c top rest news c2) (h : c.Resolves f n) : c2.Resolves f n := by
  obtain ⟨hf, t, r, hb2, hv⟩ := h
  have ht : t = top := by
    have h3 := hb2.symm.trans hb
    simp only [List.cons.injEq] at h3
    exact h3.1
  obtain ⟨ls, hls⟩ := hs.1
  refine ⟨hs.2.2 f n hf, _, _, hls, ?_⟩
  have hlen := headerStep_length c c2 top rest news hh
  rw [ht] at hv
  show top.block < c2.module.functions.length
  omega

theorem resolves_statements (ord : ArgOrder) (f : String) (n : Nat) (ss : List NStatement)
    (c : CodeGenContext) (v : Option Value) (c1 : CodeGenContext)
    (hs : NBlock.codeGen ord ss c = Except.ok (v, c1)) (h : c.Resolves f n) :
    c1.Resolves f n := by
  obtain ⟨_, top, rest, hb, _⟩ := id h
  obtain ⟨w, c2, h2, hstep⟩ := statements_step ord ss none c top rest hb
  obtain ⟨w3, c3, h3, hhead⟩ := statements_headers ord ss none c top rest hb
  have e2 := hs.symm.trans h2
  have e3 := hs.symm.trans h3
  simp only [Except.ok.injEq, Prod.mk.injEq] at e2 e3
  rw [← e2.2] at hstep
  rw [← e3.2] at hhead
  exact resolves_step f n c c1 top rest _ hb hstep hhead h

theorem resolves_parameters (ord : ArgOrder) (f : String) (n : Nat)
    (ds : List NVariableDeclaration) (c c1 : CodeGenContext)
    (hs : codeGenParams ord ds c = Except.ok c1) (h : c.Resolves f n) :
    c1.Resolves f n := by
  obtain ⟨_, top, rest, hb, _⟩ := id h
  obtain ⟨c2, h2, hstep⟩ := parameters_step ord ds c top rest hb
  obtain ⟨c3, h3, hhead⟩ := parameters_headers ord ds c top rest hb
  have e2 := hs.symm.trans h2
  have e3 := hs.symm.trans h3
  simp only [Except.ok.injEq] at e2 e3
  rw [← e2] at hstep
  rw [← e3] at hhead
  exact resolves_step f n c c1 top rest _ hb hstep hhead h

theorem resolves_declared (f : String) (n : Nat) (type x : String) (c : CodeGenContext)
    (bb : Nat) (c1 : CodeGenContext)
    (hd : (c.emit bb (Instruction.alloca (typeOf type) x)).2.declare x
      (c.emit bb (Instruction.alloca (typeOf type) x)).1 = Except.ok c1)
    (h : c.Resolves f n) : c1.Resolves f n := by
  obtain ⟨hf, top, rest, hb, hv⟩ := h
  rw [CodeGenContext.emit_eq] at hd
  have hbe : (c.extend bb [Instruction.alloca (typeOf type) x] []).blocks = top :: rest := hb
  rw [CodeGenContext.declare_of_blocks _ top rest hbe] at hd
  simp only [Except.ok.injEq] at hd
  rw [← hd]
  refine ⟨?_, _, _, CodeGenContext.blocks_bind _ top rest hbe x _, ?_⟩
  · rw [CodeGenContext.module_bind, CodeGenContext.getFunction_extend]
    exact hf
  · rw [CodeGenContext.module_bind, CodeGenContext.length_extend]
    exact hv

/-- After `Function::Create`, `BasicBlock::Create` and `pushBlock`: every name that
resolved resolves as before, a name that did not resolve and is the declared one
resolves to the new function, and the current block is the new function's. -/
theorem resolves_created (f : String) (n : Nat) (ret : IRType) (params : List IRType)
    (id : String) (c : CodeGenContext)
    (h : c.module.getFunction f = some n ∨
      (c.module.getFunction f = none ∧ id = f ∧ n = c.module.functions.length)) :
    (({ c with module := (c.module.createFunction ret params id).1 } :
      CodeGenContext).pushBlock c.module.functions.length).Resolves f n := by
  obtain ⟨nm, hfs, hnm⟩ := Module.createFunction_functions c.module ret params id
  refine ⟨?_, { block := c.module.functions.length, locals := [] }, c.blocks, rfl, ?_⟩
  · show (c.module.createFunction ret params id).1.getFunction f = some n
    rcases h with h | ⟨hnone, hid, hn⟩
    · exact Module.getFunction_of_append _ _ _ hfs f n h
    · rw [hid] at hnm hfs
      have hname := hnm (Module.hasName_of_getFunction_none _ _ hnone)
      have := Module.getFunction_new c.module _ _ hfs (by rw [hname]; exact hnone)
      rw [hname] at this
      rw [hid, hn]
      exact this
  · show c.module.functions.length < (c.module.createFunction ret params id).1.functions.length
    rw [hfs, List.length_append]
    simp

theorem expression_reaches (ord : ArgOrder) (f : String) (n : Nat) (e0 : NExpression)
    (c0 : CodeGenContext) (e : NExpression) (c : CodeGenContext)
    (hr : NExpression.Reaches ord e0 c0 e c) : c0.Resolves f n → c.Resolves f n := by
  induction hr with
  | here e c => exact fun h => h
  | argument id before a after c0 vs c1 e c hargs _ ih =>
    intro h
    exact ih (resolves_arguments ord f n before _ vs c1 hargs (resolves_lookup f n id c0 h))
  | firstOperand op instr l r c0 e c _ _ ih => exact ih
  | secondOperand op instr l r c0 v c1 e c _ hfirst _ ih =>
    intro h
    exact ih (resolves_expression ord f n _ c0 v c1 hfirst h)

theorem statement_reaches (ord : ArgOrder) (f : String) (n : Nat) (s0 : NStatement)
    (c0 : CodeGenContext) (e : NExpression) (c : CodeGenContext)
    (hr : NStatement.Reaches ord s0 c0 e c) : c0.Resolves f n → c.Resolves f n := by
  induction hr with
  | expression e0 c0 e c he => exact expression_reaches ord f n e0 c0 e c he
  | assigned x e0 c0 ls loc e c _ _ he => exact expression_reaches ord f n e0 c0 e c he
  | initialized d init c0 bb c1 e c _ _ hd _ ih =>
    intro h
    exact ih (resolves_declared f n d.type d.id c0 bb c1 hd h)
  | inBlock before s after c0 v c1 e c hbefore _ ih =>
    intro h
    exact ih (resolves_statements ord f n before c0 v c1 hbefore h)
  | inParameter type id before d after body c0 c1 e c hps _ ih =>
    intro h
    exact ih (resolves_parameters ord f n before _ c1 hps
      (resolves_created f n _ _ id c0 (Or.inl h.1)))
  | inBody type id arguments before s after c0 cB v c1 e c hB hbefore _ ih =>
    intro h
    exact ih (resolves_statements ord f n before cB v c1 hbefore
      (resolves_parameters ord f n arguments _ cB hB
        (resolves_created f n _ _ id c0 (Or.inl h.1))))

/-- Within the declaration of a function named `f`, where `f` did not resolve
before: wherever the generator comes to generate an expression, `f` resolves to the
function being generated. -/
theorem declaration_reaches (ord : ArgOrder) (type f : String)
    (params : List NVariableDeclaration) (body : List NStatement) (ctx : CodeGenContext)
    (hnone : ctx.module.getFunction f = none) (e : NExpression) (c : CodeGenContext)
    (hr : NStatement.Reaches ord (NStatement.functionDeclaration type f params body) ctx e c) :
    c.Resolves f ctx.module.functions.length := by
  cases hr with
  | inParameter _ _ before d after _ _ c1 _ _ hps hd =>
    exact statement_reaches ord f _ _ c1 e c hd
      (resolves_parameters ord f _ before _ c1 hps
        (resolves_created f _ _ _ f ctx (Or.inr ⟨hnone, rfl, rfl⟩)))
  | inBody _ _ _ before s after _ cB v c1 _ _ hB hbefore hs =>
    exact statement_reaches ord f _ s c1 e c hs
      (resolves_statements ord f _ before cB v c1 hbefore
        (resolves_parameters ord f _ params _ cB hB
          (resolves_created f _ _ _ f ctx (Or.inr ⟨hnone, rfl, rfl⟩))))

/-- Where `f` resolves to `n`, a call of `f` resolves: it appends to the current
block the code of the arguments and then a Call whose callee is the function `n`,
and writes no "no such function f". -/
theorem call_resolves (ord : ArgOrder) (f : String) (n : Nat) (args : List NExpression)
    (c : CodeGenContext) (h : c.Resolves f n) :
    ∃ top rest v ctxCall code vs diags,
      c.blocks = top :: rest ∧
      NExpression.codeGen ord (NExpression.methodCall f args) c
        = Except.ok (some v, ctxCall) ∧
      ctxCall.module.blockOf top.block
        = c.module.blockOf top.block ++ code ++ [Instruction.call (some n) vs] ∧
      ctxCall.cerr = c.cerr ++ diags ∧
      Diagnostic.noSuchFunction f ∉ diags := by
  obtain ⟨hf, top, rest, hb, hv⟩ := h
  obtain ⟨v, vs, code, diags, hcall, hdiags⟩ := methodCall_code ord f args c top rest hb
  rw [hf] at hcall
  simp only [reduceCtorEq, if_false, List.nil_append] at hcall
  refine ⟨top, rest, v, _, code, vs, diags, hb, hcall, ?_, ?_, ?_⟩
  · rw [CodeGenContext.blockOf_extend _ _ _ _ hv, List.append_assoc]
  · simp [CodeGenContext.extend]
  · intro hmem
    have hj := hdiags _ hmem
    simp only [Diagnostic.justified] at hj
    rw [hf] at hj
    cases hj

theorem quietStep_same (f : String) (c c2 : CodeGenContext) (h : c2.cerr = c.cerr) :
    QuietStep f c c2 :=
  ⟨[], by rw [h, List.append_nil], by simp⟩

theorem quietStep_trans (f : String) (c c1 c2 : CodeGenContext) (h1 : QuietStep f c c1)
    (h2 : QuietStep f c1 c2) : QuietStep f c c2 := by
  obtain ⟨d1, e1, n1⟩ := h1
  obtain ⟨d2, e2, n2⟩ := h2
  refine ⟨d1 ++ d2, by rw [e2, e1, List.append_assoc], ?_⟩
  intro hm
  rcases List.mem_append.mp hm with h | h
  · exact n1 h
  · exact n2 h

theorem quietStep_extend (f : String) (c : CodeGenContext) (b : Nat)
    (code : List Instruction) (diags : List Diagnostic)
    (h : Diagnostic.noSuchFunction f ∉ diags) : QuietStep f c (c.extend b code diags) :=
  ⟨diags, by simp [CodeGenContext.extend], h⟩

theorem quiet_of_justified (f : String) (n : Nat) (m : Module) (diags : List Diagnostic)
    (hf : m.getFunction f = some n) (h : ∀ d ∈ diags, d.justified m) :
    Diagnostic.noSuchFunction f ∉ diags := by
  intro hmem
  have hj := h _ hmem
  simp only [Diagnostic.justified] at hj
  rw [hf] at hj
  cases hj

theorem resolves_statement (ord : ArgOrder) (f : String) (n : Nat) (s : NStatement)
    (c : CodeGenContext) (v : Option Value) (c1 : CodeGenContext)
    (hs : NStatement.codeGen ord s c = Except.ok (v, c1)) (h : c.Resolves f n) :
    c1.Resolves f n := by
  obtain ⟨_, top, rest, hb, _⟩ := id h
  obtain ⟨w, c2, h2, hstep⟩ := statement_step ord s c top rest hb
  obtain ⟨w3, c3, h3, hhead⟩ := statement_headers ord s c top rest hb
  have e2 := hs.symm.trans h2
  have e3 := hs.symm.trans h3
  simp only [Except.ok.injEq, Prod.mk.injEq] at e2 e3
  rw [← e2.2] at hstep
  rw [← e3.2] at hhead
  exact resolves_step f n c c1 top rest _ hb hstep hhead h

theorem expression_quiet (ord : ArgOrder) (f : String) (n : Nat) (e : NExpression)
    (c : CodeGenContext) (h : c.Resolves f n) :
    ∃ v c2, NExpression.codeGen ord e c = Except.ok (v, c2) ∧ QuietStep f c c2 := by
  obtain ⟨hf, top, rest, hb, _⟩ := id h
  obtain ⟨v, code, diags, he, _, hd⟩ := expression_code ord e c top rest hb
  exact ⟨v, _, he, quietStep_extend f c _ _ _ (quiet_of_justified f n _ _ hf hd)⟩

theorem assignment_quiet (ord : ArgOrder) (f : String) (n : Nat) (x : String)
    (e : NExpression) (c : CodeGenContext) (h : c.Resolves f n) :
    ∃ v c2, NAssignment.codeGen ord x e c = Except.ok (v, c2) ∧ QuietStep f c c2 := by
  obtain ⟨hf, top, rest, hb, _⟩ := id h
  unfold NAssignment.codeGen
  rw [c.locals_of_blocks top rest hb]
  cases hl : lookupLocal top.locals x with
  | none =>
    simp only [hl, c.report_eq top.block]
    exact ⟨_, _, rfl, quietStep_extend f c _ _ _ (by simp)⟩
  | some loc =>
    obtain ⟨v, code, diags, he, _, hd⟩ := expression_code ord e c top rest hb
    simp only [hl, he]
    rw [CodeGenContext.currentBlock_of_blocks _ top rest (by exact hb)]
    simp only [CodeGenContext.emit_eq, CodeGenContext.extend_extend]
    refine ⟨_, _, rfl, quietStep_extend f c _ _ _ ?_⟩
    rw [List.append_nil]
    exact quiet_of_justified f n _ _ hf hd

theorem variableDeclaration_quiet (ord : ArgOrder) (f : String) (n : Nat)
    (d : NVariableDeclaration) (c : CodeGenContext) (h : c.Resolves f n) :
    ∃ v c2, NVariableDeclaration.codeGen ord d c = Except.ok (v, c2) ∧ QuietStep f c c2 := by
  obtain ⟨hf, top, rest, hb, hv⟩ := id h
  obtain ⟨type, x, init⟩ := d
  have hbe : (c.extend top.block [Instruction.alloca (typeOf type) x] []).blocks
      = top :: rest := hb
  have hq : QuietStep f c ((c.extend top.block [Instruction.alloca (typeOf type) x] []).bind x
      (Value.instruction top.block (c.module.blockOf top.block).length)) :=
    quietStep_same f _ _ (by rw [CodeGenContext.cerr_bind]; simp [CodeGenContext.extend])
  cases init with
  | none =>
    rw [variableDeclaration_without_initializer ord type x c top rest hb]
    exact ⟨_, _, rfl, hq⟩
  | some e =>
    rw [variableDeclaration_with_initializer ord type x e c top rest hb]
    have hres : ((c.extend top.block [Instruction.alloca (typeOf type) x] []).bind x
        (Value.instruction top.block (c.module.blockOf top.block).length)).Resolves f n := by
      refine ⟨?_, _, _, CodeGenContext.blocks_bind _ top rest hbe x _, ?_⟩
      · rw [CodeGenContext.module_bind, CodeGenContext.getFunction_extend]
        exact hf
      · rw [CodeGenContext.module_bind, CodeGenContext.length_extend]
        exact hv
    obtain ⟨v, c2, ha, hq2⟩ := assignment_quiet ord f n x e _ hres
    rw [ha]
    exact ⟨_, c2, rfl, quietStep_trans f _ _ _ hq hq2⟩

theorem parameters_quiet (ord : ArgOrder) (f : String) (n : Nat)
    (ds : List NVariableDeclaration) :
    ∀ (c : CodeGenContext), c.Resolves f n →
      ∃ c2, codeGenParams ord ds c = Except.ok c2 ∧ QuietStep f c c2 := by
  induction ds with
  | nil =>
    intro c _
    exact ⟨c, rfl, quietStep_same f c c rfl⟩
  | cons d ds ih =>
    intro c h
    obtain ⟨v, c1, hd, hq⟩ := variableDeclaration_quiet ord f n d c h
    have h1 := resolves_statement ord f n (NStatement.variableDeclaration d) c v c1
      (by simp only [NStatement.codeGen]; exact hd) h
    obtain ⟨c2, hps, hq2⟩ := ih c1 h1
    exact ⟨c2, by simp only [codeGenParams, hd, hps], quietStep_trans f _ _ _ hq hq2⟩

/-- A function declaration in whose body context `f` resolves to `m` and whose body
writes no "no such function f" wherever `f` resolves to `m`: it returns the new
function and writes no "no such function f". -/
theorem functionDeclaration_quiet (ord : ArgOrder) (f : String) (m : Nat) (type id : String)
    (arguments : List NVariableDeclaration) (body : List NStatement) (ctx : CodeGenContext)
    (hcreated : (({ ctx with module := (ctx.module.createFunction (typeOf type)
        (arguments.map (fun a => typeOf a.type)) id).1 } : CodeGenContext).pushBlock
      ctx.module.functions.length).Resolves f m)
    (hbody : ∀ (c : CodeGenContext), c.Resolves f m →
      ∃ v c2, NStatement.codeGenList ord body none c = Except.ok (v, c2) ∧ QuietStep f c c2) :
    ∃ ctx3,
      NStatement.codeGen ord (NStatement.functionDeclaration type id arguments body) ctx
        = Except.ok (some (Value.function ctx.module.functions.length), ctx3) ∧
      QuietStep f ctx ctx3 := by
  obtain ⟨cB, hB, hqB⟩ := parameters_quiet ord f m arguments _ hcreated
  have hresB := resolves_parameters ord f m arguments _ cB hB hcreated
  obtain ⟨v, c2, hb2, hq2⟩ := hbody cB hresB
  have hres2 := resolves_statements ord f m body cB v c2 hb2 hresB
  obtain ⟨_, t, r, hls2, _⟩ := hres2
  have hpop := CodeGenContext.popBlock_of_blocks
    (c2.extend ctx.module.functions.length [Instruction.ret] []) t r (by exact hls2)
  refine ⟨{ c2.extend ctx.module.functions.length [Instruction.ret] [] with blocks := r },
    ?_, ?_⟩
  · rw [functionDeclaration_unfold]
    have hbc : NFunctionDeclaration.bodyContext ord type id arguments ctx = Except.ok cB := hB
    rw [hbc]
    simp only [NBlock.codeGen, hb2, NFunctionDeclaration.finish, CodeGenContext.emit_eq, hpop]
  · have h1 : QuietStep f ctx cB := hqB
    refine quietStep_trans f _ _ _ (quietStep_trans f _ _ _ h1 hq2) ?_
    exact quietStep_same f _ _ (by simp [CodeGenContext.extend])

mutual
/-- Where `f` resolves, a statement writes no "no such function f". -/
theorem statement_quiet (ord : ArgOrder) (f : String) (n : Nat) :
    ∀ (s : NStatement) (c : CodeGenContext), c.Resolves f n →
      ∃ v c2, NStatement.codeGen ord s c = Except.ok (v, c2) ∧ QuietStep f c c2
  | NStatement.block statements, c, h => by
    simp only [NStatement.codeGen]
    exact statements_quiet ord f n statements none c h
  | NStatement.assignment x e, c, h => by
    simp only [NStatement.codeGen]
    exact assignment_quiet ord f n x e c h
  | NStatement.expressionStatement e, c, h => by
    simp only [NStatement.codeGen, NExpressionStatement.codeGen]
    exact expression_quiet ord f n e c h
  | NStatement.variableDeclaration d, c, h => by
    simp only [NStatement.codeGen]
    exact variableDeclaration_quiet ord f n d c h
  | NStatement.functionDeclaration type id arguments body, c, h => by
    obtain ⟨c3, h3, hq⟩ := functionDeclaration_quiet ord f n type id arguments body c
      (resolves_created f n _ _ id c (Or.inl h.1))
      (fun c2 h2 => statements_quiet ord f n body none c2 h2)
    exact ⟨_, c3, h3, hq⟩
/-- The statement loop of a block, likewise. -/
theorem statements_quiet (ord : ArgOrder) (f : String) (n : Nat) :
    ∀ (ss : List NStatement) (last : Option Value) (c : CodeGenContext), c.Resolves f n →
      ∃ v c2, NStatement.codeGenList ord ss last c = Except.ok (v, c2) ∧ QuietStep f c c2
  | [], last, c, _ =>
    ⟨last, c, by simp only [NStatement.codeGenList], quietStep_same f c c rfl⟩
  | s :: ss, last, c, h => by
    obtain ⟨v, c1, h1, hq1⟩ := statement_quiet ord f n s c h
    obtain ⟨w, c2, h2, hq2⟩ := statements_quiet ord f n ss v c1
      (resolves_statement ord f n s c v c1 h1 h)
    exact ⟨w, c2, by simp only [NStatement.codeGenList, h1, h2],
      quietStep_trans f _ _ _ hq1 hq2⟩
end

/-- C20: a function is registered in the module before its body is generated. On a
non-empty scope stack whose current block is a block of the module, for a function
declaration named `f` where no function of the module has that name. Before the
declaration: a call of `f` does not resolve, it writes "no such function f" and its
Call has a null callee. The declaration: the context in which the body is generated
resolves `f` to the function being generated; the declaration returns that function,
and its whole generation (parameters, body, nested declarations) writes no "no such
function f". Inside the declaration: wherever the generator comes to generate a call
of `f` (a statement of the body, an initializer, the right-hand side of an
assignment, an operand, an argument, a statement of a nested block or of a nested
function body), `f` resolves there to the function being generated, and the call
appends to the current block a Call whose callee is that function and writes no "no
such function f". -/
theorem function_registered_before_body (ord : ArgOrder) (type f : String)
    (params : List NVariableDeclaration) (body : List NStatement)
    (ctx : CodeGenContext) (top : CodeGenBlock)
    (rest : List CodeGenBlock) (hb : ctx.blocks = top :: rest)
    (hv : top.block < ctx.module.functions.length)
    (hnone : ctx.module.getFunction f = none) :
    (∀ args, ∃ v ctx2 code vs diags,
      NExpression.codeGen ord (NExpression.methodCall f args) ctx = Except.ok (some v, ctx2) ∧
      ctx2.module.blockOf top.block
        = ctx.module.blockOf top.block ++ code ++ [Instruction.call none vs] ∧
      ctx2.cerr = ctx.cerr ++ Diagnostic.noSuchFunction f :: diags) ∧
    (∃ ctxB ctx3 diags,
      NFunctionDeclaration.bodyContext ord type f params ctx = Except.ok ctxB ∧
      ctxB.module.getFunction f = some ctx.module.functions.length ∧
      ctxB.currentBlock = Except.ok ctx.module.functions.length ∧
      NStatement.codeGen ord (NStatement.functionDeclaration type f params body) ctx
        = NFunctionDeclaration.finish ctx.module.functions.length
            (NBlock.codeGen ord body ctxB) ∧
      NStatement.codeGen ord (NStatement.functionDeclaration type f params body) ctx
        = Except.ok (some (Value.function ctx.module.functions.length), ctx3) ∧
      ctx3.cerr = ctx.cerr ++ diags ∧
      Diagnostic.noSuchFunction f ∉ diags) ∧
    (∀ args c,
      NStatement.Reaches ord (NStatement.functionDeclaration type f params body) ctx
        (NExpression.methodCall f args) c →
      c.module.getFunction f = some ctx.module.functions.length ∧
      ∃ t r v ctxCall code vs diags,
        c.blocks = t :: r ∧
        NExpression.codeGen ord (NExpression.methodCall f args) c
          = Except.ok (some v, ctxCall) ∧
        ctxCall.module.blockOf t.block
          = c.module.blockOf t.block ++ code
            ++ [Instruction.call (some ctx.module.functions.length) vs] ∧
        ctxCall.cerr = c.cerr ++ diags ∧
        Diagnostic.noSuchFunction f ∉ diags) := by
  refine ⟨?_, ?_, ?_⟩
  · intro args
    obtain ⟨v, vs, code, diags, hcall, _⟩ := methodCall_code ord f args ctx top rest hb
    rw [hnone] at hcall
    simp only [if_true] at hcall
    refine ⟨v, _, code, vs, diags, hcall, ?_, ?_⟩
    · rw [CodeGenContext.blockOf_extend _ _ _ _ hv, List.append_assoc]
    · simp [CodeGenContext.extend]
  · obtain ⟨ctxB, ls, nm, hbc, hls, _, _, hnew, _, _⟩ :=
      bodyContext_step ord type f params ctx
    obtain ⟨ctx3, h3, diags, hd, hq⟩ :=
      functionDeclaration_quiet ord f ctx.module.functions.length type f params body ctx
        (resolves_created f _ _ _ f ctx (Or.inr ⟨hnone, rfl, rfl⟩))
        (fun c h => statements_quiet ord f _ body none c h)
    refine ⟨ctxB, ctx3, diags, hbc, hnew hnone,
      CodeGenContext.currentBlock_of_blocks _ _ _ hls, ?_, h3, hd, hq⟩
    rw [functionDeclaration_unfold, hbc]
  · intro args c hr
    have hres := declaration_reaches ord type f params body ctx hnone _ c hr
    refine ⟨hres.1, ?_⟩
    exact call_resolves ord f _ args c hres

/-- Generating `recursiveF` at top level, the generator comes to generate the call
`f(a)`, the first operand of the initializer of `y`, in the context `contextFY`. -/
theorem recursiveF_reaches :
    NStatement.Reaches ArgOrder.leftToRight recursiveF entryContext callFA contextFY :=
  NStatement.Reaches.inBody "int" "f" [{ type := "int", id := "a", assignmentExpr := none }]
    [] _ [] entryContext contextF none contextF callFA contextFY rfl rfl
    (NStatement.Reaches.initialized _ _ contextF 1 contextFY callFA contextFY rfl rfl rfl
      (NStatement.Reaches.assigned "y" _ contextFY
        [("a", Value.instruction 1 0), ("y", Value.instruction 1 1)] (Value.instruction 1 1)
        callFA contextFY rfl rfl
        (NExpression.Reaches.firstOperand Token.TPLUS BinaryOps.Add callFA
          (NExpression.integer 1) contextFY callFA contextFY rfl
          (NExpression.Reaches.here callFA contextFY))))

/-- Witness of C20: `f(a: int) -> int { int y = f(a) + 1; }` declared at top level.
The generator comes to generate the call `f(a)`, the first operand of the initializer
of `y`, in the context `contextFY`, and there `f` resolves to function 1, the function
being generated. -/
theorem function_registered_before_body_witness :
    (entryContext.blocks = { block := 0, locals := [] } :: [] ∧
      0 < entryContext.module.functions.length ∧
      entryContext.module.getFunction "f" = none) ∧
    NStatement.Reaches ArgOrder.leftToRight recursiveF entryContext callFA contextFY ∧
    contextFY.module.getFunction "f" = some 1 ∧
    ((∀ args, ∃ v ctx2 code vs diags,
      NExpression.codeGen ArgOrder.leftToRight (NExpression.methodCall "f" args) entryContext
        = Except.ok (some v, ctx2) ∧
      ctx2.module.blockOf 0
        = entryContext.module.blockOf 0 ++ code ++ [Instruction.call none vs] ∧
      ctx2.cerr = entryContext.cerr ++ Diagnostic.noSuchFunction "f" :: diags) ∧
    (∃ ctxB ctx3 diags,
      NFunctionDeclaration.bodyContext ArgOrder.leftToRight "int" "f"
          [{ type := "int", id := "a", assignmentExpr := none }] entryContext
        = Except.ok ctxB ∧
      ctxB.module.getFunction "f" = some entryContext.module.functions.length ∧
      ctxB.currentBlock = Except.ok entryContext.module.functions.length ∧
      NStatement.codeGen ArgOrder.leftToRight recursiveF entryContext
        = NFunctionDeclaration.finish entryContext.module.functions.length
            (NBlock.codeGen ArgOrder.leftToRight
              [NStatement.variableDeclaration
                { type := "int", id := "y",
                  assignmentExpr := some (NExpression.binaryOperator Token.TPLUS callFA
                    (NExpression.integer 1)) }] ctxB) ∧
      NStatement.codeGen ArgOrder.leftToRight recursiveF entryContext
        = Except.ok (some (Value.function entryContext.module.functions.length), ctx3) ∧
      ctx3.cerr = entryContext.cerr ++ diags ∧
      Diagnostic.noSuchFunction "f" ∉ diags) ∧
    (∀ args c,
      NStatement.Reaches ArgOrder.leftToRight recursiveF entryContext
        (NExpression.methodCall "f" args) c →
      c.module.getFunction "f" = some entryContext.module.functions.length ∧
      ∃ t r v ctxCall code vs diags,
        c.blocks = t :: r ∧
        NExpression.codeGen ArgOrder.leftToRight (NExpression.methodCall "f" args) c
          = Except.ok (some v, ctxCall) ∧
        ctxCall.module.blockOf t.block
          = c.module.blockOf t.block ++ code
            ++ [Instruction.call (some entryContext.module.functions.length) vs] ∧
        ctxCall.cerr = c.cerr ++ diags ∧
        Diagnostic.noSuchFunction "f" ∉ diags)) :=
  ⟨⟨rfl, by decide, by decide⟩,
   recursiveF_reaches,
   ((function_registered_before_body ArgOrder.leftToRight "int" "f"
     [{ type := "int", id := "a", assignmentExpr := none }]
     [NStatement.variableDeclaration
        { type := "int", id := "y",
          assignmentExpr := some (NExpression.binaryOperator Token.TPLUS callFA
            (NExpression.integer 1)) }]
     entryContext { block := 0, locals := [] } [] rfl (by decide) (by decide)).2.2
       [NExpression.identifier "a"] contextFY recursiveF_reaches).1,
   function_registered_before_body ArgOrder.leftToRight "int" "f"
     [{ type := "int", id := "a", assignmentExpr := none }]
     [NStatement.variableDeclaration
        { type := "int", id := "y",
          assignmentExpr := some (NExpression.binaryOperator Token.TPLUS callFA
            (NExpression.integer 1)) }]
     entryContext { block := 0, locals := [] } [] rfl (by decide) (by decide)⟩

end Toylang
